import Mathlib

set_option linter.unusedVariables false
set_option maxRecDepth 100000

/-!
Verification development for the arx archive engine (arx-core).

Bytes are modelled as `Nat` (u8 values in the real program). External crates
(blake3, zstd, chacha20poly1305, ciborium, serde_cbor) and the content-defined
chunker are abstracted as parameters collected in `Prims`; theorems assume
only the contracts those libraries guarantee (hash length, AEAD round trip,
codec round trip, serializer round trip).  Operations that in Rust return
`Result` are modelled in the `Out` monad; `Out.panic` models a Rust panic
(`.expect`, arithmetic overflow in debug builds, out-of-bounds indexing),
which is distinct from returning an error to the caller.
-/

namespace Arx

/-- Outcome of a Rust computation: normal return, error return, or panic. -/
inductive Out (α : Type) where
  | ok : α → Out α
  | err : String → Out α
  | panic : String → Out α
deriving DecidableEq, Repr

def Out.bind {α β : Type} : Out α → (α → Out β) → Out β
  | .ok a, f => f a
  | .err m, _ => .err m
  | .panic m, _ => .panic m

instance : Monad Out where
  pure := Out.ok
  bind := Out.bind

def Out.isOk {α : Type} : Out α → Bool
  | .ok _ => true
  | _ => false

def Out.isErr {α : Type} : Out α → Bool
  | .err _ => true
  | _ => false

/-- Little-endian base-256 digits, `k` bytes wide (u64 fields use `k = 8`). -/
def leBytes : Nat → Nat → List Nat
  | 0, _ => []
  | k + 1, n => n % 256 :: leBytes k (n / 256)

def le64 (n : Nat) : List Nat := leBytes 8 n

def le16 (n : Nat) : List Nat := leBytes 2 n

/-- Little-endian value of a byte list. -/
def deBytes : List Nat → Nat
  | [] => 0
  | b :: t => b + 256 * deBytes t

/-- u64 saturating addition (`u64::saturating_add`). -/
def satAdd (a b : Nat) : Nat := min (a + b) (2 ^ 64 - 1)

/-- Does `pat` occur at the head of `l`? -/
def leadsWith : List Nat → List Nat → Bool
  | [], _ => true
  | _ :: _, [] => false
  | p :: ps, x :: xs => p == x && leadsWith ps xs

/-- Does `pat` occur as a contiguous sublist of `l`? (`str::contains`) -/
def hasSub (pat : List Nat) : List Nat → Bool
  | [] => leadsWith pat []
  | x :: xs => leadsWith pat (x :: xs) || hasSub pat xs

/-- ASCII "ARXALP" (superblock magic). -/
def sbMagic : List Nat := [65, 82, 88, 65, 76, 80]

/-- ASCII "ARXTAIL\0" (tail magic). -/
def tailMagic : List Nat := [65, 82, 88, 84, 65, 73, 76, 0]

/-- ASCII "ARXLOG\0\0" (journal magic). -/
def jMagic : List Nat := [65, 82, 88, 76, 79, 71, 0, 0]

/-- ASCII "manifest" (AEAD associated data for the manifest region). -/
def adManifest : List Nat := [109, 97, 110, 105, 102, 101, 115, 116]

/-- ASCII "chunktab" (AEAD associated data for the chunk-table region). -/
def adChunktab : List Nat := [99, 104, 117, 110, 107, 116, 97, 98]

/-- ASCII "chunk" (AEAD associated data for chunk data). -/
def adChunk : List Nat := [99, 104, 117, 110, 107]

/-- ASCII "arxlog" (journal nonce domain label). -/
def jLabel : List Nat := [97, 114, 120, 108, 111, 103]

/-- ASCII "arx-core/chunked-alpha" (`Meta.tool`). -/
def toolBytes : List Nat :=
  [97, 114, 120, 45, 99, 111, 114, 101, 47, 99, 104, 117, 110, 107, 101, 100,
   45, 97, 108, 112, 104, 97]

/-- Superblock (container/superblock.rs); `HEADER_LEN = 48`. -/
structure SuperblockM where
  version : Nat
  manifest_len : Nat
  chunk_table_off : Nat
  chunk_count : Nat
  data_off : Nat
  flags : Nat
deriving DecidableEq, Repr

/-- Tail summary (container/tail.rs); on disk it is 120 bytes. -/
structure TailM where
  manifest_blake3 : List Nat
  chunktab_blake3 : List Nat
  data_blake3 : List Nat
  total_u : Nat
  total_c : Nat
deriving DecidableEq, Repr

/-- Chunk-table entry (container/chunktab.rs); `ENTRY_SIZE = 32`. -/
structure ChunkEntryM where
  codec : Nat
  u_size : Nat
  c_size : Nat
  data_off : Nat
deriving DecidableEq, Repr

/-- Manifest chunk reference (container/manifest.rs). -/
structure ChunkRefM where
  id : Nat
  u_size : Nat
deriving DecidableEq, Repr

/-- Manifest file entry (container/manifest.rs). Paths are byte strings. -/
structure FileEntryM where
  path : List Nat
  mode : Nat
  mtime : Int
  u_size : Nat
  chunk_refs : List ChunkRefM
deriving DecidableEq, Repr

/-- Manifest directory entry (container/manifest.rs). -/
structure DirEntryM where
  path : List Nat
  mode : Nat
  mtime : Int
deriving DecidableEq, Repr

/-- Manifest meta block (container/manifest.rs). -/
structure MetaM where
  created : Int
  tool : List Nat
deriving DecidableEq, Repr

/-- Manifest (container/manifest.rs). -/
structure ManifestM where
  files : List FileEntryM
  dirs : List DirEntryM
  meta : MetaM
deriving DecidableEq, Repr

/-- An input regular file handed to `pack` (relative path + metadata + bytes).
The recursive walk (`walkdir`, pack/walker.rs is not in the sources) is out of
scope; `pack` is modelled on the list of files/dirs it yields. -/
structure InFile where
  path : List Nat
  mode : Nat
  mtime : Int
  content : List Nat
deriving DecidableEq, Repr

/-- An input directory handed to `pack`. -/
structure InDir where
  path : List Nat
  mode : Nat
  mtime : Int
deriving DecidableEq, Repr

/-- The input tree for `pack`. -/
structure TreeM where
  files : List InFile
  dirs : List InDir
deriving DecidableEq, Repr

/-- PackOptions (pack/writer.rs). `min_gain` is a machine float in the source;
it is modelled by an exact rational. -/
structure PackOptsM where
  deterministic : Bool
  min_gain : ℚ
  aead_key : Option (List Nat)
  key_salt : List Nat
deriving DecidableEq, Repr

/-- ExtractOptions (read/extract.rs). -/
structure ExtOptsM where
  aead_key : Option (List Nat)
  key_salt : List Nat
deriving DecidableEq, Repr

/-- Chunk location tag in journal records (container/journal.rs `Loc`). -/
inductive LocM where
  | base
  | delta
deriving DecidableEq, Repr

/-- Journal chunk reference (container/journal.rs `ChunkRef`). -/
structure JChunkRefM where
  loc : LocM
  off : Nat
  len : Nat
  codec : Nat
  blake3 : List Nat
deriving DecidableEq, Repr

/-- Policy (policy.rs); `min_compression_ratio` is an f32 in the source,
modelled by an exact rational. -/
structure PolicyM where
  max_entries : Option Nat
  max_uncompressed : Option Nat
  max_delta_bytes : Option Nat
  min_compression_ratio : Option ℚ
  allow_symlinks : Bool
deriving DecidableEq, Repr

/-- Journal log record (container/journal.rs `LogRecord`). -/
inductive LogRecordM where
  | put (path : List Nat) (mode : Nat) (mtime : Nat) (size : Nat)
      (chunks : List JChunkRefM)
  | del (path : List Nat)
  | rename (src : List Nat) (dst : List Nat)
  | setPolicy (p : PolicyM)
  | note (text : List Nat)
deriving DecidableEq, Repr

/-- External primitives: hash, codec, AEAD, serializers, and the
content-defined chunker.  The chunker implementation
(src/arx-core/src/chunking/fastcdc.rs) is not among the sources; it is
modelled from the spec: a deterministic splitter whose output chunks
concatenate to the input (spec section 4.1, output contract). -/
structure Prims where
  b3 : List Nat → List Nat
  zstdC : List Nat → List Nat
  zstdD : List Nat → Option (List Nat)
  sealW : List Nat → List Nat → List Nat → List Nat → List Nat
  openW : List Nat → List Nat → List Nat → List Nat → Option (List Nat)
  encM : ManifestM → List Nat
  decM : List Nat → Option ManifestM
  encR : LogRecordM → List Nat
  decR : List Nat → Option LogRecordM
  chunker : List Nat → List (List Nat)

/-- Container-region nonce (crypto/aead.rs `derive_nonce`):
blake3(key_salt ∥ region byte ∥ counter as 8 LE bytes), truncated to 24. -/
def deriveNonce (P : Prims) (salt : List Nat) (region : Nat) (counter : Nat) :
    List Nat :=
  (P.b3 (salt ++ [region] ++ le64 counter)).take 24

/-- `open_whole` (crypto/aead.rs): AEAD open followed by `.expect("decrypt")`,
so an authentication failure is a panic, not an error return. -/
def openWhole (P : Prims) (key nonce ad ct : List Nat) : Out (List Nat) :=
  match P.openW key nonce ad ct with
  | some pt => .ok pt
  | none => .panic "decrypt"

/-- Superblock serialization (`Superblock::write_to`), 48 bytes. -/
def sbBytes (sb : SuperblockM) : List Nat :=
  sbMagic ++ le16 sb.version ++ le64 sb.manifest_len ++ le64 sb.chunk_table_off
    ++ le64 sb.chunk_count ++ le64 sb.data_off ++ le64 sb.flags

/-- Superblock parse (`Superblock::read_from`): read 48 bytes from the start,
check the magic, decode the little-endian fields. -/
def parseSb (f : List Nat) : Out SuperblockM :=
  if f.length < 48 then .err "short read"
  else if f.take 6 ≠ sbMagic then .err "bad magic"
  else
    .ok
      { version := deBytes ((f.drop 6).take 2)
        manifest_len := deBytes ((f.drop 8).take 8)
        chunk_table_off := deBytes ((f.drop 16).take 8)
        chunk_count := deBytes ((f.drop 24).take 8)
        data_off := deBytes ((f.drop 32).take 8)
        flags := deBytes ((f.drop 40).take 8) }

/-- Tail serialization (`TailSummary::write_to`), 120 bytes when the hash
fields are 32 bytes each. -/
def tailBytes (t : TailM) : List Nat :=
  tailMagic ++ t.manifest_blake3 ++ t.chunktab_blake3 ++ t.data_blake3
    ++ le64 t.total_u ++ le64 t.total_c

/-- Tail parse (`TailSummary::read_from`) on a 120-byte buffer. -/
def parseTail (b : List Nat) : Out TailM :=
  if b.length < 120 then .err "short read"
  else if b.take 8 ≠ tailMagic then .err "bad tail magic"
  else
    .ok
      { manifest_blake3 := (b.drop 8).take 32
        chunktab_blake3 := (b.drop 40).take 32
        data_blake3 := (b.drop 72).take 32
        total_u := deBytes ((b.drop 104).take 8)
        total_c := deBytes ((b.drop 112).take 8) }

/-- `read_tail_at_eof`: require ≥ 120 bytes, parse the last 120. -/
def readTailAtEof (f : List Nat) : Out TailM :=
  if f.length < 120 then .err "file too small for tail"
  else parseTail (f.drop (f.length - 120))

/-- Tail probe used by `list` and `Opened::open`: when the file is at least
120 bytes and the last 120 start with the tail magic, the data region ends
120 bytes before EOF; otherwise at EOF. -/
def probeTailEnd (f : List Nat) : Nat :=
  if 120 ≤ f.length ∧ (f.drop (f.length - 120)).take 8 = tailMagic then
    f.length - 120
  else f.length

/-- A seek to `off` followed by `read_exact` of `n` bytes. -/
def readExact (f : List Nat) (off n : Nat) : Out (List Nat) :=
  if off + n ≤ f.length then .ok ((f.drop off).take n)
  else .err "failed to fill whole buffer"

/-- One chunk-table entry serialized (`write_table` body):
codec byte, 7 pad bytes, u_size, c_size, data_off as LE u64. -/
def entryBytes (e : ChunkEntryM) : List Nat :=
  e.codec % 256 :: List.replicate 7 0 ++ le64 e.u_size ++ le64 e.c_size
    ++ le64 e.data_off

/-- `write_table`: 32 bytes per entry, in order. -/
def writeTable (es : List ChunkEntryM) : List Nat := (es.map entryBytes).flatten

/-- Parse one 32-byte entry. -/
def parseEntry (e : List Nat) : ChunkEntryM :=
  { codec := e.headD 0
    u_size := deBytes ((e.drop 8).take 8)
    c_size := deBytes ((e.drop 16).take 8)
    data_off := deBytes ((e.drop 24).take 8) }

/-- Parse `n` consecutive entries. -/
def parseEntries : Nat → List Nat → List ChunkEntryM
  | 0, _ => []
  | n + 1, buf => parseEntry (buf.take 32) :: parseEntries n (buf.drop 32)

/-- `read_table_from_slice`: the buffer length must be exactly count·32. -/
def readTableFromSlice (buf : List Nat) (count : Nat) : Out (List ChunkEntryM) :=
  if buf.length ≠ count * 32 then .err "chunk table size mismatch"
  else .ok (parseEntries count buf)

/-- `read_table` (chunktab.rs): checked count·32, then a buffer of at least
that length; extra trailing bytes are tolerated. -/
def readTableLoose (buf : List Nat) (count : Nat) : Out (List ChunkEntryM) :=
  if 2 ^ 64 ≤ count * 32 then .err "chunk table size overflow"
  else if buf.length < count * 32 then .err "failed to fill whole buffer"
  else .ok (parseEntries count buf)

/-- Codec-selection predicate (`should_compress`): the source compares
(u − c) ≥ u · min_gain in f64; this is the exact rational comparison,
written with the denominator cleared so that it evaluates over ℤ
(min_gain.den > 0, so the two forms are equivalent; see
`shouldCompress_iff`). -/
def shouldCompress (u c : Nat) (minGain : ℚ) : Bool :=
  decide (((u : ℤ) - (c : ℤ)) * (minGain.den : ℤ) ≥ (u : ℤ) * minGain.num)

/-- `effective_min_gain`: default 0.05 (= 1/20); non-positive caller values
replaced by the default. -/
def effectiveMinGain (opts : Option PackOptsM) : ℚ :=
  let val := match opts with
    | some o => o.min_gain
    | none => mkRat 1 20
  if val ≤ 0 then mkRat 1 20 else val

/-- Strict lexicographic order on byte strings, used to model
`Vec<PathBuf>::sort` on the collected relative paths. -/
def lexLt : List Nat → List Nat → Bool
  | [], [] => false
  | [], _ :: _ => true
  | _ :: _, [] => false
  | a :: as', b :: bs' => a < b || (a == b && lexLt as' bs')

/-- Stable insertion into a sorted list (insert after equal keys). -/
def insertLt {α : Type} (key : α → List Nat) (x : α) : List α → List α
  | [] => [x]
  | y :: t => if lexLt (key x) (key y) then x :: y :: t else y :: insertLt key x t

/-- Stable sort by path, modelling `files.sort()` / `dirs.sort()`. -/
def sortByPath {α : Type} (key : α → List Nat) : List α → List α
  | [] => []
  | x :: t => insertLt key x (sortByPath key t)

/-- Per-chunk planning record (writer.rs `NewChunk`);
`c_size` is the compressed size without the AEAD tag. -/
structure NewChunkM where
  hash : List Nat
  u_size : Nat
  c_size : Nat
  codec : Nat
  file_off : Nat
deriving DecidableEq, Repr

/-- Per-file planning record (writer.rs `FilePlan`).  `content` carries the
file bytes; the source keeps only the path and re-opens the file, which the
model reflects by slicing `content` at the recorded offsets. -/
structure FilePlanM where
  path : List Nat
  mode : Nat
  mtime : Int
  u_size : Nat
  chunks : List NewChunkM
  content : List Nat
deriving DecidableEq, Repr

/-- First-occurrence plan (writer.rs `ChunkPlan`): where to re-read the bytes
of a unique chunk.  `srcContent` stands for the source file named by `src`. -/
structure ChunkPlanM where
  srcContent : List Nat
  off : Nat
  len : Nat
  codec : Nat
deriving DecidableEq, Repr

/-- Codec and compressed size chosen for one chunk during planning
(writer.rs lines 159-171): trial-compress with zstd level 3, accept iff
`should_compress`, else store verbatim. -/
def chunkCodecSize (P : Prims) (g : ℚ) (c : List Nat) : Nat × Nat :=
  let z := (P.zstdC c).length
  if shouldCompress c.length z g then (1, z) else (0, c.length)

/-- Plan the chunks of one file, tracking the in-file offset. -/
def planChunks (P : Prims) (g : ℚ) : List (List Nat) → Nat → List NewChunkM
  | [], _ => []
  | c :: rest, off =>
      { hash := P.b3 c
        u_size := c.length
        c_size := (chunkCodecSize P g c).2
        codec := (chunkCodecSize P g c).1
        file_off := off } :: planChunks P g rest (off + c.length)

/-- Phase A for one file: run the chunker, hash / trial-compress each chunk. -/
def planFile (P : Prims) (g : ℚ) (f : InFile) : FilePlanM :=
  { path := f.path
    mode := f.mode
    mtime := f.mtime
    u_size := ((P.chunker f.content).map List.length).sum
    chunks := planChunks P g (P.chunker f.content) 0
    content := f.content }

/-- Dedup state (writer.rs lines 203-206): the hash → id map (a `HashMap` in
the source, modelled as an association list, only `get`/`insert` are used),
the chunk-table entries so far, and the first-occurrence plans. -/
structure DState where
  map : List (List Nat × Nat)
  entries : List ChunkEntryM
  plans : List ChunkPlanM
deriving DecidableEq, Repr

/-- Association-list lookup for the hash → id map. -/
def alookup : List (List Nat × Nat) → List Nat → Option Nat
  | [], _ => none
  | (k, v) :: t, h => if k = h then some v else alookup t h

/-- Phase B for one chunk (writer.rs lines 210-244): duplicate chunks reuse
the mapped id; first occurrences append an entry (c_size grows by the 16-byte
AEAD tag when sealing) and a re-read plan, and record the hash. -/
def addChunk (encOn : Bool) (fp : FilePlanM) (st : DState) (nc : NewChunkM) :
    DState × ChunkRefM :=
  match alookup st.map nc.hash with
  | some id => (st, { id := id, u_size := nc.u_size })
  | none =>
      let id := st.entries.length
      let csz := if encOn then nc.c_size + 16 else nc.c_size
      ({ map := st.map ++ [(nc.hash, id)]
         entries := st.entries ++
           [{ codec := nc.codec, u_size := nc.u_size, c_size := csz,
              data_off := 0 }]
         plans := st.plans ++
           [{ srcContent := fp.content, off := nc.file_off, len := nc.u_size,
              codec := nc.codec }] },
       { id := id, u_size := nc.u_size })

/-- Phase B inner loop over one file's chunks, collecting its refs. -/
def addChunks (encOn : Bool) (fp : FilePlanM) (st : DState) :
    List NewChunkM → DState × List ChunkRefM
  | [] => (st, [])
  | nc :: rest =>
      let (st', r) := addChunk encOn fp st nc
      let (st'', rs) := addChunks encOn fp st' rest
      (st'', r :: rs)

/-- Phase B for one file, yielding its manifest entry (mtime zeroed in
deterministic mode, writer.rs line 250). -/
def addFile (encOn det : Bool) (st : DState) (fp : FilePlanM) :
    DState × FileEntryM :=
  let (st', refs) := addChunks encOn fp st fp.chunks
  (st', { path := fp.path, mode := fp.mode,
          mtime := if det then 0 else fp.mtime,
          u_size := fp.u_size, chunk_refs := refs })

/-- Phase B over all files in order. -/
def dedupAll (encOn det : Bool) (st : DState) :
    List FilePlanM → DState × List FileEntryM
  | [] => (st, [])
  | fp :: rest =>
      let (st', fe) := addFile encOn det st fp
      let (st'', fes) := dedupAll encOn det st' rest
      (st'', fe :: fes)

/-- Phase C offset patching (writer.rs lines 327-331): assign each entry's
absolute `data_off`, advancing the cursor by its on-disk `c_size`. -/
def patchEntries (cursor : Nat) : List ChunkEntryM → List ChunkEntryM
  | [] => []
  | e :: t => { e with data_off := cursor } :: patchEntries (cursor + e.c_size) t

/-- Phase D per-chunk re-read + compress (writer.rs lines 375-405): slice the
source range, then store verbatim or zstd-compress; unknown codec ids error. -/
def compOf (P : Prims) (cp : ChunkPlanM) : Out (List Nat) :=
  let plain := (cp.srcContent.drop cp.off).take cp.len
  if cp.codec = 0 then .ok plain
  else if cp.codec = 1 then .ok (P.zstdC plain)
  else .err "unknown codec id"

/-- Phase D over all unique chunks in id order. -/
def compAll (P : Prims) : List ChunkPlanM → Out (List (List Nat))
  | [] => .ok []
  | cp :: rest => do
      let c ← compOf P cp
      let cs ← compAll P rest
      .ok (c :: cs)

/-- Pure shadow of `compOf` for plans whose codec is 0 or 1 (always the case
for plans produced by planning). -/
def compPure (P : Prims) (cp : ChunkPlanM) : List Nat :=
  let plain := (cp.srcContent.drop cp.off).take cp.len
  if cp.codec = 1 then P.zstdC plain else plain

/-- The sorted file list `pack` processes (writer.rs line 131). -/
def packFilesSorted (T : TreeM) : List InFile := sortByPath InFile.path T.files

/-- The sorted dir list `pack` processes (writer.rs line 130). -/
def packDirsSorted (T : TreeM) : List InDir := sortByPath InDir.path T.dirs

/-- The (key, salt) pair when sealing is enabled (writer.rs line 201). -/
def packEnc (opts : Option PackOptsM) : Option (List Nat × List Nat) :=
  opts.bind fun o => o.aead_key.map fun k => (k, o.key_salt)

/-- Deterministic flag (writer.rs line 195). -/
def packDet (opts : Option PackOptsM) : Bool :=
  (opts.map PackOptsM.deterministic).getD false

/-- Phase A over the sorted files. -/
def packFps (P : Prims) (T : TreeM) (opts : Option PackOptsM) : List FilePlanM :=
  (packFilesSorted T).map (planFile P (effectiveMinGain opts))

/-- Phase B result: final dedup state and the manifest file entries. -/
def packDedup (P : Prims) (T : TreeM) (opts : Option PackOptsM) :
    DState × List FileEntryM :=
  dedupAll (packEnc opts).isSome (packDet opts) ⟨[], [], []⟩ (packFps P T opts)

/-- Manifest assembled by `pack` (writer.rs lines 256-283); `now` stands for
`OffsetDateTime::now_utc().unix_timestamp()`. -/
def packManifest (P : Prims) (now : Int) (T : TreeM) (opts : Option PackOptsM) :
    ManifestM :=
  { files := (packDedup P T opts).2
    dirs := (packDirsSorted T).map fun d =>
      { path := d.path, mode := d.mode,
        mtime := if packDet opts then 0 else d.mtime }
    meta := { created := if packDet opts then 0 else now, tool := toolBytes } }

/-- Manifest plaintext (CBOR in the source, abstract `encM` here). -/
def packManifestPlain (P : Prims) (now : Int) (T : TreeM)
    (opts : Option PackOptsM) : List Nat :=
  P.encM (packManifest P now T opts)

/-- Manifest region bytes on disk (sealed when a key is given). -/
def packManB (P : Prims) (now : Int) (T : TreeM) (opts : Option PackOptsM) :
    List Nat :=
  match packEnc opts with
  | some (k, s) =>
      P.sealW k (deriveNonce P s 1 0) adManifest (packManifestPlain P now T opts)
  | none => packManifestPlain P now T opts

/-- `chunk_table_off = HEADER_LEN + manifest_len` (writer.rs line 323). -/
def packCto (P : Prims) (now : Int) (T : TreeM) (opts : Option PackOptsM) : Nat :=
  48 + (packManB P now T opts).length

/-- On-disk chunk-table length: count·32 plus one tag when sealed. -/
def packTableLen (P : Prims) (T : TreeM) (opts : Option PackOptsM) : Nat :=
  if (packEnc opts).isSome then (packDedup P T opts).1.entries.length * 32 + 16
  else (packDedup P T opts).1.entries.length * 32

/-- `data_off = chunk_table_off + table_len` (writer.rs line 324). -/
def packDoff (P : Prims) (now : Int) (T : TreeM) (opts : Option PackOptsM) : Nat :=
  packCto P now T opts + packTableLen P T opts

/-- Chunk-table entries with their absolute data offsets patched in. -/
def packEntries (P : Prims) (now : Int) (T : TreeM) (opts : Option PackOptsM) :
    List ChunkEntryM :=
  patchEntries (packDoff P now T opts) (packDedup P T opts).1.entries

/-- Chunk-table plaintext (serialized after patching, writer.rs line 335). -/
def packTablePlain (P : Prims) (now : Int) (T : TreeM)
    (opts : Option PackOptsM) : List Nat :=
  writeTable (packEntries P now T opts)

/-- Chunk-table region bytes on disk. -/
def packTabB (P : Prims) (now : Int) (T : TreeM) (opts : Option PackOptsM) :
    List Nat :=
  match packEnc opts with
  | some (k, s) =>
      P.sealW k (deriveNonce P s 2 0) adChunktab (packTablePlain P now T opts)
  | none => packTablePlain P now T opts

/-- Post-compress, pre-AEAD chunk plaintexts in id order (pure shadow of the
Phase D loop, equal to it because planned codecs are 0 or 1). -/
def packComps (P : Prims) (T : TreeM) (opts : Option PackOptsM) :
    List (List Nat) :=
  (packDedup P T opts).1.plans.map (compPure P)

/-- On-disk data pieces: each comp sealed with counter = chunk id. -/
def packPieces (P : Prims) (T : TreeM) (opts : Option PackOptsM) :
    List (List Nat) :=
  match packEnc opts with
  | some (k, s) =>
      (packComps P T opts).enum.map fun ic =>
        P.sealW k (deriveNonce P s 3 ic.1) adChunk ic.2
  | none => packComps P T opts

/-- Tail `total_u`: saturating sum of `plan.len` over unique chunks. -/
def packTotalU (P : Prims) (T : TreeM) (opts : Option PackOptsM) : Nat :=
  (packDedup P T opts).1.plans.foldl (fun a p => satAdd a p.len) 0

/-- Tail `total_c`: saturating sum of comp lengths over unique chunks. -/
def packTotalC (P : Prims) (T : TreeM) (opts : Option PackOptsM) : Nat :=
  (packComps P T opts).foldl (fun a c => satAdd a c.length) 0

/-- Tail summary written by `pack` (writer.rs lines 438-444). -/
def packTail (P : Prims) (now : Int) (T : TreeM) (opts : Option PackOptsM) :
    TailM :=
  { manifest_blake3 := P.b3 (packManifestPlain P now T opts)
    chunktab_blake3 := P.b3 (packTablePlain P now T opts)
    data_blake3 := P.b3 (packComps P T opts).flatten
    total_u := packTotalU P T opts
    total_c := packTotalC P T opts }

/-- Final superblock (writer.rs lines 426-433); VERSION = 3. -/
def packSb (P : Prims) (now : Int) (T : TreeM) (opts : Option PackOptsM) :
    SuperblockM :=
  { version := 3
    manifest_len := (packManB P now T opts).length
    chunk_table_off := packCto P now T opts
    chunk_count := (packDedup P T opts).1.entries.length
    data_off := packDoff P now T opts
    flags := if (packEnc opts).isSome then 1 else 0 }

/-- Assemble the archive bytes from the data-phase comps.  The writer seeks
to HEADER_LEN, chunk_table_off, each entry's data_off, and EOF in turn; those
targets are exactly the concatenation boundaries (each sealed region is
plaintext + 16 bytes), so the file is the concatenation of the regions. -/
def packAssemble (P : Prims) (now : Int) (T : TreeM) (opts : Option PackOptsM)
    (comps : List (List Nat)) : List Nat :=
  let pieces : List (List Nat) :=
    match packEnc opts with
    | some (k, s) => comps.enum.map fun ic =>
        P.sealW k (deriveNonce P s 3 ic.1) adChunk ic.2
    | none => comps
  let tail : TailM :=
    { manifest_blake3 := P.b3 (packManifestPlain P now T opts)
      chunktab_blake3 := P.b3 (packTablePlain P now T opts)
      data_blake3 := P.b3 comps.flatten
      total_u := packTotalU P T opts
      total_c := comps.foldl (fun a c => satAdd a c.length) 0 }
  sbBytes (packSb P now T opts) ++ packManB P now T opts ++ packTabB P now T opts
    ++ pieces.flatten ++ tailBytes tail

/-- The archive bytes produced by a successful `pack`. -/
def packFile (P : Prims) (now : Int) (T : TreeM) (opts : Option PackOptsM) :
    List Nat :=
  packAssemble P now T opts (packComps P T opts)

/-- `pack` (writer.rs): the whole write path, returning the archive bytes.
The only model-visible failure is the unknown-codec arm of Phase D. -/
def packModel (P : Prims) (now : Int) (T : TreeM) (opts : Option PackOptsM) :
    Out (List Nat) :=
  (compAll P (packDedup P T opts).1.plans).bind fun comps =>
    .ok (packAssemble P now T opts comps)

/-- Is a manifest path rejected by `safe_join` (read/extract.rs lines
130-138)?  Absolute (leading 47, a slash), or containing the byte triples
"../" ([46,46,47]) or a dot-dot-backslash ([46,46,92]). -/
def badPath (rel : List Nat) : Bool :=
  (rel.headD 0 == 47) || hasSub [46, 46, 47] rel || hasSub [46, 46, 92] rel

/-- `safe_join`: reject bad paths, otherwise join to the destination root
(the returned path is the sanitized relative, to be read under the root). -/
def safeJoin (rel : List Nat) : Out (List Nat) :=
  if badPath rel then .err "unsafe path" else .ok rel

/-- Shared encryption-option resolution of `extract`/`verify` (extract.rs
lines 25-38, 151-164): an encrypted archive demands options with a key. -/
def resolveEnc (encOn : Bool) (opts : Option ExtOptsM) :
    Out (Option (List Nat × List Nat)) :=
  if encOn then
    match opts with
    | none => .err "archive is encrypted; key required"
    | some o =>
        match o.aead_key with
        | none => .err "missing aead_key"
        | some k => .ok (some (k, o.key_salt))
  else .ok none

/-- Decrypt a region if sealing is on (`open_whole` panics on failure). -/
def decryptRegion (P : Prims) (enc : Option (List Nat × List Nat))
    (region counter : Nat) (ad ct : List Nat) : Out (List Nat) :=
  match enc with
  | some (k, s) => openWhole P k (deriveNonce P s region counter) ad ct
  | none => .ok ct

/-- Extract loop over one file's chunk refs (extract.rs lines 82-118):
look up the table entry (Rust indexing panics when out of bounds), read
`c_size` bytes at `data_off`, decrypt with counter = chunk id, then write the
stored bytes or the zstd-decoded stream. -/
def extractChunks (P : Prims) (f : List Nat)
    (enc : Option (List Nat × List Nat)) (table : List ChunkEntryM) :
    List ChunkRefM → Out (List Nat)
  | [] => .ok []
  | cref :: rest =>
      match table.get? cref.id with
      | none => .panic "index out of bounds"
      | some ce => do
          let cbuf ← readExact f ce.data_off ce.c_size
          let comp ← decryptRegion P enc 3 cref.id adChunk cbuf
          let bytes ←
            if ce.codec = 0 then .ok comp
            else if ce.codec = 1 then
              match P.zstdD comp with
              | some b => Out.ok b
              | none => Out.err "zstd decode"
            else .err "unknown codec"
          let restBytes ← extractChunks P f enc table rest
          .ok (bytes ++ restBytes)

/-- Extract loop over files (extract.rs lines 75-125): sanitize the path,
write the chunks, then require the written size to equal `u_size`. -/
def extractFiles (P : Prims) (f : List Nat)
    (enc : Option (List Nat × List Nat)) (table : List ChunkEntryM) :
    List FileEntryM → Out (List (List Nat × List Nat))
  | [] => .ok []
  | fe :: rest => do
      let outp ← safeJoin fe.path
      let bytes ← extractChunks P f enc table fe.chunk_refs
      if bytes.length ≠ fe.u_size then .err "extracted size mismatch"
      else do
        let restFiles ← extractFiles P f enc table rest
        .ok ((outp, bytes) :: restFiles)

/-- Directory creation loop (extract.rs lines 68-71). -/
def extractDirs : List DirEntryM → Out (List (List Nat))
  | [] => .ok []
  | d :: rest => do
      let p ← safeJoin d.path
      let ps ← extractDirs rest
      .ok (p :: ps)

/-- What `extract` creates under the destination root. -/
structure Extracted where
  dirs : List (List Nat)
  files : List (List Nat × List Nat)
deriving DecidableEq, Repr

/-- `extract` (read/extract.rs lines 20-128) on the archive bytes.  The
`data_off − chunk_table_off` u64 subtraction panics (debug profile) when the
superblock is inverted. -/
def extractModel (P : Prims) (f : List Nat) (opts : Option ExtOptsM) :
    Out Extracted := do
  let sb ← parseSb f
  let enc ← resolveEnc (sb.flags % 2 = 1) opts
  let manB ← readExact f 48 sb.manifest_len
  let manPlain ← decryptRegion P enc 1 0 adManifest manB
  let manifest ←
    match P.decM manPlain with
    | some m => Out.ok m
    | none => Out.err "cbor decode"
  let tlen ←
    if sb.data_off < sb.chunk_table_off then
      Out.panic "attempt to subtract with overflow"
    else Out.ok (sb.data_off - sb.chunk_table_off)
  let tB ← readExact f sb.chunk_table_off tlen
  let tPlain ← decryptRegion P enc 2 0 adChunktab tB
  let table ← readTableLoose tPlain sb.chunk_count
  let dirs ← extractDirs manifest.dirs
  let files ← extractFiles P f enc table manifest.files
  .ok { dirs := dirs, files := files }

/-- Verifier loop over table entries (extract.rs lines 201-216): read and
decrypt each chunk, feed the post-compress plaintext to the data hasher
(modelled as the accumulated concatenation), saturating-add the totals. -/
def verifyChunks (P : Prims) (f : List Nat)
    (enc : Option (List Nat × List Nat)) :
    Nat → List ChunkEntryM → List Nat → Nat → Nat →
    Out (List Nat × Nat × Nat)
  | _, [], acc, tu, tc => .ok (acc, tu, tc)
  | id, ce :: rest, acc, tu, tc => do
      let cbuf ← readExact f ce.data_off ce.c_size
      let comp ← decryptRegion P enc 3 id adChunk cbuf
      verifyChunks P f enc (id + 1) rest (acc ++ comp) (satAdd tu ce.u_size)
        (satAdd tc comp.length)

/-- `verify` (read/extract.rs lines 140-233) on the archive bytes. -/
def verifyModel (P : Prims) (f : List Nat) (opts : Option ExtOptsM) :
    Out Unit := do
  let sb ← parseSb f
  let _tail0 ← readTailAtEof f
  let enc ← resolveEnc (sb.flags % 2 = 1) opts
  let manB ← readExact f 48 sb.manifest_len
  let manPlain ← decryptRegion P enc 1 0 adManifest manB
  let tlen ←
    if sb.data_off < sb.chunk_table_off then
      Out.panic "attempt to subtract with overflow"
    else Out.ok (sb.data_off - sb.chunk_table_off)
  let tB ← readExact f sb.chunk_table_off tlen
  let tabPlain ← decryptRegion P enc 2 0 adChunktab tB
  let table ← readTableLoose tabPlain sb.chunk_count
  let res ← verifyChunks P f enc 0 table [] 0 0
  let tail := _tail0
  if tail.manifest_blake3 = P.b3 manPlain ∧
      tail.chunktab_blake3 = P.b3 tabPlain ∧
      tail.data_blake3 = P.b3 res.1 ∧
      tail.total_u = res.2.1 ∧ tail.total_c = res.2.2 then
    .ok ()
  else .err "verify mismatch (tail)"

/-- Per-entry bound check of `list` (list.rs lines 248-270) and
`Opened::open` (opened.rs lines 108-118): each chunk's
`[data_off, data_off + c_size)` must stay within the data region (the end
computed with `saturating_add`). -/
def chunkBoundsOk (dataOff fileEnd : Nat) (es : List ChunkEntryM) : Bool :=
  es.all fun ce => decide (dataOff ≤ ce.data_off) &&
    decide (satAdd ce.data_off ce.c_size ≤ fileEnd)

/-- Final `list` loop (list.rs lines 273-286): summing `c_size` over each
file's refs indexes the table, panicking on an out-of-range id. -/
def listSum : List ChunkEntryM → List ChunkRefM → Out Unit
  | _, [] => .ok ()
  | table, cref :: rest =>
      match table.get? cref.id with
      | none => .panic "index out of bounds"
      | some _ => listSum table rest

def listFiles (table : List ChunkEntryM) : List FileEntryM → Out Unit
  | [] => .ok ()
  | fe :: rest => do
      let _ ← listSum table fe.chunk_refs
      listFiles table rest

/-- Option resolution of `list` (list.rs lines 100-125). -/
def resolveEncL (encOn : Bool) (opts : Option ExtOptsM) :
    Out (Option (List Nat × List Nat)) :=
  if encOn then
    match opts with
    | none => .err "archive is encrypted"
    | some o =>
        match o.aead_key with
        | none => .err "missing key for encrypted archive"
        | some k => .ok (some (k, o.key_salt))
  else .ok none

/-- `list` (list.rs lines 19-289) on the archive bytes: superblock, tail
probe, the superblock bound checks, region reads, exact table length check,
per-entry bound checks, then the printing loop. -/
def listModel (P : Prims) (f : List Nat) (opts : Option ExtOptsM) :
    Out Unit := do
  let sb ← parseSb f
  let fe := probeTailEnd f
  let manifestEnd ←
    if 2 ^ 64 ≤ 48 + sb.manifest_len then Out.err "manifest_len overflow"
    else Out.ok (48 + sb.manifest_len)
  let _ ← if manifestEnd > fe then Out.err "manifest end beyond file end"
    else Out.ok ()
  let _ ← if sb.chunk_table_off < 48 ∨ sb.chunk_table_off > fe then
      Out.err "bad chunk_table_off"
    else Out.ok ()
  let _ ← if sb.data_off < sb.chunk_table_off ∨ sb.data_off > fe then
      Out.err "bad data_off"
    else Out.ok ()
  let tableCtLen := sb.data_off - sb.chunk_table_off
  let enc ← resolveEncL (sb.flags % 2 = 1) opts
  let mB ← readExact f 48 sb.manifest_len
  let manPlain ← decryptRegion P enc 1 0 adManifest mB
  let manifest ←
    match P.decM manPlain with
    | some m => Out.ok m
    | none => Out.err "cbor decode"
  let tB ← readExact f sb.chunk_table_off tableCtLen
  let rawTable ← decryptRegion P enc 2 0 adChunktab tB
  let _ ← if rawTable.length ≠ sb.chunk_count * 32 then
      Out.err "chunk table size mismatch"
    else Out.ok ()
  let table ← readTableFromSlice rawTable sb.chunk_count
  let _ ← if chunkBoundsOk sb.data_off fe table then Out.ok ()
    else Out.err "chunk out of bounds"
  listFiles table manifest.files

/-- The state `Opened::open` returns. -/
structure OpenedM where
  sb : SuperblockM
  manifest : ManifestM
  table : List ChunkEntryM
  file_end_for_data : Nat
deriving DecidableEq, Repr

/-- `Opened::open` (read/opened.rs lines 44-132): superblock, tail probe,
manifest, chunk table (u64 length subtraction — panic when inverted), exact
plaintext length check, per-entry bound checks.  Note: no superblock-level
bound check relating manifest end, chunk_table_off and data_off is made. -/
def openedModel (P : Prims) (f : List Nat) (key : Option (List Nat))
    (salt : List Nat) : Out OpenedM := do
  let sb ← parseSb f
  let fe := probeTailEnd f
  let encOn := sb.flags % 2 = 1
  let mB ← readExact f 48 sb.manifest_len
  let manPlain ←
    if encOn then
      match key with
      | none => Out.err "encrypted; key and key-salt required"
      | some k => openWhole P k (deriveNonce P salt 1 0) adManifest mB
    else Out.ok mB
  let manifest ←
    match P.decM manPlain with
    | some m => Out.ok m
    | none => Out.err "cbor decode"
  let tlen ←
    if sb.data_off < sb.chunk_table_off then
      Out.panic "attempt to subtract with overflow"
    else Out.ok (sb.data_off - sb.chunk_table_off)
  let tB ← readExact f sb.chunk_table_off tlen
  let rawTable ←
    if encOn then
      match key with
      | none => Out.panic "Option unwrap on None"
      | some k => openWhole P k (deriveNonce P salt 2 0) adChunktab tB
    else Out.ok tB
  let _ ← if rawTable.length ≠ sb.chunk_count * 32 then
      Out.err "chunk table size mismatch"
    else Out.ok ()
  let table ← readTableFromSlice rawTable sb.chunk_count
  let _ ← if chunkBoundsOk sb.data_off fe table then Out.ok ()
    else Out.err "chunk out of bounds"
  .ok { sb := sb, manifest := manifest, table := table, file_end_for_data := fe }

/-- Journal encryption mode (container/journal.rs `EncMode`). -/
inductive EncModeM where
  | plain
  | aead (key : List Nat) (salt : List Nat)
deriving DecidableEq, Repr

/-- `put_uvarint`: LEB128-style little-endian base-128. -/
def putUvarint (x : Nat) : List Nat :=
  if x < 128 then [x]
  else (x % 128 + 128) :: putUvarint (x / 128)
decreasing_by exact Nat.div_lt_self (by omega) (by omega)

/-- `uvarint_len`: the canonical encoded length of a value. -/
def uvarintLen (x : Nat) : Nat :=
  if x < 128 then 1 else 1 + uvarintLen (x / 128)
decreasing_by exact Nat.div_lt_self (by omega) (by omega)

/-- `get_uvarint` inner loop: up to 10 bytes; end of input mid-varint is a
clean EOF (`Ok(None)`); each accumulation is a u64 or-shift. -/
def getUvarintAux : Nat → List Nat → Nat → Nat → Out (Option (Nat × Nat))
  | 0, _, _, _ => .err "varint too long"
  | _ + 1, [], _, _ => .ok none
  | fuel + 1, b :: rest, x, s =>
      if b % 256 < 128 then .ok (some ((x + b % 256 * 2 ^ s) % 2 ^ 64, rest.length))
      else getUvarintAux fuel rest ((x + b % 256 % 128 * 2 ^ s) % 2 ^ 64) (s + 7)

/-- `get_uvarint` on the remaining bytes: the value and the length of the
remainder after the varint. -/
def getUvarint (l : List Nat) : Out (Option (Nat × Nat)) :=
  getUvarintAux 10 l 0 0

/-- Journal header bytes: magic, version 1, flags, salt (42 bytes). -/
def journalHeader (flags : Nat) (salt : List Nat) : List Nat :=
  jMagic ++ [1] ++ [flags] ++ salt

/-- Journal record nonce (journal.rs lines 105-112 / 268-275):
blake3("arxlog" ∥ salt ∥ payload_off LE ∥ cipher_len LE), truncated to 24. -/
def jNonce (P : Prims) (salt : List Nat) (payloadOff cipherLen : Nat) :
    List Nat :=
  (P.b3 (jLabel ++ salt ++ le64 payloadOff ++ le64 cipherLen)).take 24

/-- `Journal::append` serialized bytes for one record at stream position
`pos` (journal.rs lines 246-291).  In AEAD mode the nonce binds the payload
offset (after the varint) and the ciphertext length; the journal AEAD uses
no associated data. -/
def appendBytes (P : Prims) (enc : EncModeM) (salt : List Nat) (pos : Nat)
    (r : LogRecordM) : List Nat :=
  let plain := P.encR r
  match enc with
  | .plain => putUvarint plain.length ++ plain
  | .aead key _ =>
      let cipherLen := plain.length + 16
      let payloadOff := pos + uvarintLen cipherLen
      let ct := P.sealW key (jNonce P salt payloadOff cipherLen) [] plain
      putUvarint ct.length ++ ct

/-- Appending a sequence of records to the journal file contents. -/
def appendAll (P : Prims) (enc : EncModeM) (salt : List Nat)
    (content : List Nat) : List LogRecordM → List Nat
  | [] => content
  | r :: rs =>
      appendAll P enc salt (content ++ appendBytes P enc salt content.length r) rs

/-- `read_next_record` + the `JournalIter` loop (journal.rs lines 74-126):
read records from position `pos` until a clean EOF; a short varint or a short
payload is EOF; AEAD or CBOR failures are errors. -/
def readRecords (P : Prims) (enc : EncModeM) (salt : List Nat) :
    Nat → List Nat → Out (List LogRecordM)
  | pos, l =>
    match getUvarint l with
    | .err m => .err m
    | .panic m => .panic m
    | .ok none => .ok []
    | .ok (some (len, restLen)) =>
        let consumed := l.length - restLen
        -- A parsed varint always consumes at least one byte; this guard
        -- only serves termination.
        if hcz : consumed = 0 then .panic "unreachable"
        else
        let rest := l.drop consumed
        let payloadOff := pos + uvarintLen len
        if rest.length < len then .ok []
        else
          let buf := rest.take len
          match enc with
          | .plain =>
              match P.decR buf with
              | none => .err "cbor decode"
              | some r =>
                  match readRecords P enc salt (pos + consumed + len)
                      (rest.drop len) with
                  | .ok rs => .ok (r :: rs)
                  | .err m => .err m
                  | .panic m => .panic m
          | .aead key _ =>
              match P.openW key (jNonce P salt payloadOff len) [] buf with
              | none => .err "aead decrypt failed"
              | some plain =>
                  match P.decR plain with
                  | none => .err "cbor decode"
                  | some r =>
                      match readRecords P enc salt (pos + consumed + len)
                          (rest.drop len) with
                      | .ok rs => .ok (r :: rs)
                      | .err m => .err m
                      | .panic m => .panic m
  termination_by _ l => l.length
  decreasing_by
    all_goals
      simp only [List.length_drop]
      omega

/-- `Journal::iter`: seek to the 42-byte header end, then read records. -/
def journalIter (P : Prims) (enc : EncModeM) (salt : List Nat)
    (content : List Nat) : Out (List LogRecordM) :=
  readRecords P enc salt 42 (content.drop 42)

/-- Flags/salt a fresh header would be given for a mode (journal.rs 177-180). -/
def headerFor (enc : EncModeM) : Nat × List Nat :=
  match enc with
  | .plain => (0, List.replicate 32 0)
  | .aead _ salt => (1, salt)

/-- `Journal::open` (journal.rs lines 168-243) modelled on the prior file
contents (`none` = the file did not exist).  Returns the resulting file
contents together with the in-memory `flags` and `salt`.  A pre-existing
file with a wrong 8-byte magic is truncated to zero and re-initialized with
a fresh header; a matching magic has version, flags and salt read back
(missing flags ⇒ legacy plain; a truncated salt is an error), and an
AEAD-flagged file opened without a key is refused. -/
def journalOpen (existing : Option (List Nat)) (enc : EncModeM) :
    Out (List Nat × Nat × List Nat) := do
  let hs ←
    match existing with
    | none =>
        let (flags, salt) := headerFor enc
        Out.ok (journalHeader flags salt, flags, salt)
    | some c =>
        if c.length < 8 then Out.err "failed to fill whole buffer"
        else if c.take 8 ≠ jMagic then
          let (flags, salt) := headerFor enc
          Out.ok (journalHeader flags salt, flags, salt)
        else if c.length < 9 then Out.err "failed to fill whole buffer"
        else if c.length = 9 then Out.ok (c, 0, List.replicate 32 0)
        else if c.length < 42 then Out.err "failed to fill whole buffer"
        else Out.ok (c, c.getD 9 0, (c.drop 10).take 32)
  let (content, flags, salt) := hs
  if flags % 2 = 1 then
    match enc with
    | .plain => Out.err "journal is AEAD-sealed; provide key and key-salt"
    | .aead _ _ => Out.ok (content, flags, salt)
  else Out.ok (content, flags, salt)

/-! Concrete instantiations of the external primitives, used to witness the
theorems on closed inputs.  They satisfy exactly the contracts the theorems
assume (digest length, AEAD round trip and tag length, codec round trip,
injective serialization), not the cryptographic strength of the originals. -/

/-- Equivalence underlying the serializer for manifest chunk refs. -/
def chunkRefEqv : ChunkRefM ≃ ℕ × ℕ where
  toFun c := (c.id, c.u_size)
  invFun p := ⟨p.1, p.2⟩
  left_inv c := rfl
  right_inv p := rfl

instance : Encodable ChunkRefM := Encodable.ofEquiv _ chunkRefEqv

/-- Equivalence underlying the serializer for manifest file entries. -/
def fileEntryEqv : FileEntryM ≃ List ℕ × ℕ × ℤ × ℕ × List ChunkRefM where
  toFun f := (f.path, f.mode, f.mtime, f.u_size, f.chunk_refs)
  invFun p := ⟨p.1, p.2.1, p.2.2.1, p.2.2.2.1, p.2.2.2.2⟩
  left_inv f := rfl
  right_inv p := rfl

instance : Encodable FileEntryM := Encodable.ofEquiv _ fileEntryEqv

/-- Equivalence underlying the serializer for manifest dir entries. -/
def dirEntryEqv : DirEntryM ≃ List ℕ × ℕ × ℤ where
  toFun d := (d.path, d.mode, d.mtime)
  invFun p := ⟨p.1, p.2.1, p.2.2⟩
  left_inv d := rfl
  right_inv p := rfl

instance : Encodable DirEntryM := Encodable.ofEquiv _ dirEntryEqv

/-- Equivalence underlying the serializer for the manifest meta block. -/
def metaEqv : MetaM ≃ ℤ × List ℕ where
  toFun m := (m.created, m.tool)
  invFun p := ⟨p.1, p.2⟩
  left_inv m := rfl
  right_inv p := rfl

instance : Encodable MetaM := Encodable.ofEquiv _ metaEqv

/-- Equivalence underlying the manifest serializer. -/
def manifestEqv : ManifestM ≃ List FileEntryM × List DirEntryM × MetaM where
  toFun m := (m.files, m.dirs, m.meta)
  invFun p := ⟨p.1, p.2.1, p.2.2⟩
  left_inv m := rfl
  right_inv p := rfl

instance : Encodable ManifestM := Encodable.ofEquiv _ manifestEqv

/-- Equivalence for journal chunk locations. -/
def locEqv : LocM ≃ Bool where
  toFun l := match l with | .base => false | .delta => true
  invFun b := match b with | false => .base | true => .delta
  left_inv l := by cases l <;> rfl
  right_inv b := by cases b <;> rfl

instance : Encodable LocM := Encodable.ofEquiv _ locEqv

/-- Equivalence for journal chunk refs. -/
def jChunkRefEqv : JChunkRefM ≃ LocM × ℕ × ℕ × ℕ × List ℕ where
  toFun c := (c.loc, c.off, c.len, c.codec, c.blake3)
  invFun p := ⟨p.1, p.2.1, p.2.2.1, p.2.2.2.1, p.2.2.2.2⟩
  left_inv c := rfl
  right_inv p := rfl

instance : Encodable JChunkRefM := Encodable.ofEquiv _ jChunkRefEqv

/-- Equivalence for policies. -/
def policyEqv : PolicyM ≃ Option ℕ × Option ℕ × Option ℕ × Option ℚ × Bool where
  toFun p := (p.max_entries, p.max_uncompressed, p.max_delta_bytes,
    p.min_compression_ratio, p.allow_symlinks)
  invFun p := ⟨p.1, p.2.1, p.2.2.1, p.2.2.2.1, p.2.2.2.2⟩
  left_inv p := rfl
  right_inv p := rfl

instance : Encodable PolicyM := Encodable.ofEquiv _ policyEqv

/-- Equivalence for journal log records. -/
def logRecordEqv :
    LogRecordM ≃
      (List ℕ × ℕ × ℕ × ℕ × List JChunkRefM) ⊕
        (List ℕ ⊕ ((List ℕ × List ℕ) ⊕ (PolicyM ⊕ List ℕ))) where
  toFun r :=
    match r with
    | .put p m t s c => Sum.inl (p, m, t, s, c)
    | .del p => Sum.inr (Sum.inl p)
    | .rename a b => Sum.inr (Sum.inr (Sum.inl (a, b)))
    | .setPolicy p => Sum.inr (Sum.inr (Sum.inr (Sum.inl p)))
    | .note t => Sum.inr (Sum.inr (Sum.inr (Sum.inr t)))
  invFun x :=
    match x with
    | Sum.inl (p, m, t, s, c) => .put p m t s c
    | Sum.inr (Sum.inl p) => .del p
    | Sum.inr (Sum.inr (Sum.inl (a, b))) => .rename a b
    | Sum.inr (Sum.inr (Sum.inr (Sum.inl p))) => .setPolicy p
    | Sum.inr (Sum.inr (Sum.inr (Sum.inr t))) => .note t
  left_inv r := by cases r <;> rfl
  right_inv x := by
    rcases x with ⟨p, m, t, s, c⟩ | p | ⟨a, b⟩ | p | t <;> rfl

instance : Encodable LogRecordM := Encodable.ofEquiv _ logRecordEqv

/-- Witness digest: first 32 bytes zero-padded (length 32 always). -/
def b3W (b : List Nat) : List Nat := (b ++ List.replicate 32 0).take 32

/-- Witness AEAD tag: a one-byte checksum padded to 16 bytes. -/
def tagW (k n ad pt : List Nat) : List Nat :=
  (k ++ n ++ ad ++ pt).sum % 256 :: List.replicate 15 0

/-- Witness seal: plaintext followed by the 16-byte tag. -/
def sealWW (k n ad pt : List Nat) : List Nat := pt ++ tagW k n ad pt

/-- Witness open: split off the 16-byte tag and check it. -/
def openWW (k n ad ct : List Nat) : Option (List Nat) :=
  if ct.length < 16 then none
  else if ct.drop (ct.length - 16) = tagW k n ad (ct.take (ct.length - 16))
  then some (ct.take (ct.length - 16))
  else none

/-- Witness manifest serializer: one "byte" carrying an injective code. -/
def encMW (m : ManifestM) : List Nat := [Encodable.encode m]

/-- Witness manifest deserializer. -/
def decMW : List Nat → Option ManifestM
  | [n] => Encodable.decode n
  | _ => none

/-- Witness record serializer. -/
def encRW (r : LogRecordM) : List Nat := [Encodable.encode r]

/-- Witness record deserializer. -/
def decRW : List Nat → Option LogRecordM
  | [n] => Encodable.decode n
  | _ => none

/-- Witness chunker: one chunk per non-empty input. -/
def chunkerW (b : List Nat) : List (List Nat) := if b.isEmpty then [] else [b]

/-- The witness primitive kit. -/
def PW : Prims :=
  { b3 := b3W, zstdC := id, zstdD := some, sealW := sealWW, openW := openWW,
    encM := encMW, decM := decMW, encR := encRW, decR := decRW,
    chunker := chunkerW }

/-- Contracts of the external libraries assumed by the round-trip theorems:
the digest is 32 bytes; sealing appends exactly the 16-byte tag and opening
a sealed buffer restores the plaintext; zstd decode inverts encode; the
manifest codec round-trips; the chunker output concatenates back to its
input (spec section 4.1; the chunker source is not in the repository). -/
structure Laws (P : Prims) : Prop where
  b3_len : ∀ b, (P.b3 b).length = 32
  seal_len : ∀ k n ad pt, (P.sealW k n ad pt).length = pt.length + 16
  open_seal : ∀ k n ad pt, P.openW k n ad (P.sealW k n ad pt) = some pt
  zstd_rt : ∀ b, P.zstdD (P.zstdC b) = some b
  man_rt : ∀ m, P.decM (P.encM m) = some m
  chunker_join : ∀ b, (P.chunker b).flatten = b

/-- Field bounds needed for the u64 fields of a packed archive to round-trip
through their byte encodings (automatic in the source, where they are u64 /
u8 typed). -/
def packFits (P : Prims) (now : Int) (T : TreeM) (opts : Option PackOptsM) :
    Prop :=
  packDoff P now T opts < 2 ^ 64 ∧
    ∀ e ∈ packEntries P now T opts,
      e.codec < 256 ∧ e.u_size < 2 ^ 64 ∧ e.c_size < 2 ^ 64 ∧
        e.data_off < 2 ^ 64

instance (P : Prims) (now : Int) (T : TreeM) (opts : Option PackOptsM) :
    Decidable (packFits P now T opts) := by
  unfold packFits
  infer_instance

/-! Concrete inputs used by witnesses and counterexamples. -/

/-- A one-file tree: "a" (byte 97) containing "hello". -/
def fileA : InFile :=
  { path := [97], mode := 33188, mtime := 5,
    content := [104, 101, 108, 108, 111] }

/-- A one-directory tree companion: directory "d" (byte 100). -/
def dirD : InDir := { path := [100], mode := 16877, mtime := 6 }

def treeA : TreeM := { files := [fileA], dirs := [dirD] }

/-- Deterministic sealed options with the all-zero key and salt (scenario S4
key material). -/
def optsSealed : PackOptsM :=
  { deterministic := true, min_gain := 0,
    aead_key := some (List.replicate 32 0), key_salt := List.replicate 32 0 }

/-- Matching extract/verify options for `optsSealed`. -/
def extSealed : ExtOptsM :=
  { aead_key := some (List.replicate 32 0), key_salt := List.replicate 32 0 }

/-- Split a byte path on '/' (47) into segments. -/
def splitSeg : List Nat → List (List Nat)
  | [] => [[]]
  | b :: t =>
      if b = 47 then [] :: splitSeg t
      else
        match splitSeg t with
        | s :: ss => (b :: s) :: ss
        | [] => [[b]]

/-- Modelled from the spec: "contains a `..` segment" (spec sections 4.5 and
8.6) — some '/'-separated segment of the path is exactly "..".  This is the
spec's notion, to be compared with the source's `safe_join` substring
check. -/
def specHasDotDotSeg (p : List Nat) : Bool :=
  (splitSeg p).any (· == [46, 46])

/-- A malicious manifest whose only entry is the directory path ".." -/
def mEvil : ManifestM :=
  { files := [],
    dirs := [{ path := [46, 46], mode := 0, mtime := 0 }],
    meta := { created := 0, tool := [] } }

/-- Primitives for the crafted-archive runs: the deserializer yields the
malicious manifest for any input (standing for CBOR bytes that decode to
it). -/
def P9 : Prims := { PW with decM := fun _ => some mEvil, encM := fun _ => [0] }

/-- Superblock of the crafted archive: a 1-byte manifest, an empty chunk
table, no sealing, no tail. -/
def sb9 : SuperblockM :=
  { version := 3, manifest_len := 1, chunk_table_off := 49, chunk_count := 0,
    data_off := 49, flags := 0 }

/-- The crafted 49-byte archive carrying `mEvil`. -/
def f9 : List Nat := sbBytes sb9 ++ [0]

/-- Superblock violating `HEADER_LEN + manifest_len ≤ chunk_table_off`
(48 + 5 > 50) while passing every check `list` actually makes. -/
def sb6 : SuperblockM :=
  { version := 3, manifest_len := 5, chunk_table_off := 50, chunk_count := 0,
    data_off := 50, flags := 0 }

/-- A 53-byte archive around `sb6` (no tail; the manifest region and the
empty chunk-table region overlap). -/
def f6 : List Nat := sbBytes sb6 ++ [9, 9, 9, 9, 9]

/-- A superblock `list` rejects: chunk_table_off below HEADER_LEN. -/
def sb6v : SuperblockM :=
  { version := 3, manifest_len := 0, chunk_table_off := 0, chunk_count := 0,
    data_off := 0, flags := 0 }

def f6v : List Nat := sbBytes sb6v

/-- Flip one byte of a file (increment mod 256). -/
def tamper (f : List Nat) (i : Nat) : List Nat :=
  f.set i ((f.getD i 0 + 1) % 256)

/-- Kit for the tamper run: `verify` never deserializes the manifest, so a
constant one-byte manifest encoding suffices. -/
def P7 : Prims := { PW with encM := fun _ => [0], decM := fun _ => none }

/-- A concrete sealed deterministic archive. -/
def fS7 : List Nat := packFile P7 0 treeA (some optsSealed)

/-- The same archive with the data-region byte at `data_off + 7` flipped. -/
def f7t : List Nat :=
  tamper fS7 ((packSb P7 0 treeA (some optsSealed)).data_off + 7)

/-- Header flag byte for a journal mode. -/
def encFlags (enc : EncModeM) : Nat :=
  match enc with
  | .plain => 0
  | .aead _ _ => 1

/-- The length-prefixed payload `Journal::append` writes for one record at
stream position `pos`: the CBOR bytes in plain mode, their AEAD ciphertext
in sealed mode. -/
def recPayload (P : Prims) (enc : EncModeM) (salt : List Nat) (pos : Nat)
    (r : LogRecordM) : List Nat :=
  match enc with
  | .plain => P.encR r
  | .aead key _ =>
      P.sealW key
        (jNonce P salt (pos + uvarintLen ((P.encR r).length + 16))
          ((P.encR r).length + 16)) [] (P.encR r)

/-- The bytes a run of appends starting at position `pos` produces (the
record region of the journal file). -/
def recBytes (P : Prims) (enc : EncModeM) (salt : List Nat) :
    Nat → List LogRecordM → List Nat
  | _, [] => []
  | pos, r :: rs =>
      appendBytes P enc salt pos r ++
        recBytes P enc salt (pos + (appendBytes P enc salt pos r).length) rs

/-- Records used by the journal witness. -/
def recsW : List LogRecordM := [.note [7], .del [8, 9]]

/-- Witness journal AEAD mode: all-zero key and salt. -/
def encW : EncModeM := .aead (List.replicate 32 0) (List.replicate 32 0)

/-- Witness journal salt. -/
def saltW : List Nat := List.replicate 32 0

/-- First-appearance subsequence of a hash list, accumulator form. -/
def firstOccAux (acc : List (List Nat)) : List (List Nat) → List (List Nat)
  | [] => acc
  | h :: t => if h ∈ acc then firstOccAux acc t else firstOccAux (acc ++ [h]) t

/-- Hashes in order of first appearance. -/
def firstOcc (l : List (List Nat)) : List (List Nat) := firstOccAux [] l

/-- Index of the first occurrence of `h`. -/
def idxOf (h : List Nat) : List (List Nat) → Nat
  | [] => 0
  | x :: t => if x = h then 0 else idxOf h t + 1

/-- The hash → id map agrees with positions in the first-occurrence list. -/
def mapInv (m : List (List Nat × Nat)) (acc : List (List Nat)) : Prop :=
  ∀ h, alookup m h = if h ∈ acc then some (idxOf h acc) else none

/-- Two files with identical contents, for the dedup witness. -/
def treeC3 : TreeM :=
  { files := [{ path := [97], mode := 33188, mtime := 0,
                content := [104, 105] },
              { path := [98], mode := 33188, mtime := 0,
                content := [104, 105] }],
    dirs := [] }

/-- The on-disk form of a region plaintext: sealed with the region/counter
nonce when key material is present, verbatim otherwise. -/
def regionSeal (P : Prims) (enc : Option (List Nat × List Nat))
    (region counter : Nat) (ad pt : List Nat) : List Nat :=
  match enc with
  | some (k, s) => P.sealW k (deriveNonce P s region counter) ad pt
  | none => pt

/-- The extract/verify options carrying the pack options' key material. -/
def extOptsFor (opts : Option PackOptsM) : Option ExtOptsM :=
  match packEnc opts with
  | some (k, s) => some { aead_key := some k, key_salt := s }
  | none => none

/-- Planning invariant for one chunk record: its slice of the source holds
`u_size` bytes and `c_size` is the chosen codec's output size on it. -/
def ncOk (P : Prims) (content : List Nat) (nc : NewChunkM) : Prop :=
  ((content.drop nc.file_off).take nc.u_size).length = nc.u_size ∧
  (nc.codec = 0 ∨ nc.codec = 1) ∧
  nc.c_size = (if nc.codec = 1
    then (P.zstdC ((content.drop nc.file_off).take nc.u_size)).length
    else nc.u_size)

/-- Dedup-state invariant: entries and plans run in parallel, each entry
recording its plan's codec, uncompressed length, and on-disk size. -/
def dstOk (P : Prims) (encOn : Bool) (st : DState) : Prop :=
  st.entries.length = st.plans.length ∧
  ∀ i e cp, st.entries.get? i = some e → st.plans.get? i = some cp →
    (cp.codec = 0 ∨ cp.codec = 1) ∧
    e.codec = cp.codec ∧
    e.u_size = cp.len ∧
    e.c_size = (compPure P cp).length + (if encOn then 16 else 0)

/-- All chunker outputs over the sorted input files, in order. -/
def allChunks (P : Prims) (T : TreeM) : List (List Nat) :=
  ((packFilesSorted T).map fun f => P.chunker f.content).flatten

/-- Extraction invariant: each plan's slice is a chunker output of the
input tree and hashes to the matching first-occurrence hash. -/
def plansOk2 (P : Prims) (T : TreeM) (st : DState)
    (acc : List (List Nat)) : Prop :=
  st.plans.length = acc.length ∧
  ∀ i cp h, st.plans.get? i = some cp → acc.get? i = some h →
    ((cp.srcContent.drop cp.off).take cp.len) ∈ allChunks P T ∧
    P.b3 ((cp.srcContent.drop cp.off).take cp.len) = h

/-- The single planned chunk both witness files produce under `PW`. -/
def ncC3 : NewChunkM :=
  { hash := 104 :: 105 :: List.replicate 30 0, u_size := 2, c_size := 2,
    codec := 0, file_off := 0 }

/-- The phase-A plan of a witness file at the given path. -/
def fpC3 (p : List Nat) : FilePlanM :=
  { path := p, mode := 33188, mtime := 0, u_size := 2, chunks := [ncC3],
    content := [104, 105] }

/-- The manifest entry of a witness file at the given path. -/
def feC3 (p : List Nat) : FileEntryM :=
  { path := p, mode := 33188, mtime := 0, u_size := 2,
    chunk_refs := [{ id := 0, u_size := 2 }] }

/-! ### Basic lemmas -/

@[simp]
theorem Out.bind_eq {α β : Type} (x : Out α) (f : α → Out β) :
    x >>= f = Out.bind x f := rfl

@[simp]
theorem Out.bind_ok {α β : Type} (a : α) (f : α → Out β) :
    Out.bind (Out.ok a) f = f a := rfl

@[simp]
theorem Out.bind_err {α β : Type} (m : String) (f : α → Out β) :
    Out.bind (Out.err m) f = Out.err m := rfl

@[simp]
theorem Out.bind_panic {α β : Type} (m : String) (f : α → Out β) :
    Out.bind (Out.panic m) f = Out.panic m := rfl

@[simp]
theorem Out.pure_eq {α : Type} (a : α) : (pure a : Out α) = Out.ok a := rfl

@[simp]
theorem leBytes_length (k n : Nat) : (leBytes k n).length = k := by
  induction k generalizing n with
  | zero => rfl
  | succ k ih => simp [leBytes, ih]

theorem deBytes_leBytes (k n : Nat) : deBytes (leBytes k n) = n % 256 ^ k := by
  induction k generalizing n with
  | zero => simp [leBytes, deBytes, Nat.mod_one]
  | succ k ih =>
      simp only [leBytes, deBytes, ih]
      rw [pow_succ, mul_comm (256 ^ k) 256, Nat.mod_mul]

theorem deBytes_leBytes_of_lt {k n : Nat} (h : n < 256 ^ k) :
    deBytes (leBytes k n) = n := by
  rw [deBytes_leBytes, Nat.mod_eq_of_lt h]

@[simp]
theorem le64_length (n : Nat) : (le64 n).length = 8 := leBytes_length 8 n

@[simp]
theorem le16_length (n : Nat) : (le16 n).length = 2 := leBytes_length 2 n

theorem de_le64 {n : Nat} (h : n < 2 ^ 64) : deBytes (le64 n) = n :=
  deBytes_leBytes_of_lt (by norm_num at h ⊢; omega)

theorem de_le16 {n : Nat} (h : n < 2 ^ 16) : deBytes (le16 n) = n :=
  deBytes_leBytes_of_lt (by norm_num at h ⊢; omega)

theorem satAdd_lt (a b : Nat) : satAdd a b < 2 ^ 64 := by
  simp only [satAdd]
  have : min (a + b) (2 ^ 64 - 1) ≤ 2 ^ 64 - 1 := min_le_right _ _
  omega

/-- Reading a segment that sits directly after a prefix of known length. -/
theorem slice_seg (pre seg post : List Nat) {off n : Nat}
    (ho : off = pre.length) (hn : n = seg.length) :
    ((pre ++ (seg ++ post)).drop off).take n = seg := by
  subst ho hn
  rw [List.drop_left, List.take_left]

theorem readExact_seg (pre seg post : List Nat) {off n : Nat}
    (ho : off = pre.length) (hn : n = seg.length) :
    readExact (pre ++ (seg ++ post)) off n = .ok seg := by
  have hle : off + n ≤ (pre ++ (seg ++ post)).length := by
    simp only [List.length_append, ho, hn]
    omega
  simp only [readExact, if_pos hle, slice_seg pre seg post ho hn]

@[simp]
theorem sbBytes_length (sb : SuperblockM) : (sbBytes sb).length = 48 := by
  simp [sbBytes, sbMagic]

/-- Superblock round trip: parsing the serialized superblock (with anything
appended) restores it, when the fields fit their machine widths. -/
theorem parseSb_round (sb : SuperblockM) (rest : List Nat)
    (hv : sb.version < 2 ^ 16) (h1 : sb.manifest_len < 2 ^ 64)
    (h2 : sb.chunk_table_off < 2 ^ 64) (h3 : sb.chunk_count < 2 ^ 64)
    (h4 : sb.data_off < 2 ^ 64) (h5 : sb.flags < 2 ^ 64) :
    parseSb (sbBytes sb ++ rest) = .ok sb := by
  have hlen : ¬ ((sbBytes sb ++ rest).length < 48) := by
    simp
  have hmag : (sbBytes sb ++ rest).take 6 = sbMagic := by
    have he : sbBytes sb ++ rest =
        sbMagic ++ (le16 sb.version ++ (le64 sb.manifest_len ++
          (le64 sb.chunk_table_off ++ (le64 sb.chunk_count ++
          (le64 sb.data_off ++ (le64 sb.flags ++ rest)))))) := by
      simp [sbBytes]
    rw [he, show (6 : Nat) = sbMagic.length from rfl, List.take_left]
  have hver : ((sbBytes sb ++ rest).drop 6).take 2 = le16 sb.version := by
    have he : sbBytes sb ++ rest =
        sbMagic ++ (le16 sb.version ++ (le64 sb.manifest_len ++
          (le64 sb.chunk_table_off ++ (le64 sb.chunk_count ++
          (le64 sb.data_off ++ (le64 sb.flags ++ rest)))))) := by
      simp [sbBytes]
    rw [he]
    exact slice_seg _ _ _ (by simp [sbMagic]) (by simp)
  have hml : ((sbBytes sb ++ rest).drop 8).take 8 = le64 sb.manifest_len := by
    have he : sbBytes sb ++ rest =
        (sbMagic ++ le16 sb.version) ++ (le64 sb.manifest_len ++
          (le64 sb.chunk_table_off ++ (le64 sb.chunk_count ++
          (le64 sb.data_off ++ (le64 sb.flags ++ rest))))) := by
      simp [sbBytes]
    rw [he]
    exact slice_seg _ _ _ (by simp [sbMagic]) (by simp)
  have hcto : ((sbBytes sb ++ rest).drop 16).take 8 =
      le64 sb.chunk_table_off := by
    have he : sbBytes sb ++ rest =
        (sbMagic ++ le16 sb.version ++ le64 sb.manifest_len) ++
          (le64 sb.chunk_table_off ++ (le64 sb.chunk_count ++
          (le64 sb.data_off ++ (le64 sb.flags ++ rest)))) := by
      simp [sbBytes]
    rw [he]
    exact slice_seg _ _ _ (by simp [sbMagic]) (by simp)
  have hcnt : ((sbBytes sb ++ rest).drop 24).take 8 = le64 sb.chunk_count := by
    have he : sbBytes sb ++ rest =
        (sbMagic ++ le16 sb.version ++ le64 sb.manifest_len ++
          le64 sb.chunk_table_off) ++ (le64 sb.chunk_count ++
          (le64 sb.data_off ++ (le64 sb.flags ++ rest))) := by
      simp [sbBytes]
    rw [he]
    exact slice_seg _ _ _ (by simp [sbMagic]) (by simp)
  have hdoff : ((sbBytes sb ++ rest).drop 32).take 8 = le64 sb.data_off := by
    have he : sbBytes sb ++ rest =
        (sbMagic ++ le16 sb.version ++ le64 sb.manifest_len ++
          le64 sb.chunk_table_off ++ le64 sb.chunk_count) ++
          (le64 sb.data_off ++ (le64 sb.flags ++ rest)) := by
      simp [sbBytes]
    rw [he]
    exact slice_seg _ _ _ (by simp [sbMagic]) (by simp)
  have hfl : ((sbBytes sb ++ rest).drop 40).take 8 = le64 sb.flags := by
    have he : sbBytes sb ++ rest =
        (sbMagic ++ le16 sb.version ++ le64 sb.manifest_len ++
          le64 sb.chunk_table_off ++ le64 sb.chunk_count ++ le64 sb.data_off)
          ++ (le64 sb.flags ++ rest) := by
      simp [sbBytes]
    rw [he]
    exact slice_seg _ _ _ (by simp [sbMagic]) (by simp)
  rw [parseSb, if_neg hlen, if_neg (by simp [hmag]), hver, hml, hcto, hcnt,
    hdoff, hfl, de_le16 hv, de_le64 h1, de_le64 h2, de_le64 h3, de_le64 h4,
    de_le64 h5]

theorem tailBytes_length (t : TailM) (hm : t.manifest_blake3.length = 32)
    (hc : t.chunktab_blake3.length = 32) (hd : t.data_blake3.length = 32) :
    (tailBytes t).length = 120 := by
  simp [tailBytes, tailMagic, hm, hc, hd]

/-- Tail round trip on the exact 120-byte buffer. -/
theorem parseTail_round (t : TailM) (hm : t.manifest_blake3.length = 32)
    (hc : t.chunktab_blake3.length = 32) (hd : t.data_blake3.length = 32)
    (hu : t.total_u < 2 ^ 64) (hcc : t.total_c < 2 ^ 64) :
    parseTail (tailBytes t) = .ok t := by
  have hlen : ¬ ((tailBytes t).length < 120) := by
    simp [tailBytes_length t hm hc hd]
  have hmag : (tailBytes t).take 8 = tailMagic := by
    rw [tailBytes, show tailMagic ++ t.manifest_blake3 ++ t.chunktab_blake3 ++
      t.data_blake3 ++ le64 t.total_u ++ le64 t.total_c = tailMagic ++
      (t.manifest_blake3 ++ t.chunktab_blake3 ++ t.data_blake3 ++
        le64 t.total_u ++ le64 t.total_c) by simp,
      show (8 : Nat) = tailMagic.length from rfl, List.take_left]
  have h1 : ((tailBytes t).drop 8).take 32 = t.manifest_blake3 := by
    rw [tailBytes, show tailMagic ++ t.manifest_blake3 ++ t.chunktab_blake3 ++
      t.data_blake3 ++ le64 t.total_u ++ le64 t.total_c = tailMagic ++
      (t.manifest_blake3 ++ (t.chunktab_blake3 ++ (t.data_blake3 ++
        (le64 t.total_u ++ le64 t.total_c)))) by simp]
    exact slice_seg _ _ _ (by simp [tailMagic]) hm.symm
  have h2 : ((tailBytes t).drop 40).take 32 = t.chunktab_blake3 := by
    rw [tailBytes, show tailMagic ++ t.manifest_blake3 ++ t.chunktab_blake3 ++
      t.data_blake3 ++ le64 t.total_u ++ le64 t.total_c = (tailMagic ++
      t.manifest_blake3) ++ (t.chunktab_blake3 ++ (t.data_blake3 ++
        (le64 t.total_u ++ le64 t.total_c))) by simp]
    exact slice_seg _ _ _ (by simp [tailMagic, hm]) hc.symm
  have h3 : ((tailBytes t).drop 72).take 32 = t.data_blake3 := by
    rw [tailBytes, show tailMagic ++ t.manifest_blake3 ++ t.chunktab_blake3 ++
      t.data_blake3 ++ le64 t.total_u ++ le64 t.total_c = (tailMagic ++
      t.manifest_blake3 ++ t.chunktab_blake3) ++ (t.data_blake3 ++
        (le64 t.total_u ++ le64 t.total_c)) by simp]
    exact slice_seg _ _ _ (by simp [tailMagic, hm, hc]) hd.symm
  have h4 : ((tailBytes t).drop 104).take 8 = le64 t.total_u := by
    rw [tailBytes, show tailMagic ++ t.manifest_blake3 ++ t.chunktab_blake3 ++
      t.data_blake3 ++ le64 t.total_u ++ le64 t.total_c = (tailMagic ++
      t.manifest_blake3 ++ t.chunktab_blake3 ++ t.data_blake3) ++
        (le64 t.total_u ++ le64 t.total_c) by simp]
    exact slice_seg _ _ _ (by simp [tailMagic, hm, hc, hd]) (by simp)
  have h5 : ((tailBytes t).drop 112).take 8 = le64 t.total_c := by
    rw [tailBytes, show tailMagic ++ t.manifest_blake3 ++ t.chunktab_blake3 ++
      t.data_blake3 ++ le64 t.total_u ++ le64 t.total_c = (tailMagic ++
      t.manifest_blake3 ++ t.chunktab_blake3 ++ t.data_blake3 ++
        le64 t.total_u) ++ (le64 t.total_c ++ []) by simp]
    exact slice_seg _ _ _ (by simp [tailMagic, hm, hc, hd]) (by simp)
  rw [parseTail, if_neg hlen, if_neg (by simp [hmag]), h1, h2, h3, h4, h5,
    de_le64 hu, de_le64 hcc]

@[simp]
theorem entryBytes_length (e : ChunkEntryM) : (entryBytes e).length = 32 := by
  simp [entryBytes]

/-- Entry round trip on its exact 32-byte serialization. -/
theorem parseEntry_round (e : ChunkEntryM) (hc : e.codec < 256)
    (h1 : e.u_size < 2 ^ 64) (h2 : e.c_size < 2 ^ 64)
    (h3 : e.data_off < 2 ^ 64) : parseEntry (entryBytes e) = e := by
  have hrest : entryBytes e = e.codec % 256 :: (List.replicate 7 0 ++
      (le64 e.u_size ++ (le64 e.c_size ++ (le64 e.data_off ++ [])))) := by
    simp [entryBytes]
  have hu : ((entryBytes e).drop 8).take 8 = le64 e.u_size := by
    rw [hrest, List.drop_succ_cons,
      show List.replicate 7 0 ++ (le64 e.u_size ++ (le64 e.c_size ++
        (le64 e.data_off ++ []))) = List.replicate 7 0 ++ (le64 e.u_size ++
        (le64 e.c_size ++ (le64 e.data_off ++ []))) from rfl]
    exact slice_seg _ _ _ (by simp) (by simp)
  have hcs : ((entryBytes e).drop 16).take 8 = le64 e.c_size := by
    rw [hrest, List.drop_succ_cons,
      show List.replicate 7 0 ++ (le64 e.u_size ++ (le64 e.c_size ++
        (le64 e.data_off ++ []))) = (List.replicate 7 0 ++ le64 e.u_size) ++
        (le64 e.c_size ++ (le64 e.data_off ++ [])) by simp]
    exact slice_seg _ _ _ (by simp) (by simp)
  have hdo : ((entryBytes e).drop 24).take 8 = le64 e.data_off := by
    rw [hrest, List.drop_succ_cons,
      show List.replicate 7 0 ++ (le64 e.u_size ++ (le64 e.c_size ++
        (le64 e.data_off ++ []))) = (List.replicate 7 0 ++ le64 e.u_size ++
        le64 e.c_size) ++ (le64 e.data_off ++ []) by simp]
    exact slice_seg _ _ _ (by simp) (by simp)
  have hhd : (entryBytes e).headD 0 = e.codec := by
    rw [hrest]
    simp [Nat.mod_eq_of_lt hc]
  rw [parseEntry, hhd, hu, hcs, hdo, de_le64 h1, de_le64 h2, de_le64 h3]

@[simp]
theorem writeTable_nil : writeTable [] = [] := rfl

theorem writeTable_cons (e : ChunkEntryM) (t : List ChunkEntryM) :
    writeTable (e :: t) = entryBytes e ++ writeTable t := by
  simp [writeTable]

@[simp]
theorem writeTable_length (es : List ChunkEntryM) :
    (writeTable es).length = es.length * 32 := by
  induction es with
  | nil => rfl
  | cons e t ih => simp [writeTable_cons, ih]; ring

/-- Parsing back a serialized table (tolerating appended bytes). -/
theorem parseEntries_writeTable (es : List ChunkEntryM) (extra : List Nat)
    (hb : ∀ e ∈ es, e.codec < 256 ∧ e.u_size < 2 ^ 64 ∧ e.c_size < 2 ^ 64 ∧
      e.data_off < 2 ^ 64) :
    parseEntries es.length (writeTable es ++ extra) = es := by
  induction es with
  | nil => rfl
  | cons e t ih =>
      have he := hb e (by simp)
      have htake : (writeTable (e :: t) ++ extra).take 32 = entryBytes e := by
        rw [writeTable_cons, List.append_assoc,
          show (32 : Nat) = (entryBytes e).length by simp, List.take_left]
      have hdrop : (writeTable (e :: t) ++ extra).drop 32 =
          writeTable t ++ extra := by
        rw [writeTable_cons, List.append_assoc,
          show (32 : Nat) = (entryBytes e).length by simp, List.drop_left]
      simp only [List.length_cons, parseEntries, htake, hdrop,
        parseEntry_round e he.1 he.2.1 he.2.2.1 he.2.2.2,
        ih (fun x hx => hb x (by simp [hx]))]

@[simp]
theorem patchEntries_length (c : Nat) (es : List ChunkEntryM) :
    (patchEntries c es).length = es.length := by
  induction es generalizing c with
  | nil => rfl
  | cons e t ih => simp [patchEntries, ih]

theorem patchEntries_map_c_size (c : Nat) (es : List ChunkEntryM) :
    (patchEntries c es).map ChunkEntryM.c_size = es.map ChunkEntryM.c_size := by
  induction es generalizing c with
  | nil => rfl
  | cons e t ih => simp [patchEntries, ih]

theorem patchEntries_map_u_size (c : Nat) (es : List ChunkEntryM) :
    (patchEntries c es).map ChunkEntryM.u_size = es.map ChunkEntryM.u_size := by
  induction es generalizing c with
  | nil => rfl
  | cons e t ih => simp [patchEntries, ih]

theorem patchEntries_map_codec (c : Nat) (es : List ChunkEntryM) :
    (patchEntries c es).map ChunkEntryM.codec = es.map ChunkEntryM.codec := by
  induction es generalizing c with
  | nil => rfl
  | cons e t ih => simp [patchEntries, ih]

/-- The patched entry at index `i`: the original fields, with `data_off`
the cursor base plus the sum of the preceding on-disk sizes. -/
theorem patchEntries_get? (es : List ChunkEntryM) (c i : Nat) :
    (patchEntries c es).get? i = (es.get? i).map fun e =>
      { e with data_off := c + ((es.take i).map ChunkEntryM.c_size).sum } := by
  induction es generalizing c i with
  | nil => simp [patchEntries]
  | cons e t ih =>
      cases i with
      | zero => simp [patchEntries]
      | succ j =>
          simp only [patchEntries, List.get?_cons_succ, ih, List.take_succ_cons,
            List.map_cons, List.sum_cons]
          cases t.get? j <;> simp [Nat.add_assoc]

/-- The witness kit satisfies the external-library contracts. -/
theorem lawsPW : Laws PW := by
  constructor
  · intro b
    simp [PW, b3W]
  · intro k n ad pt
    simp [PW, sealWW, tagW]
  · intro k n ad pt
    have h1 : (pt ++ tagW k n ad pt).length = pt.length + 16 := by
      simp [tagW]
    show openWW k n ad (pt ++ tagW k n ad pt) = some pt
    simp only [openWW, h1, Nat.add_sub_cancel, List.take_left, List.drop_left]
    simp
  · intro b
    rfl
  · intro m
    simp [PW, decMW, encMW, Encodable.encodek]
  · intro b
    by_cases hb : b = []
    · simp [PW, chunkerW, hb]
    · simp [PW, chunkerW, List.isEmpty_iff.not.mpr hb]

/-- The cleared-denominator comparison in `shouldCompress` is exactly the
rational inequality (u − c) ≥ u · min_gain. -/
theorem shouldCompress_iff (u c : Nat) (g : ℚ) :
    shouldCompress u c g = true ↔
      (u : ℚ) - (c : ℚ) ≥ (u : ℚ) * g := by
  rw [shouldCompress, decide_eq_true_eq, ge_iff_le, ge_iff_le]
  have hden : (0 : ℚ) < (g.den : ℚ) := by exact_mod_cast g.den_pos
  have hg : g * (g.den : ℚ) = (g.num : ℚ) := by
    nth_rewrite 1 [← Rat.num_div_den g]
    rw [div_mul_cancel₀]
    exact ne_of_gt hden
  constructor
  · intro h
    have h2 : (u : ℚ) * (g.num : ℚ) ≤ ((u : ℚ) - (c : ℚ)) * (g.den : ℚ) := by
      exact_mod_cast h
    rw [← hg, ← mul_assoc] at h2
    exact (mul_le_mul_right hden).mp h2
  · intro h
    have h2 : ((u : ℚ) * g) * (g.den : ℚ) ≤
        ((u : ℚ) - (c : ℚ)) * (g.den : ℚ) := (mul_le_mul_right hden).mpr h
    rw [mul_assoc, hg] at h2
    exact_mod_cast h2

/-- Every planned chunk either accepted zstd under the gain test or is
stored verbatim with its uncompressed size. -/
theorem planChunks_policy (P : Prims) (g : ℚ) :
    ∀ cs off, ∀ nc ∈ planChunks P g cs off,
      (nc.codec = 1 ∧ shouldCompress nc.u_size nc.c_size g = true) ∨
        (nc.codec = 0 ∧ nc.c_size = nc.u_size) := by
  intro cs
  induction cs with
  | nil => intro off nc h; cases h
  | cons c rest ih =>
      intro off nc h
      rw [planChunks, List.mem_cons] at h
      rcases h with rfl | h
      · by_cases hz : shouldCompress c.length (P.zstdC c).length g = true
        · left
          constructor <;> simp [chunkCodecSize, hz]
        · right
          constructor <;> simp [chunkCodecSize, hz]
      · exact ih _ nc h

/-- C4: for every chunk emitted by pack, a ZSTD tag means the zstd level-3
output saved at least `u_size · min_gain` bytes, and a STORE tag means the
stored size equals the uncompressed size; the effective `min_gain` defaults
to 0.05 and a caller value of 0 (or less) is replaced by 0.05. -/
theorem C4_codec_policy (P : Prims) (T : TreeM) (opts : Option PackOptsM) :
    (∀ fp ∈ packFps P T opts, ∀ nc ∈ fp.chunks,
      (nc.codec = 1 →
        (nc.u_size : ℚ) - (nc.c_size : ℚ) ≥
          (nc.u_size : ℚ) * effectiveMinGain opts) ∧
      (nc.codec = 0 → nc.c_size = nc.u_size) ∧
      (nc.codec = 0 ∨ nc.codec = 1)) ∧
    effectiveMinGain none = (0.05 : ℚ) ∧
    (∀ o : PackOptsM, o.min_gain ≤ 0 →
      effectiveMinGain (some o) = (0.05 : ℚ)) := by
  have hdef : mkRat 1 20 = (0.05 : ℚ) := by
    rw [Rat.mkRat_eq_div]
    norm_num
  refine ⟨?_, by simp [effectiveMinGain, hdef], ?_⟩
  · intro fp hfp nc hnc
    have hfp' : fp.chunks = planChunks P (effectiveMinGain opts)
        (P.chunker fp.content) 0 := by
      simp only [packFps, List.mem_map] at hfp
      obtain ⟨f, _, rfl⟩ := hfp
      rfl
    have hpol := planChunks_policy P (effectiveMinGain opts) _ 0 nc (hfp' ▸ hnc)
    rcases hpol with ⟨h1, h2⟩ | ⟨h0, heq⟩
    · refine ⟨fun _ => ?_, fun h0' => ?_, Or.inr h1⟩
      · exact (shouldCompress_iff _ _ _).mp h2
      · rw [h1] at h0'
        exact absurd h0' (by norm_num)
    · refine ⟨fun h1' => ?_, fun _ => heq, Or.inl h0⟩
      rw [h0] at h1'
      exact absurd h1' (by norm_num)
  · intro o ho
    simp [effectiveMinGain, ho, hdef]

/-- Witness for C4 at the concrete kit and tree. -/
theorem C4_witness :
    ((∀ fp ∈ packFps PW treeA (some optsSealed), ∀ nc ∈ fp.chunks,
      (nc.codec = 1 →
        (nc.u_size : ℚ) - (nc.c_size : ℚ) ≥
          (nc.u_size : ℚ) * effectiveMinGain (some optsSealed)) ∧
      (nc.codec = 0 → nc.c_size = nc.u_size) ∧
      (nc.codec = 0 ∨ nc.codec = 1)) ∧
    effectiveMinGain none = (0.05 : ℚ) ∧
    (∀ o : PackOptsM, o.min_gain ≤ 0 →
      effectiveMinGain (some o) = (0.05 : ℚ))) ∧
    optsSealed.min_gain ≤ 0 ∧
    effectiveMinGain (some optsSealed) = (0.05 : ℚ) :=
  ⟨C4_codec_policy PW treeA (some optsSealed), le_refl 0,
    (C4_codec_policy PW treeA (some optsSealed)).2.2 optsSealed (le_refl 0)⟩

/-- C5: layout discipline of a packed archive.  The chunk-table offset is
HEADER_LEN (48) plus the on-disk manifest length (plaintext + 16 when
sealed); the data offset adds the on-disk table length (count·32, + 16 when
sealed); and entry `i` starts at the data offset plus the on-disk sizes of
all entries before it. -/
theorem C5_layout (P : Prims) (now : Int) (T : TreeM) (opts : Option PackOptsM)
    (hL : Laws P) :
    (packSb P now T opts).chunk_table_off =
      48 + (packManifestPlain P now T opts).length +
        (if (packEnc opts).isSome then 16 else 0) ∧
    (packSb P now T opts).data_off =
      (packSb P now T opts).chunk_table_off +
        ((packSb P now T opts).chunk_count * 32 +
          (if (packEnc opts).isSome then 16 else 0)) ∧
    (∀ i e, (packEntries P now T opts).get? i = some e →
      e.data_off = (packSb P now T opts).data_off +
        (((packEntries P now T opts).take i).map ChunkEntryM.c_size).sum) := by
  refine ⟨?_, ?_, ?_⟩
  · show packCto P now T opts = _
    rw [packCto, packManB]
    rcases hpe : packEnc opts with _ | ⟨k, s⟩
    all_goals try simp [hpe, hL.seal_len, packManifestPlain]
    all_goals try omega
  · show packDoff P now T opts = packCto P now T opts + _
    have hcc : (packSb P now T opts).chunk_count =
        (packDedup P T opts).1.entries.length := rfl
    rw [packDoff, packTableLen, hcc]
    rcases hpe : packEnc opts with _ | ⟨k, s⟩
    all_goals try simp [hpe]
    all_goals try omega
  · intro i e hge
    rw [packEntries, patchEntries_get?] at hge
    rcases hgo : ((packDedup P T opts).1.entries).get? i with _ | e0
    · rw [hgo] at hge
      cases hge
    · rw [hgo] at hge
      have hge2 := Option.some.inj hge
      have hsum : (((packEntries P now T opts).take i).map
          ChunkEntryM.c_size).sum =
          ((((packDedup P T opts).1.entries).take i).map
            ChunkEntryM.c_size).sum := by
        rw [List.map_take, List.map_take, packEntries,
          patchEntries_map_c_size]
      rw [hsum, ← hge2]
      rfl

/-- Reading records from an empty remainder is a clean EOF. -/
theorem readRecords_nil (P : Prims) (enc : EncModeM) (salt : List Nat)
    (pos : Nat) : readRecords P enc salt pos [] = .ok [] := by
  rw [readRecords]
  rfl

/-- C10: `Journal::open` on an existing file whose first 8 bytes are not the
magic does not error: it truncates, writes a fresh header from the caller's
mode, and yields an empty journal; the previous contents are gone. -/
theorem C10_reinit (c : List Nat) (enc : EncModeM) (h8 : 8 ≤ c.length)
    (hm : c.take 8 ≠ jMagic) (hsalt : (headerFor enc).2.length = 32) :
    journalOpen (some c) enc =
      .ok (journalHeader (headerFor enc).1 (headerFor enc).2,
        (headerFor enc).1, (headerFor enc).2) ∧
    (∀ P, journalIter P enc (headerFor enc).2
      (journalHeader (headerFor enc).1 (headerFor enc).2) = .ok []) := by
  have hopen : journalOpen (some c) enc =
      .ok (journalHeader (headerFor enc).1 (headerFor enc).2,
        (headerFor enc).1, (headerFor enc).2) := by
    rw [journalOpen]
    simp only [Out.bind_eq]
    rw [if_neg (by omega), if_pos hm]
    cases enc with
    | plain => simp [headerFor]
    | aead k s => simp [headerFor]
  refine ⟨hopen, fun P => ?_⟩
  have hlen : (journalHeader (headerFor enc).1 (headerFor enc).2).length =
      42 := by
    simp [journalHeader, jMagic, hsalt]
  rw [journalIter, List.drop_eq_nil_of_le (by omega), readRecords_nil]

/-- Witness for C10: an 8-byte all-zero file, plain mode. -/
theorem C10_witness :
    (8 ≤ (List.replicate 8 0 : List Nat).length ∧
      (List.replicate 8 0 : List Nat).take 8 ≠ jMagic ∧
      (headerFor .plain).2.length = 32) ∧
    (journalOpen (some (List.replicate 8 0)) .plain =
      .ok (journalHeader (headerFor .plain).1 (headerFor .plain).2,
        (headerFor .plain).1, (headerFor .plain).2) ∧
    (∀ P, journalIter P .plain (headerFor .plain).2
      (journalHeader (headerFor .plain).1 (headerFor .plain).2) = .ok [])) :=
  ⟨⟨by decide, by decide, by decide⟩,
    C10_reinit (List.replicate 8 0) .plain (by decide) (by decide) (by decide)⟩

/-- Paths created by the extract dir loop all passed `safe_join`. -/
theorem extractDirs_paths (ds : List DirEntryM) (ps : List (List Nat))
    (h : extractDirs ds = .ok ps) : ∀ p ∈ ps, badPath p = false := by
  induction ds generalizing ps with
  | nil =>
      simp only [extractDirs, Out.ok.injEq] at h
      subst h
      intro p hp
      cases hp
  | cons d t ih =>
      by_cases hb : badPath d.path = true
      · simp [extractDirs, safeJoin, hb] at h
      · have hb' : badPath d.path = false := by simpa using hb
        simp only [extractDirs, safeJoin, hb', Bool.false_eq_true, if_false,
          Out.bind_eq, Out.bind_ok] at h
        cases hrest : extractDirs t with
        | ok ps' =>
            rw [hrest] at h
            simp only [Out.bind_ok, Out.ok.injEq] at h
            subst h
            intro p hp
            rcases List.mem_cons.mp hp with rfl | hp'
            · exact hb'
            · exact ih ps' hrest p hp'
        | err m => rw [hrest] at h; exact absurd h (by simp)
        | panic m => rw [hrest] at h; exact absurd h (by simp)

/-- Paths of files written by the extract loop all passed `safe_join`. -/
theorem extractFiles_paths (P : Prims) (f : List Nat)
    (enc : Option (List Nat × List Nat)) (table : List ChunkEntryM) :
    ∀ fes out, extractFiles P f enc table fes = .ok out →
      ∀ pb ∈ out, badPath pb.1 = false := by
  intro fes
  induction fes with
  | nil =>
      intro out h
      simp only [extractFiles, Out.ok.injEq] at h
      subst h
      intro pb hpb
      cases hpb
  | cons fe t ih =>
      intro out h
      by_cases hb : badPath fe.path = true
      · simp [extractFiles, safeJoin, hb] at h
      · have hb' : badPath fe.path = false := by simpa using hb
        simp only [extractFiles, safeJoin, hb', Bool.false_eq_true, if_false,
          Out.bind_eq, Out.bind_ok] at h
        cases hch : extractChunks P f enc table fe.chunk_refs with
        | err m => rw [hch] at h; exact absurd h (by simp)
        | panic m => rw [hch] at h; exact absurd h (by simp)
        | ok bytes =>
            rw [hch] at h
            simp only [Out.bind_ok] at h
            by_cases hsz : bytes.length ≠ fe.u_size
            · rw [if_pos hsz] at h
              exact absurd h (by simp)
            · rw [if_neg hsz] at h
              cases hrest : extractFiles P f enc table t with
              | err m => rw [hrest] at h; exact absurd h (by simp)
              | panic m => rw [hrest] at h; exact absurd h (by simp)
              | ok out' =>
                  rw [hrest] at h
                  simp only [Out.bind_ok, Out.ok.injEq] at h
                  subst h
                  intro pb hpb
                  rcases List.mem_cons.mp hpb with rfl | hpb'
                  · exact hb'
                  · exact ih out' hrest pb hpb'

/-- C9 counterexample: the crafted archive's manifest holds the directory
path ".." ([46,46]) — a `..` segment in the spec's sense — yet `extract`
succeeds (no format error), because `safe_join` only rejects the substrings
"../" and "..\\". -/
theorem C9_counterexample :
    specHasDotDotSeg [46, 46] = true ∧ badPath [46, 46] = false ∧
    extractModel P9 f9 none = .ok { dirs := [[46, 46]], files := [] } := by
  refine ⟨by decide, by decide, ?_⟩
  decide

/-- C9 (amended): `extract` rejects with a format error every manifest path
that is absolute or contains the substring "../" or "..\\"; consequently any
successful extraction only created paths passing that check, joined under
the destination root.  (A bare trailing ".." segment is not rejected — see
the counterexample.) -/
theorem C9_amended (P : Prims) (f : List Nat) (opts : Option ExtOptsM)
    (ex : Extracted) (h : extractModel P f opts = .ok ex) :
    (∀ rel, badPath rel = true → safeJoin rel = .err "unsafe path") ∧
    (∀ p ∈ ex.dirs, badPath p = false) ∧
    (∀ pb ∈ ex.files, badPath pb.1 = false) := by
  refine ⟨fun rel hrel => by simp [safeJoin, hrel], ?_⟩
  simp only [extractModel, Out.bind_eq] at h
  cases h1 : parseSb f with
  | err m => rw [h1] at h; exact absurd h (by simp)
  | panic m => rw [h1] at h; exact absurd h (by simp)
  | ok sb =>
      rw [h1] at h
      simp only [Out.bind_ok] at h
      cases h2 : resolveEnc (sb.flags % 2 = 1) opts with
      | err m => rw [h2] at h; exact absurd h (by simp)
      | panic m => rw [h2] at h; exact absurd h (by simp)
      | ok enc =>
          rw [h2] at h
          simp only [Out.bind_ok] at h
          cases h3 : readExact f 48 sb.manifest_len with
          | err m => rw [h3] at h; exact absurd h (by simp)
          | panic m => rw [h3] at h; exact absurd h (by simp)
          | ok manB =>
              rw [h3] at h
              simp only [Out.bind_ok] at h
              cases h4 : decryptRegion P enc 1 0 adManifest manB with
              | err m => rw [h4] at h; exact absurd h (by simp)
              | panic m => rw [h4] at h; exact absurd h (by simp)
              | ok manPlain =>
                  rw [h4] at h
                  simp only [Out.bind_ok] at h
                  cases h5 : P.decM manPlain with
                  | none => rw [h5] at h; exact absurd h (by simp)
                  | some manifest =>
                      rw [h5] at h
                      simp only [Out.bind_ok] at h
                      by_cases h6 : sb.data_off < sb.chunk_table_off
                      · rw [if_pos h6] at h
                        exact absurd h (by simp)
                      · rw [if_neg h6] at h
                        cases h7 : readExact f sb.chunk_table_off
                            (sb.data_off - sb.chunk_table_off) with
                        | err m => rw [h7] at h; exact absurd h (by simp)
                        | panic m => rw [h7] at h; exact absurd h (by simp)
                        | ok tB =>
                            rw [h7] at h
                            simp only [Out.bind_ok] at h
                            cases h8 : decryptRegion P enc 2 0 adChunktab tB with
                            | err m => rw [h8] at h; exact absurd h (by simp)
                            | panic m => rw [h8] at h; exact absurd h (by simp)
                            | ok tPlain =>
                                rw [h8] at h
                                simp only [Out.bind_ok] at h
                                cases h9 : readTableLoose tPlain
                                    sb.chunk_count with
                                | err m =>
                                    rw [h9] at h; exact absurd h (by simp)
                                | panic m =>
                                    rw [h9] at h; exact absurd h (by simp)
                                | ok table =>
                                    rw [h9] at h
                                    simp only [Out.bind_ok] at h
                                    cases h10 : extractDirs manifest.dirs with
                                    | err m =>
                                        rw [h10] at h; exact absurd h (by simp)
                                    | panic m =>
                                        rw [h10] at h; exact absurd h (by simp)
                                    | ok dirs =>
                                        rw [h10] at h
                                        simp only [Out.bind_ok] at h
                                        cases h11 : extractFiles P f enc table
                                            manifest.files with
                                        | err m =>
                                            rw [h11] at h
                                            exact absurd h (by simp)
                                        | panic m =>
                                            rw [h11] at h
                                            exact absurd h (by simp)
                                        | ok files =>
                                            rw [h11] at h
                                            simp only [Out.bind_ok,
                                              Out.ok.injEq] at h
                                            subst h
                                            exact ⟨extractDirs_paths _ _ h10,
                                              extractFiles_paths P f enc table
                                                _ _ h11⟩

/-- Witness for the amended C9 on the crafted archive (whose extraction
succeeds, with the created dir path passing the check). -/
theorem C9_amended_witness :
    extractModel P9 f9 none = .ok { dirs := [[46, 46]], files := [] } ∧
    ((∀ rel, badPath rel = true → safeJoin rel = .err "unsafe path") ∧
    (∀ p ∈ ({ dirs := [[46, 46]], files := [] } : Extracted).dirs,
      badPath p = false) ∧
    (∀ pb ∈ ({ dirs := [[46, 46]], files := [] } : Extracted).files,
      badPath pb.1 = false)) :=
  ⟨by decide, C9_amended P9 f9 none _ (by decide)⟩

/-- C6 counterexample: `f6`'s superblock violates the claimed chain
(HEADER_LEN + manifest_len = 53 > 50 = chunk_table_off), yet both `list` and
`Opened::open` succeed — the relation between the manifest end and the
chunk-table offset is never checked. -/
theorem C6_counterexample :
    ¬ (48 + sb6.manifest_len ≤ sb6.chunk_table_off) ∧
    parseSb f6 = .ok sb6 ∧
    listModel P9 f6 none = .ok () ∧
    (openedModel P9 f6 none (List.replicate 32 0)).isOk = true := by
  refine ⟨by decide, by decide, by decide, by decide⟩

/-- C6 (amended): the checks `list` actually enforces.  When the parsed
superblock violates manifest_end ≤ file_end_for_data, or
HEADER_LEN ≤ chunk_table_off ≤ file_end_for_data, or
chunk_table_off ≤ data_off ≤ file_end_for_data (or the u64 manifest-end
computation overflows), `list` returns a format error before reading any
region. -/
theorem C6_amended (P : Prims) (f : List Nat) (opts : Option ExtOptsM)
    (sb : SuperblockM) (hsb : parseSb f = .ok sb)
    (hviol : ¬ (48 + sb.manifest_len ≤ probeTailEnd f ∧
      48 ≤ sb.chunk_table_off ∧ sb.chunk_table_off ≤ probeTailEnd f ∧
      sb.chunk_table_off ≤ sb.data_off ∧ sb.data_off ≤ probeTailEnd f)) :
    (listModel P f opts).isErr = true := by
  rw [listModel]
  simp only [Out.bind_eq, hsb, Out.bind_ok]
  by_cases hov : 2 ^ 64 ≤ 48 + sb.manifest_len
  · rw [if_pos hov]
    simp [Out.isErr]
  · rw [if_neg hov]
    by_cases h1 : 48 + sb.manifest_len > probeTailEnd f
    · rw [if_pos h1]
      simp [Out.isErr]
    · rw [if_neg h1]
      by_cases h2 : sb.chunk_table_off < 48 ∨ sb.chunk_table_off > probeTailEnd f
      · rw [if_pos h2]
        simp [Out.isErr]
      · rw [if_neg h2]
        by_cases h3 : sb.data_off < sb.chunk_table_off ∨
            sb.data_off > probeTailEnd f
        · rw [if_pos h3]
          simp [Out.isErr]
        · exfalso
          push_neg at h1 h2 h3
          exact hviol ⟨by omega, by omega, by omega, by omega, by omega⟩

/-- Witness for the amended C6: a superblock with chunk_table_off 0 is
rejected by `list` with an error. -/
theorem C6_amended_witness :
    (parseSb f6v = .ok sb6v ∧
      ¬ (48 + sb6v.manifest_len ≤ probeTailEnd f6v ∧
        48 ≤ sb6v.chunk_table_off ∧ sb6v.chunk_table_off ≤ probeTailEnd f6v ∧
        sb6v.chunk_table_off ≤ sb6v.data_off ∧
        sb6v.data_off ≤ probeTailEnd f6v)) ∧
    (listModel PW f6v none).isErr = true :=
  ⟨⟨by decide, by decide⟩,
    C6_amended PW f6v none sb6v (by decide) (by decide)⟩

/-- C7: on a sealed archive, `verify` of the intact file succeeds, but after
flipping the data-region byte at `data_off + 7` the AEAD open fails and
`open_whole`'s `.expect("decrypt")` makes `verify` PANIC instead of
returning the AEAD-authentication error the spec requires. -/
theorem C7_panic_on_tamper :
    verifyModel P7 fS7 (some extSealed) = .ok () ∧
    verifyModel P7 f7t (some extSealed) = .panic "decrypt" := by
  refine ⟨by decide, by decide⟩

theorem putUvarint_length (n : Nat) : (putUvarint n).length = uvarintLen n := by
  induction n using Nat.strong_induction_on with
  | _ n ih =>
      rw [putUvarint, uvarintLen]
      by_cases h : n < 128
      · simp [h]
      · simp only [h, if_false, List.length_cons,
          ih (n / 128) (Nat.div_lt_self (by omega) (by omega))]
        omega

theorem putUvarint_pos (n : Nat) : 0 < (putUvarint n).length := by
  rw [putUvarint]
  by_cases h : n < 128 <;> simp [h]

/-- Every byte of a strict prefix of an encoded varint has its high bit
set (the low final byte is never reached). -/
theorem putUvarint_high (n : Nat) :
    ∀ t, t < (putUvarint n).length →
      ∀ b ∈ (putUvarint n).take t, 128 ≤ b % 256 := by
  induction n using Nat.strong_induction_on with
  | _ n ih =>
      intro t ht b hb
      rw [putUvarint] at ht hb
      by_cases h : n < 128
      · rw [if_pos h] at ht hb
        simp at ht
        subst ht
        simp at hb
      · rw [if_neg h] at ht hb
        cases t with
        | zero => simp at hb
        | succ t' =>
            simp only [List.take_succ_cons, List.mem_cons] at hb
            rcases hb with rfl | hb'
            · have h1 : n % 128 + 128 < 256 := by
                have := Nat.mod_lt n (show 0 < 128 by omega)
                omega
              rw [Nat.mod_eq_of_lt h1]
              omega
            · have ht' : t' < (putUvarint (n / 128)).length := by
                simp at ht
                omega
              exact ih (n / 128) (Nat.div_lt_self (by omega) (by omega)) t'
                ht' b hb'

theorem uvarintLen_le : ∀ (k m : Nat), m < 128 ^ k → 0 < k → uvarintLen m ≤ k := by
  intro k
  induction k with
  | zero => intro m h hk; omega
  | succ k ih =>
      intro m h hk
      rw [uvarintLen]
      by_cases hm : m < 128
      · rw [if_pos hm]
        omega
      · rw [if_neg hm]
        have hk0 : 0 < k := by
          by_contra hk0
          have : k = 0 := by omega
          subst this
          simp [pow_succ, pow_zero] at h
          omega
        have hdiv : m / 128 < 128 ^ k := by
          rw [Nat.div_lt_iff_lt_mul (by omega)]
          calc m < 128 ^ (k + 1) := h
            _ = 128 ^ k * 128 := by rw [pow_succ]
        have := ih (m / 128) hdiv hk0
        omega

/-- A list of continuation bytes shorter than the fuel is a clean EOF. -/
theorem getUvarintAux_high :
    ∀ (l : List Nat) (fuel x s : Nat), (∀ b ∈ l, 128 ≤ b % 256) →
      l.length < fuel → getUvarintAux fuel l x s = .ok none := by
  intro l
  induction l with
  | nil =>
      intro fuel x s hb hf
      cases fuel with
      | zero => omega
      | succ f => rfl
  | cons b t ih =>
      intro fuel x s hb hf
      cases fuel with
      | zero => simp at hf
      | succ f =>
          have hbb : 128 ≤ b % 256 := hb b (by simp)
          rw [getUvarintAux, if_neg (by omega)]
          exact ih f _ _ (fun x hx => hb x (by simp [hx])) (by simp at hf; omega)

/-- Parsing an encoded varint followed by anything returns its value and the
length of the remainder. -/
theorem getUvarintAux_put :
    ∀ (m fuel x s : Nat) (rest : List Nat), uvarintLen m ≤ fuel →
      getUvarintAux fuel (putUvarint m ++ rest) x s =
        .ok (some ((x + m * 2 ^ s) % 2 ^ 64, rest.length)) := by
  intro m
  induction m using Nat.strong_induction_on with
  | _ m ih =>
      intro fuel x s rest hf
      by_cases h : m < 128
      · rw [uvarintLen, if_pos h] at hf
        cases fuel with
        | zero => omega
        | succ f =>
            rw [putUvarint, if_pos h, List.cons_append, List.nil_append]
            simp only [getUvarintAux]
            rw [if_pos (show m % 256 < 128 by omega)]
            rw [Nat.mod_eq_of_lt (show m < 256 by omega)]
      · rw [uvarintLen, if_neg h] at hf
        cases fuel with
        | zero => omega
        | succ f =>
            rw [putUvarint, if_neg h]
            have h1 : m % 128 + 128 < 256 := by
              have := Nat.mod_lt m (show 0 < 128 by omega)
              omega
            have hm : (m % 128 + 128) % 256 = m % 128 + 128 :=
              Nat.mod_eq_of_lt h1
            rw [List.cons_append, getUvarintAux, if_neg (by omega)]
            rw [hm, show (m % 128 + 128) % 128 = m % 128 by omega]
            rw [ih (m / 128) (Nat.div_lt_self (by omega) (by omega)) f _ _
              rest (by omega)]
            have hmm : m % 128 + m / 128 * 128 = m := Nat.mod_add_div' m 128
            have hval : ((x + m % 128 * 2 ^ s) % 2 ^ 64 +
                m / 128 * 2 ^ (s + 7)) % 2 ^ 64 = (x + m * 2 ^ s) % 2 ^ 64 := by
              rw [Nat.mod_add_mod]
              have harg : x + m % 128 * 2 ^ s + m / 128 * 2 ^ (s + 7)
                  = x + m * 2 ^ s := by
                calc x + m % 128 * 2 ^ s + m / 128 * 2 ^ (s + 7)
                    = x + (m % 128 + m / 128 * 128) * 2 ^ s := by
                      rw [pow_add]
                      ring
                  _ = x + m * 2 ^ s := by rw [hmm]
              rw [harg]
            rw [hval]

theorem getUvarint_put (n : Nat) (rest : List Nat) (hn : n < 2 ^ 64) :
    getUvarint (putUvarint n ++ rest) = .ok (some (n, rest.length)) := by
  have h10 : uvarintLen n ≤ 10 := by
    refine uvarintLen_le 10 n ?_ (by omega)
    have : (2 : Nat) ^ 64 ≤ 128 ^ 10 := by norm_num
    omega
  rw [getUvarint, getUvarintAux_put n 10 0 0 rest h10]
  simp only [pow_zero, mul_one, Nat.zero_add]
  rw [Nat.mod_eq_of_lt hn]

/-- A strict prefix of an encoded u64 varint parses as a clean EOF. -/
theorem getUvarint_truncated (n t : Nat) (hn : n < 2 ^ 64)
    (ht : t < (putUvarint n).length) :
    getUvarint ((putUvarint n).take t) = .ok none := by
  rw [getUvarint]
  refine getUvarintAux_high _ 10 0 0 (putUvarint_high n t ht) ?_
  have hl : ((putUvarint n).take t).length ≤ t := by
    simp [List.length_take]
  have h10 : (putUvarint n).length ≤ 10 := by
    rw [putUvarint_length]
    refine uvarintLen_le 10 n ?_ (by omega)
    have : (2 : Nat) ^ 64 ≤ 128 ^ 10 := by norm_num
    omega
  omega

theorem appendBytes_eq (P : Prims) (enc : EncModeM) (salt : List Nat)
    (pos : Nat) (r : LogRecordM) :
    appendBytes P enc salt pos r =
      putUvarint (recPayload P enc salt pos r).length ++
        recPayload P enc salt pos r := by
  cases enc <;> rfl

theorem recPayload_len_aead (P : Prims) (key s0 salt : List Nat) (pos : Nat)
    (r : LogRecordM)
    (hseal : ∀ k n ad pt, (P.sealW k n ad pt).length = pt.length + 16) :
    (recPayload P (.aead key s0) salt pos r).length =
      (P.encR r).length + 16 := by
  rw [recPayload, hseal]

/-- One reader step across a record appended at the same position. -/
theorem readRecords_step (P : Prims) (enc : EncModeM) (salt : List Nat)
    (pos : Nat) (r : LogRecordM) (tail : List Nat)
    (hL : (recPayload P enc salt pos r).length < 2 ^ 64)
    (hrt : P.decR (P.encR r) = some r)
    (hopen : ∀ k n ad pt, P.openW k n ad (P.sealW k n ad pt) = some pt)
    (hseal : ∀ k n ad pt, (P.sealW k n ad pt).length = pt.length + 16) :
    readRecords P enc salt pos (appendBytes P enc salt pos r ++ tail) =
      match readRecords P enc salt
          (pos + (appendBytes P enc salt pos r).length) tail with
      | .ok rs => .ok (r :: rs)
      | .err m => .err m
      | .panic m => .panic m := by
  rw [appendBytes_eq, List.append_assoc, readRecords]
  simp only [getUvarint_put (recPayload P enc salt pos r).length
    (recPayload P enc salt pos r ++ tail) hL]
  have hc2 : (putUvarint (recPayload P enc salt pos r).length ++
      (recPayload P enc salt pos r ++ tail)).length -
      (recPayload P enc salt pos r ++ tail).length =
      (putUvarint (recPayload P enc salt pos r).length).length := by
    simp
  simp only [hc2]
  rw [dif_neg (by
    have := putUvarint_pos (recPayload P enc salt pos r).length
    omega)]
  simp only [List.drop_left]
  rw [if_neg (by simp only [List.length_append]; omega)]
  simp only [List.take_left, List.drop_left]
  have hpos : pos + (putUvarint (recPayload P enc salt pos r).length).length +
      (recPayload P enc salt pos r).length =
      pos + (appendBytes P enc salt pos r).length := by
    rw [appendBytes_eq]
    simp only [List.length_append]
    omega
  cases enc with
  | plain =>
      simp only [recPayload] at *
      simp only [hrt, hpos]
      rw [appendBytes_eq]
      rfl
  | aead key s0 =>
      have hplen : (recPayload P (.aead key s0) salt pos r).length =
          (P.encR r).length + 16 := recPayload_len_aead P key s0 salt pos r hseal
      simp only [hplen] at hpos ⊢
      simp only [recPayload, hopen, hrt, hpos]
      rw [appendBytes_eq]
      simp only [recPayload, hseal]

/-- Reading the appended record bytes, then whatever follows. -/
theorem readRecords_recBytes (P : Prims) (enc : EncModeM) (salt : List Nat)
    (hrt : ∀ r, P.decR (P.encR r) = some r)
    (hopen : ∀ k n ad pt, P.openW k n ad (P.sealW k n ad pt) = some pt)
    (hseal : ∀ k n ad pt, (P.sealW k n ad pt).length = pt.length + 16) :
    ∀ (rs : List LogRecordM) (pos : Nat) (suffix : List Nat)
      (out : List LogRecordM),
      (∀ r ∈ rs, (P.encR r).length + 16 < 2 ^ 64) →
      readRecords P enc salt (pos + (recBytes P enc salt pos rs).length)
        suffix = .ok out →
      readRecords P enc salt pos (recBytes P enc salt pos rs ++ suffix) =
        .ok (rs ++ out) := by
  intro rs
  induction rs with
  | nil =>
      intro pos suffix out hlen hsuf
      simpa [recBytes] using hsuf
  | cons r rs' ih =>
      intro pos suffix out hlen hsuf
      have hL : (recPayload P enc salt pos r).length < 2 ^ 64 := by
        have hr16 := hlen r (by simp)
        cases enc with
        | plain => simpa [recPayload] using (by omega : (P.encR r).length < 2 ^ 64)
        | aead key s0 =>
            rw [recPayload_len_aead P key s0 salt pos r hseal]
            omega
      rw [recBytes, List.append_assoc,
        readRecords_step P enc salt pos r _ hL (hrt r) hopen hseal]
      rw [ih (pos + (appendBytes P enc salt pos r).length) suffix out
        (fun x hx => hlen x (by simp [hx])) (by
          have hlenB : (pos + (appendBytes P enc salt pos r).length +
              (recBytes P enc salt
                (pos + (appendBytes P enc salt pos r).length) rs').length) =
              pos + (recBytes P enc salt pos (r :: rs')).length := by
            rw [recBytes]
            simp only [List.length_append]
            omega
          rw [hlenB]
          exact hsuf)]
      rfl

/-- Truncating anywhere inside an appended record yields a clean EOF. -/
theorem readRecords_partial (P : Prims) (enc : EncModeM) (salt : List Nat)
    (pos : Nat) (r : LogRecordM)
    (hL : (recPayload P enc salt pos r).length < 2 ^ 64) :
    ∀ t, t < (appendBytes P enc salt pos r).length →
      readRecords P enc salt pos ((appendBytes P enc salt pos r).take t) =
        .ok [] := by
  intro t ht
  rw [appendBytes_eq] at ht ⊢
  by_cases hv : t < (putUvarint (recPayload P enc salt pos r).length).length
  · rw [List.take_append_of_le_length (le_of_lt hv), readRecords]
    simp only [getUvarint_truncated (recPayload P enc salt pos r).length t
      hL hv]
  · push_neg at hv
    have ht2 : t - (putUvarint (recPayload P enc salt pos r).length).length <
        (recPayload P enc salt pos r).length := by
      simp only [List.length_append] at ht
      omega
    rw [List.take_append_eq_append_take, List.take_of_length_le hv,
      readRecords]
    simp only [getUvarint_put (recPayload P enc salt pos r).length
      ((recPayload P enc salt pos r).take
        (t - (putUvarint (recPayload P enc salt pos r).length).length)) hL]
    have hc2 : (putUvarint (recPayload P enc salt pos r).length ++
        (recPayload P enc salt pos r).take
          (t - (putUvarint (recPayload P enc salt pos r).length).length)).length
        - ((recPayload P enc salt pos r).take
          (t - (putUvarint (recPayload P enc salt pos r).length).length)).length
        = (putUvarint (recPayload P enc salt pos r).length).length := by
      simp
    simp only [hc2]
    rw [dif_neg (by
      have := putUvarint_pos (recPayload P enc salt pos r).length
      omega)]
    simp only [List.drop_left]
    rw [if_pos (by
      simp only [List.length_take]
      omega)]

theorem recPayload_lt (P : Prims) (enc : EncModeM) (salt : List Nat)
    (pos : Nat) (r : LogRecordM)
    (hseal : ∀ k n ad pt, (P.sealW k n ad pt).length = pt.length + 16)
    (h16 : (P.encR r).length + 16 < 2 ^ 64) :
    (recPayload P enc salt pos r).length < 2 ^ 64 := by
  cases enc with
  | plain =>
      simp only [recPayload]
      omega
  | aead key s0 =>
      rw [recPayload_len_aead P key s0 salt pos r hseal]
      omega

theorem appendAll_eq (P : Prims) (enc : EncModeM) (salt : List Nat) :
    ∀ (rs : List LogRecordM) (c : List Nat),
      appendAll P enc salt c rs = c ++ recBytes P enc salt c.length rs := by
  intro rs
  induction rs with
  | nil => intro c; simp [appendAll, recBytes]
  | cons r rs' ih =>
      intro c
      rw [appendAll, ih, recBytes]
      simp [List.append_assoc, List.length_append]

theorem appendAll_append (P : Prims) (enc : EncModeM) (salt : List Nat) :
    ∀ (xs ys : List LogRecordM) (c : List Nat),
      appendAll P enc salt c (xs ++ ys) =
        appendAll P enc salt (appendAll P enc salt c xs) ys := by
  intro xs
  induction xs with
  | nil => intro ys c; simp [appendAll]
  | cons x xs' ih => intro ys c; rw [List.cons_append, appendAll, appendAll, ih]

theorem journalHeader_length (flags : Nat) (salt : List Nat)
    (hsalt : salt.length = 32) : (journalHeader flags salt).length = 42 := by
  simp [journalHeader, jMagic, hsalt]

/-- C8: journal round trip.  (1) After appending `recs` to a fresh journal,
iterating yields exactly `recs` in order.  (2) Truncating the file anywhere
inside the last record — its varint length prefix included — yields the
earlier records and terminates without error.  (3) An AEAD open failure on a
record is returned as an error from the iterator. -/
theorem C8_journal (P : Prims) (enc : EncModeM) (salt : List Nat)
    (recs : List LogRecordM)
    (hsalt : salt.length = 32)
    (hrt : ∀ r, P.decR (P.encR r) = some r)
    (hseal : ∀ k n ad pt, (P.sealW k n ad pt).length = pt.length + 16)
    (hopen : ∀ k n ad pt, P.openW k n ad (P.sealW k n ad pt) = some pt)
    (hlen : ∀ r ∈ recs, (P.encR r).length + 16 < 2 ^ 64) :
    (journalIter P enc salt
        (appendAll P enc salt (journalHeader (encFlags enc) salt) recs) =
      .ok recs) ∧
    (∀ rs' r, recs = rs' ++ [r] → ∀ t,
      (appendAll P enc salt (journalHeader (encFlags enc) salt) rs').length ≤
        t →
      t < (appendAll P enc salt (journalHeader (encFlags enc) salt)
        recs).length →
      journalIter P enc salt
        ((appendAll P enc salt (journalHeader (encFlags enc) salt)
          recs).take t) = .ok rs') ∧
    (∀ key ct, ct.length < 2 ^ 64 →
      P.openW key (jNonce P salt (42 + uvarintLen ct.length) ct.length) []
        ct = none →
      (journalIter P (.aead key salt) salt
        (journalHeader 1 salt ++ (putUvarint ct.length ++ ct))).isErr =
        true) := by
  have hhl : (journalHeader (encFlags enc) salt).length = 42 :=
    journalHeader_length _ salt hsalt
  refine ⟨?_, ?_, ?_⟩
  · rw [journalIter, appendAll_eq, hhl,
      show (42 : Nat) = (journalHeader (encFlags enc) salt).length from
        hhl.symm,
      List.drop_left]
    have := readRecords_recBytes P enc salt hrt hopen hseal recs
      (journalHeader (encFlags enc) salt).length [] [] hlen
      (readRecords_nil P enc salt _)
    simpa [hhl] using this
  · intro rs' r hrec t hlo thi
    subst hrec
    have h16 := hlen r (by simp)
    have hsplit : appendAll P enc salt (journalHeader (encFlags enc) salt)
        (rs' ++ [r]) = appendAll P enc salt (journalHeader (encFlags enc) salt)
        rs' ++ appendBytes P enc salt
          (appendAll P enc salt (journalHeader (encFlags enc) salt)
            rs').length r := by
      rw [appendAll_append, appendAll, appendAll]
    rw [hsplit] at thi ⊢
    set prev := appendAll P enc salt (journalHeader (encFlags enc) salt) rs'
      with hprevdef
    set ab := appendBytes P enc salt prev.length r with habdef
    have hd : t - prev.length < ab.length := by
      simp only [List.length_append] at thi
      omega
    rw [List.take_append_eq_append_take, List.take_of_length_le hlo,
      journalIter]
    have hPE : prev = journalHeader (encFlags enc) salt ++
        recBytes P enc salt 42 rs' := by
      rw [hprevdef, appendAll_eq, hhl]
    have hplen2 : prev.length = 42 + (recBytes P enc salt 42 rs').length := by
      rw [hPE]
      simp [hhl]
    have hdrop : ∀ Y : List Nat,
        (journalHeader (encFlags enc) salt ++ Y).drop 42 = Y := by
      intro Y
      rw [show (42 : Nat) = (journalHeader (encFlags enc) salt).length from
        hhl.symm, List.drop_left]
    rw [hPE, List.append_assoc, hdrop]
    have happly := readRecords_recBytes P enc salt hrt hopen hseal rs' 42
      (ab.take (t - prev.length)) [] (fun x hx => hlen x (by simp [hx])) (by
        rw [← hplen2]
        exact readRecords_partial P enc salt prev.length r
          (recPayload_lt P enc salt prev.length r hseal h16)
          (t - prev.length) hd)
    have hfix : (journalHeader (encFlags enc) salt ++
        recBytes P enc salt 42 rs').length = prev.length := by rw [hPE]
    rw [hfix]
    simpa using happly
  · intro key ct hct hfail
    have hh1 : (journalHeader 1 salt).length = 42 :=
      journalHeader_length 1 salt hsalt
    rw [journalIter]
    have hdrop1 : ∀ Y : List Nat, (journalHeader 1 salt ++ Y).drop 42 = Y :=
      fun Y => by
        rw [show (42 : Nat) = (journalHeader 1 salt).length from hh1.symm,
          List.drop_left]
    rw [hdrop1, readRecords]
    simp only [getUvarint_put ct.length ct hct]
    have hc2 : (putUvarint ct.length ++ ct).length - ct.length =
        (putUvarint ct.length).length := by simp
    simp only [hc2]
    rw [dif_neg (by have := putUvarint_pos ct.length; omega)]
    simp only [List.drop_left]
    rw [if_neg (by omega)]
    simp only [List.take_length, hfail]
    rfl

theorem recW_rt : ∀ r, PW.decR (PW.encR r) = some r := by
  intro r
  simp [PW, decRW, encRW, Encodable.encodek]

theorem recsW_len : ∀ r ∈ recsW, (PW.encR r).length + 16 < 2 ^ 64 := by
  intro r hr
  show ([Encodable.encode r] : List Nat).length + 16 < 2 ^ 64
  norm_num

/-- Witness for C8: two records appended to a sealed journal with the
all-zero key and salt. -/
theorem C8_witness :
    ((saltW.length = 32) ∧ (∀ r ∈ recsW, (PW.encR r).length + 16 < 2 ^ 64)) ∧
    ((journalIter PW encW saltW
        (appendAll PW encW saltW (journalHeader (encFlags encW) saltW)
          recsW) = .ok recsW) ∧
    (∀ rs' r, recsW = rs' ++ [r] → ∀ t,
      (appendAll PW encW saltW (journalHeader (encFlags encW) saltW)
        rs').length ≤ t →
      t < (appendAll PW encW saltW (journalHeader (encFlags encW) saltW)
        recsW).length →
      journalIter PW encW saltW
        ((appendAll PW encW saltW (journalHeader (encFlags encW) saltW)
          recsW).take t) = .ok rs') ∧
    (∀ key ct, ct.length < 2 ^ 64 →
      PW.openW key (jNonce PW saltW (42 + uvarintLen ct.length) ct.length)
        [] ct = none →
      (journalIter PW (.aead key saltW) saltW
        (journalHeader 1 saltW ++ (putUvarint ct.length ++ ct))).isErr =
        true)) :=
  ⟨⟨by simp [saltW], recsW_len⟩,
    C8_journal PW encW saltW recsW (by simp [saltW]) recW_rt
      lawsPW.seal_len lawsPW.open_seal recsW_len⟩

theorem alookup_append (m : List (List Nat × Nat)) (p : List Nat × Nat)
    (h : List Nat) :
    alookup (m ++ [p]) h =
      match alookup m h with
      | some v => some v
      | none => if p.1 = h then some p.2 else none := by
  induction m with
  | nil => simp [alookup]
  | cons q t ih =>
      by_cases hq : q.1 = h
      · simp [alookup, hq]
      · simp only [List.cons_append, alookup, if_neg hq]
        exact ih

theorem idxOf_append_left (h : List Nat) (a b : List (List Nat))
    (hm : h ∈ a) : idxOf h (a ++ b) = idxOf h a := by
  induction a with
  | nil => cases hm
  | cons x t ih =>
      by_cases hx : x = h
      · simp [idxOf, hx]
      · rcases List.mem_cons.mp hm with rfl | hm'
        · exact absurd rfl hx
        · simp [idxOf, hx, ih hm']

theorem idxOf_append_self (h : List Nat) (a : List (List Nat)) (hm : h ∉ a) :
    idxOf h (a ++ [h]) = a.length := by
  induction a with
  | nil => simp [idxOf]
  | cons x t ih =>
      have hx : x ≠ h := fun hxe => hm (by simp [hxe])
      simp only [List.cons_append, idxOf, if_neg hx, List.length_cons]
      show idxOf h (t ++ [h]) + 1 = t.length + 1
      rw [ih (fun ht => hm (by simp [ht]))]

theorem firstOccAux_ext : ∀ (l : List (List Nat)) (acc : List (List Nat)),
    ∃ ext, firstOccAux acc l = acc ++ ext := by
  intro l
  induction l with
  | nil => intro acc; exact ⟨[], by simp [firstOccAux]⟩
  | cons h t ih =>
      intro acc
      by_cases hm : h ∈ acc
      · rw [firstOccAux, if_pos hm]
        exact ih acc
      · rw [firstOccAux, if_neg hm]
        obtain ⟨ext, hext⟩ := ih (acc ++ [h])
        exact ⟨[h] ++ ext, by rw [hext, List.append_assoc]⟩

theorem firstOccAux_append :
    ∀ (a b : List (List Nat)) (acc : List (List Nat)),
      firstOccAux acc (a ++ b) = firstOccAux (firstOccAux acc a) b := by
  intro a
  induction a with
  | nil => intro b acc; rfl
  | cons h t ih =>
      intro b acc
      by_cases hm : h ∈ acc
      · simp only [List.cons_append, firstOccAux, if_pos hm]
        exact ih b acc
      · simp only [List.cons_append, firstOccAux, if_neg hm]
        exact ih b (acc ++ [h])

theorem mem_firstOccAux_of_mem (h : List Nat) (acc : List (List Nat))
    (l : List (List Nat)) (hm : h ∈ acc) : h ∈ firstOccAux acc l := by
  obtain ⟨ext, hext⟩ := firstOccAux_ext l acc
  rw [hext]
  exact List.mem_append_left ext hm

theorem idxOf_firstOccAux (h : List Nat) (acc : List (List Nat))
    (l : List (List Nat)) (hm : h ∈ acc) :
    idxOf h (firstOccAux acc l) = idxOf h acc := by
  obtain ⟨ext, hext⟩ := firstOccAux_ext l acc
  rw [hext, idxOf_append_left h acc ext hm]

/-- One dedup step: the returned ref carries the chunk's uncompressed size
and the index of its hash in the updated first-occurrence list. -/
theorem addChunk_spec (encOn : Bool) (fp : FilePlanM) (st : DState)
    (acc : List (List Nat)) (nc : NewChunkM)
    (hm : mapInv st.map acc) (he : st.entries.length = acc.length) :
    mapInv (addChunk encOn fp st nc).1.map
        (if nc.hash ∈ acc then acc else acc ++ [nc.hash]) ∧
    (addChunk encOn fp st nc).1.entries.length =
        (if nc.hash ∈ acc then acc else acc ++ [nc.hash]).length ∧
    (addChunk encOn fp st nc).2.u_size = nc.u_size ∧
    nc.hash ∈ (if nc.hash ∈ acc then acc else acc ++ [nc.hash]) ∧
    (addChunk encOn fp st nc).2.id =
      idxOf nc.hash (if nc.hash ∈ acc then acc else acc ++ [nc.hash]) := by
  by_cases hmem : nc.hash ∈ acc
  · have hl := hm nc.hash
    rw [if_pos hmem] at hl
    simp only [addChunk, hl, if_pos hmem]
    refine ⟨hm, he, ?_, ?_, ?_⟩ <;> first | trivial | exact hmem
  · have hl := hm nc.hash
    rw [if_neg hmem] at hl
    simp only [addChunk, hl, if_neg hmem]
    refine ⟨?_, by simp [he], by trivial, by simp, ?_⟩
    · intro h'
      rw [alookup_append, hm h']
      by_cases hin : h' ∈ acc
      · rw [if_pos hin, if_pos (List.mem_append_left _ hin),
          idxOf_append_left h' acc [nc.hash] hin]
      · rw [if_neg hin]
        by_cases heq : nc.hash = h'
        · subst heq
          rw [if_pos rfl, if_pos (by simp), idxOf_append_self _ _ hmem, he]
        · rw [if_neg heq, if_neg (by
            intro hcon
            rcases List.mem_append.mp hcon with hc | hc
            · exact hin hc
            · simp at hc
              exact heq hc.symm)]
    · show st.entries.length = _
      rw [he, idxOf_append_self _ _ hmem]

/-- Dedup across one file's chunk list. -/
theorem addChunks_spec (encOn : Bool) (fp : FilePlanM) :
    ∀ (ncs : List NewChunkM) (st : DState) (acc : List (List Nat)),
      mapInv st.map acc → st.entries.length = acc.length →
      mapInv (addChunks encOn fp st ncs).1.map
          (firstOccAux acc (ncs.map NewChunkM.hash)) ∧
      (addChunks encOn fp st ncs).1.entries.length =
          (firstOccAux acc (ncs.map NewChunkM.hash)).length ∧
      (addChunks encOn fp st ncs).2.length = ncs.length ∧
      (∀ j nc ref, ncs.get? j = some nc →
        (addChunks encOn fp st ncs).2.get? j = some ref →
        ref.u_size = nc.u_size ∧
        nc.hash ∈ firstOccAux acc (ncs.map NewChunkM.hash) ∧
        ref.id = idxOf nc.hash (firstOccAux acc (ncs.map NewChunkM.hash))) := by
  intro ncs
  induction ncs with
  | nil =>
      intro st acc hm he
      refine ⟨hm, he, rfl, ?_⟩
      intro j nc ref hj
      simp at hj
  | cons nc ncs' ih =>
      intro st acc hm he
      obtain ⟨hm1, he1, hu1, hmem1, hid1⟩ :=
        addChunk_spec encOn fp st acc nc hm he
      have hstep := ih (addChunk encOn fp st nc).1
        (if nc.hash ∈ acc then acc else acc ++ [nc.hash]) hm1 he1
      have hacc : firstOccAux acc ((nc :: ncs').map NewChunkM.hash) =
          firstOccAux (if nc.hash ∈ acc then acc else acc ++ [nc.hash])
            (ncs'.map NewChunkM.hash) := by
        rw [List.map_cons, firstOccAux]
        by_cases hmm : nc.hash ∈ acc
        · rw [if_pos hmm, if_pos hmm]
        · rw [if_neg hmm, if_neg hmm]
      have hres : addChunks encOn fp st (nc :: ncs') =
          ((addChunks encOn fp (addChunk encOn fp st nc).1 ncs').1,
            (addChunk encOn fp st nc).2 ::
              (addChunks encOn fp (addChunk encOn fp st nc).1 ncs').2) := by
        rw [addChunks]
      rw [hres, hacc]
      refine ⟨hstep.1, hstep.2.1, by simp [hstep.2.2.1], ?_⟩
      intro j nc0 ref hj hr
      cases j with
      | zero =>
          simp only [List.get?_cons_zero, Option.some.injEq] at hj hr
          subst hj
          subst hr
          refine ⟨hu1, mem_firstOccAux_of_mem _ _ _ hmem1, ?_⟩
          rw [idxOf_firstOccAux _ _ _ hmem1]
          exact hid1
      | succ j' =>
          simp only [List.get?_cons_succ] at hj hr
          exact hstep.2.2.2 j' nc0 ref hj hr

/-- Dedup across the whole file list: the chunk table grows to one entry per
distinct hash (in first-appearance order), the manifest entries parallel the
plans, and each ref stores the chunk's size and its hash's shared id. -/
theorem dedupAll_spec (encOn det : Bool) :
    ∀ (fps : List FilePlanM) (st : DState) (acc : List (List Nat)),
      mapInv st.map acc → st.entries.length = acc.length →
      mapInv (dedupAll encOn det st fps).1.map
        (firstOccAux acc ((fps.map fun q =>
          q.chunks.map NewChunkM.hash).flatten)) ∧
      (dedupAll encOn det st fps).1.entries.length =
        (firstOccAux acc ((fps.map fun q =>
          q.chunks.map NewChunkM.hash).flatten)).length ∧
      (dedupAll encOn det st fps).2.length = fps.length ∧
      (∀ i fp fe, fps.get? i = some fp →
        (dedupAll encOn det st fps).2.get? i = some fe →
        fe.path = fp.path ∧
        fe.chunk_refs.length = fp.chunks.length ∧
        (∀ j nc ref, fp.chunks.get? j = some nc →
          fe.chunk_refs.get? j = some ref →
          ref.u_size = nc.u_size ∧
          nc.hash ∈ firstOccAux acc ((fps.map fun q =>
            q.chunks.map NewChunkM.hash).flatten) ∧
          ref.id = idxOf nc.hash (firstOccAux acc ((fps.map fun q =>
            q.chunks.map NewChunkM.hash).flatten)))) := by
  intro fps
  induction fps with
  | nil =>
      intro st acc hm he
      refine ⟨hm, he, rfl, ?_⟩
      intro i fp fe hi
      simp at hi
  | cons fp rest ih =>
      intro st acc hm he
      have haf : addFile encOn det st fp =
          ((addChunks encOn fp st fp.chunks).1,
           { path := fp.path, mode := fp.mode,
             mtime := if det then 0 else fp.mtime,
             u_size := fp.u_size,
             chunk_refs := (addChunks encOn fp st fp.chunks).2 }) := by
        rw [addFile]
      have hres : dedupAll encOn det st (fp :: rest) =
          ((dedupAll encOn det (addChunks encOn fp st fp.chunks).1 rest).1,
            ({ path := fp.path, mode := fp.mode,
               mtime := if det then 0 else fp.mtime,
               u_size := fp.u_size,
               chunk_refs :=
                 (addChunks encOn fp st fp.chunks).2 } : FileEntryM) ::
              (dedupAll encOn det (addChunks encOn fp st fp.chunks).1
                rest).2) := by
        rw [dedupAll, haf]
      have haccEq : firstOccAux acc (((fp :: rest).map fun q =>
          q.chunks.map NewChunkM.hash).flatten) =
          firstOccAux (firstOccAux acc (fp.chunks.map NewChunkM.hash))
            ((rest.map fun q => q.chunks.map NewChunkM.hash).flatten) := by
        rw [List.map_cons, List.flatten_cons, firstOccAux_append]
      obtain ⟨hm1, he1, hlen1, href1⟩ :=
        addChunks_spec encOn fp fp.chunks st acc hm he
      obtain ⟨hm2, he2, hlen2, href2⟩ :=
        ih (addChunks encOn fp st fp.chunks).1
          (firstOccAux acc (fp.chunks.map NewChunkM.hash)) hm1 he1
      rw [hres, haccEq]
      refine ⟨hm2, he2, by simp [hlen2], ?_⟩
      intro i fp0 fe hi hf
      cases i with
      | zero =>
          simp only [List.get?_cons_zero, Option.some.injEq] at hi hf
          subst hi
          subst hf
          refine ⟨rfl, hlen1, ?_⟩
          intro j nc ref hj hr
          obtain ⟨hu, hmem, hid⟩ := href1 j nc ref hj hr
          exact ⟨hu, mem_firstOccAux_of_mem _ _ _ hmem,
            by rw [idxOf_firstOccAux _ _ _ hmem]; exact hid⟩
      | succ i' =>
          simp only [List.get?_cons_succ] at hi hf
          exact href2 i' fp0 fe hi hf

/-- C3: the chunk table of a packed archive holds exactly one entry per
distinct chunk hash, ids are assigned in first-appearance order over the
sorted files (each file's chunks in byte order), every `ChunkRef` carries
the chunk's uncompressed size and the id its hash was assigned, so two
chunks with equal hash — in the same or different files — reference the
same chunk-table entry. -/
theorem C3_dedup (P : Prims) (T : TreeM) (opts : Option PackOptsM) :
    (packDedup P T opts).1.entries.length =
      (firstOcc (((packFps P T opts).map fun q =>
        q.chunks.map NewChunkM.hash).flatten)).length ∧
    (packDedup P T opts).2.length = (packFps P T opts).length ∧
    (∀ i fp fe, (packFps P T opts).get? i = some fp →
      (packDedup P T opts).2.get? i = some fe →
      fe.path = fp.path ∧
      fe.chunk_refs.length = fp.chunks.length ∧
      (∀ j nc ref, fp.chunks.get? j = some nc →
        fe.chunk_refs.get? j = some ref →
        ref.u_size = nc.u_size ∧
        ref.id = idxOf nc.hash (firstOcc (((packFps P T opts).map fun q =>
          q.chunks.map NewChunkM.hash).flatten)))) ∧
    (∀ i1 fp1 fe1 j1 nc1 ref1 i2 fp2 fe2 j2 nc2 ref2,
      (packFps P T opts).get? i1 = some fp1 →
      (packDedup P T opts).2.get? i1 = some fe1 →
      fp1.chunks.get? j1 = some nc1 →
      fe1.chunk_refs.get? j1 = some ref1 →
      (packFps P T opts).get? i2 = some fp2 →
      (packDedup P T opts).2.get? i2 = some fe2 →
      fp2.chunks.get? j2 = some nc2 →
      fe2.chunk_refs.get? j2 = some ref2 →
      nc1.hash = nc2.hash → ref1.id = ref2.id) := by
  have hbase : mapInv (⟨[], [], []⟩ : DState).map [] := by
    intro h
    simp [alookup]
  obtain ⟨hm, he, hlen, href⟩ :=
    dedupAll_spec (packEnc opts).isSome (packDet opts) (packFps P T opts)
      ⟨[], [], []⟩ [] hbase rfl
  refine ⟨he, hlen, ?_, ?_⟩
  · intro i fp fe hi hf
    obtain ⟨hp, hl, hr⟩ := href i fp fe hi hf
    exact ⟨hp, hl, fun j nc ref hj hrr =>
      ⟨(hr j nc ref hj hrr).1, (hr j nc ref hj hrr).2.2⟩⟩
  · intro i1 fp1 fe1 j1 nc1 ref1 i2 fp2 fe2 j2 nc2 ref2
      h1 h2 h3 h4 h5 h6 h7 h8 hh
    obtain ⟨-, -, hr1⟩ := href i1 fp1 fe1 h1 h2
    obtain ⟨-, -, hr2⟩ := href i2 fp2 fe2 h5 h6
    have e1 := (hr1 j1 nc1 ref1 h3 h4).2.2
    have e2 := (hr2 j2 nc2 ref2 h7 h8).2.2
    rw [e1, e2, hh]

/-- Witness for C3: the two identical witness files plan to the same single
chunk, the chunk table has exactly one entry, and applying the claim at
concrete indices shows both manifest entries reference the same id. -/
theorem C3_witness :
    (packFps PW treeC3 none).get? 0 = some (fpC3 [97]) ∧
    (packDedup PW treeC3 none).2.get? 0 = some (feC3 [97]) ∧
    (packFps PW treeC3 none).get? 1 = some (fpC3 [98]) ∧
    (packDedup PW treeC3 none).2.get? 1 = some (feC3 [98]) ∧
    (packDedup PW treeC3 none).1.entries.length = 1 ∧
    ({ id := 0, u_size := 2 } : ChunkRefM).id =
      ({ id := 0, u_size := 2 } : ChunkRefM).id := by
  refine ⟨by decide, by decide, by decide, by decide, ?_, ?_⟩
  · exact (C3_dedup PW treeC3 none).1.trans (by decide)
  · exact (C3_dedup PW treeC3 none).2.2.2 0 (fpC3 [97]) (feC3 [97]) 0 ncC3
      ⟨0, 2⟩ 1 (fpC3 [98]) (feC3 [98]) 0 ncC3 ⟨0, 2⟩ (by decide) (by decide)
      (by decide) (by decide) (by decide) (by decide) (by decide) (by decide)
      rfl

/-- Saturating folds stay below 2^64. -/
theorem foldl_satAdd_lt {α : Type} (g : α → Nat) :
    ∀ (l : List α) (a : Nat), a < 2 ^ 64 →
      l.foldl (fun x y => satAdd x (g y)) a < 2 ^ 64 := by
  intro l
  induction l with
  | nil => intro a ha; exact ha
  | cons x t ih => intro a _; exact ih (satAdd a (g x)) (satAdd_lt a (g x))

/-- Pointwise-equal images of parallel lists have equal maps. -/
theorem map_eq_of_get? {α β γ : Type} (f : α → γ) (g : β → γ) :
    ∀ (l1 : List α) (l2 : List β), l1.length = l2.length →
      (∀ i a b, l1.get? i = some a → l2.get? i = some b → f a = g b) →
      l1.map f = l2.map g := by
  intro l1
  induction l1 with
  | nil =>
      intro l2 h _
      cases l2 with
      | nil => rfl
      | cons b u => simp at h
  | cons a t ih =>
      intro l2 h hp
      cases l2 with
      | nil => simp at h
      | cons b u =>
          simp only [List.map_cons]
          rw [hp 0 a b rfl rfl,
            ih u (by simpa using h)
              (fun i x y hx hy => hp (i + 1) x y hx hy)]

/-- Equal-image parallel lists fold the saturating sum identically. -/
theorem foldl_satAdd_map {α β : Type} (g1 : α → Nat) (g2 : β → Nat) :
    ∀ (l1 : List α) (l2 : List β), l1.map g1 = l2.map g2 →
      ∀ a, l1.foldl (fun x y => satAdd x (g1 y)) a =
        l2.foldl (fun x y => satAdd x (g2 y)) a := by
  intro l1
  induction l1 with
  | nil =>
      intro l2 h a
      cases l2 with
      | nil => rfl
      | cons b u => simp at h
  | cons x t ih =>
      intro l2 h a
      cases l2 with
      | nil => simp at h
      | cons y u =>
          simp only [List.map_cons, List.cons.injEq] at h
          simp only [List.foldl_cons, h.1]
          exact ih u h.2 (satAdd a (g2 y))

/-- Flattened length is the sum of the block lengths. -/
theorem flatten_length {α : Type} :
    ∀ (l : List (List α)), l.flatten.length = (l.map List.length).sum := by
  intro l
  induction l with
  | nil => rfl
  | cons a t ih => simp [ih]

/-- Flatten decomposition around the `i`-th block. -/
theorem flatten_eq_take_append {α : Type} :
    ∀ (l : List (List α)) (i : Nat) (p : List α), l.get? i = some p →
      l.flatten = (l.take i).flatten ++ (p ++ (l.drop (i + 1)).flatten) := by
  intro l
  induction l with
  | nil => intro i p h; simp at h
  | cons a t ih =>
      intro i p h
      cases i with
      | zero =>
          simp only [List.get?_cons_zero, Option.some.injEq] at h
          subst h
          simp
      | succ j =>
          simp only [List.get?_cons_succ] at h
          simp only [List.take_succ_cons, List.drop_succ_cons,
            List.flatten_cons, ih j p h]
          simp [List.append_assoc]

/-- Indexing an enumerated-and-sealed list. -/
theorem enumFrom_seal_get? (P : Prims) (k s ad : List Nat) :
    ∀ (l : List (List Nat)) (n i : Nat),
      ((l.enumFrom n).map fun ic =>
        P.sealW k (deriveNonce P s 3 ic.1) ad ic.2).get? i =
        (l.get? i).map fun c => P.sealW k (deriveNonce P s 3 (n + i)) ad c := by
  intro l
  induction l with
  | nil => intro n i; simp
  | cons a t ih =>
      intro n i
      cases i with
      | zero => simp [List.enumFrom]
      | succ j =>
          simp only [List.enumFrom, List.map_cons, List.get?_cons_succ]
          rw [ih (n + 1) j, show n + 1 + j = n + (j + 1) by omega]

theorem packPieces_length (P : Prims) (T : TreeM) (opts : Option PackOptsM) :
    (packPieces P T opts).length = (packComps P T opts).length := by
  rcases h : packEnc opts with _ | ⟨k, s⟩ <;>
    simp [packPieces, h, List.enum_length]

theorem packPieces_get? (P : Prims) (T : TreeM) (opts : Option PackOptsM)
    (i : Nat) :
    (packPieces P T opts).get? i = ((packComps P T opts).get? i).map
      (regionSeal P (packEnc opts) 3 i adChunk) := by
  rcases h : packEnc opts with _ | ⟨k, s⟩
  · simp only [packPieces, h]
    cases hg : (packComps P T opts).get? i <;> simp [regionSeal]
  · simp only [packPieces, h, List.enum]
    rw [enumFrom_seal_get? P k s adChunk (packComps P T opts) 0 i]
    cases hg : (packComps P T opts).get? i <;> simp [regionSeal]

theorem regionSeal_length (P : Prims) (L : Laws P)
    (enc : Option (List Nat × List Nat)) (r c : Nat) (ad pt : List Nat) :
    (regionSeal P enc r c ad pt).length =
      pt.length + (if enc.isSome then 16 else 0) := by
  rcases enc with _ | ⟨k, s⟩
  · simp [regionSeal]
  · simp [regionSeal, L.seal_len]

theorem decryptRegion_regionSeal (P : Prims) (L : Laws P)
    (enc : Option (List Nat × List Nat)) (r c : Nat) (ad pt : List Nat) :
    decryptRegion P enc r c ad (regionSeal P enc r c ad pt) = .ok pt := by
  rcases enc with _ | ⟨k, s⟩
  · rfl
  · simp [regionSeal, decryptRegion, openWhole, L.open_seal]

theorem packManB_eq (P : Prims) (now : Int) (T : TreeM)
    (opts : Option PackOptsM) :
    packManB P now T opts = regionSeal P (packEnc opts) 1 0 adManifest
      (packManifestPlain P now T opts) := by
  rcases h : packEnc opts with _ | ⟨k, s⟩ <;> simp [packManB, regionSeal, h]

theorem packTabB_eq (P : Prims) (now : Int) (T : TreeM)
    (opts : Option PackOptsM) :
    packTabB P now T opts = regionSeal P (packEnc opts) 2 0 adChunktab
      (packTablePlain P now T opts) := by
  rcases h : packEnc opts with _ | ⟨k, s⟩ <;> simp [packTabB, regionSeal, h]

theorem packTabB_length (P : Prims) (L : Laws P) (now : Int) (T : TreeM)
    (opts : Option PackOptsM) :
    (packTabB P now T opts).length = packTableLen P T opts := by
  rw [packTabB_eq, regionSeal_length P L, packTablePlain, writeTable_length,
    packEntries, patchEntries_length, packTableLen]
  by_cases h : (packEnc opts).isSome <;> simp [h]

/-- The assembled archive, spelt as the five concatenated regions. -/
theorem packFile_eq (P : Prims) (now : Int) (T : TreeM)
    (opts : Option PackOptsM) :
    packFile P now T opts =
      sbBytes (packSb P now T opts) ++ packManB P now T opts ++
        packTabB P now T opts ++ (packPieces P T opts).flatten ++
        tailBytes (packTail P now T opts) := rfl

/-- Every chunk planned over a suffix of the content satisfies `ncOk`. -/
theorem planChunks_ncOk (P : Prims) (g : ℚ) (content : List Nat) :
    ∀ (cs : List (List Nat)) (off : Nat), content.drop off = cs.flatten →
      ∀ nc ∈ planChunks P g cs off, ncOk P content nc := by
  intro cs
  induction cs with
  | nil => intro off _ nc h; cases h
  | cons c rest ih =>
      intro off hoff nc h
      have hplain : (content.drop off).take c.length = c := by
        rw [hoff, List.flatten_cons, List.take_left]
      rw [planChunks, List.mem_cons] at h
      rcases h with rfl | h
      · refine ⟨by simp [hplain], ?_, ?_⟩
        · by_cases hz : shouldCompress c.length (P.zstdC c).length g = true <;>
            simp [chunkCodecSize, hz]
        · by_cases hz : shouldCompress c.length (P.zstdC c).length g = true <;>
            simp [chunkCodecSize, hz, hplain]
      · refine ih (off + c.length) ?_ nc h
        rw [← List.drop_drop, hoff, List.flatten_cons, List.drop_left]

/-- One dedup step preserves the entries/plans invariant. -/
theorem addChunk_dstOk (P : Prims) (encOn : Bool) (fp : FilePlanM)
    (st : DState) (nc : NewChunkM) (hok : ncOk P fp.content nc)
    (h : dstOk P encOn st) : dstOk P encOn (addChunk encOn fp st nc).1 := by
  obtain ⟨hlen, hidx⟩ := h
  rcases h' : alookup st.map nc.hash with _ | id
  · simp only [addChunk, h']
    refine ⟨by simp [hlen], ?_⟩
    intro i e cp he hcp
    by_cases hi : i < st.entries.length
    · rw [List.get?_append hi] at he
      rw [List.get?_append (by omega)] at hcp
      exact hidx i e cp he hcp
    · by_cases hieq : i = st.entries.length
      · subst hieq
        rw [List.get?_concat_length] at he
        rw [hlen, List.get?_concat_length] at hcp
        obtain ⟨hl, hc01, hcs⟩ := hok
        have he2 := Option.some.inj he
        have hcp2 := Option.some.inj hcp
        subst he2
        subst hcp2
        have hcomp : (compPure P
            { srcContent := fp.content, off := nc.file_off,
              len := nc.u_size, codec := nc.codec }).length = nc.c_size := by
          rcases hc01 with h0 | h1
          · simp [compPure, h0, hcs, hl]
          · simp [compPure, h1, hcs]
        refine ⟨hc01, rfl, rfl, ?_⟩
        rw [hcomp]
        cases encOn <;> simp
      · have hge : st.entries.length + 1 ≤ i := by omega
        rw [List.get?_eq_none.mpr (by simp; omega)] at he
        exact absurd he (by simp)
  · simp only [addChunk, h']
    exact ⟨hlen, hidx⟩

/-- The invariant across one file's chunk list. -/
theorem addChunks_dstOk (P : Prims) (encOn : Bool) (fp : FilePlanM) :
    ∀ (ncs : List NewChunkM) (st : DState),
      (∀ nc ∈ ncs, ncOk P fp.content nc) → dstOk P encOn st →
      dstOk P encOn (addChunks encOn fp st ncs).1 := by
  intro ncs
  induction ncs with
  | nil => intro st _ h; exact h
  | cons nc rest ih =>
      intro st hok h
      have h1 : (addChunks encOn fp st (nc :: rest)).1 =
          (addChunks encOn fp (addChunk encOn fp st nc).1 rest).1 := by
        rw [addChunks]
      rw [h1]
      exact ih (addChunk encOn fp st nc).1
        (fun x hx => hok x (by simp [hx]))
        (addChunk_dstOk P encOn fp st nc (hok nc (by simp)) h)

/-- The invariant across the whole file list. -/
theorem dedupAll_dstOk (P : Prims) (encOn det : Bool) :
    ∀ (fps : List FilePlanM) (st : DState),
      (∀ fp ∈ fps, ∀ nc ∈ fp.chunks, ncOk P fp.content nc) →
      dstOk P encOn st → dstOk P encOn (dedupAll encOn det st fps).1 := by
  intro fps
  induction fps with
  | nil => intro st _ h; exact h
  | cons fp rest ih =>
      intro st hok h
      have haf : addFile encOn det st fp =
          ((addChunks encOn fp st fp.chunks).1,
           { path := fp.path, mode := fp.mode,
             mtime := if det then 0 else fp.mtime,
             u_size := fp.u_size,
             chunk_refs := (addChunks encOn fp st fp.chunks).2 }) := by
        rw [addFile]
      have h1 : (dedupAll encOn det st (fp :: rest)).1 =
          (dedupAll encOn det (addChunks encOn fp st fp.chunks).1 rest).1 := by
        rw [dedupAll, haf]
      rw [h1]
      exact ih (addChunks encOn fp st fp.chunks).1
        (fun q hq nc hnc => hok q (by simp [hq]) nc hnc)
        (addChunks_dstOk P encOn fp fp.chunks st
          (fun nc hnc => hok fp (by simp) nc hnc) h)

/-- The final dedup state of `pack` satisfies the invariant. -/
theorem packDedup_dstOk (P : Prims) (L : Laws P) (T : TreeM)
    (opts : Option PackOptsM) :
    dstOk P (packEnc opts).isSome (packDedup P T opts).1 := by
  refine dedupAll_dstOk P _ _ (packFps P T opts) ⟨[], [], []⟩ ?_ ?_
  · intro fp hfp nc hnc
    rw [packFps, List.mem_map] at hfp
    obtain ⟨f, -, rfl⟩ := hfp
    refine planChunks_ncOk P _ f.content (P.chunker f.content) 0 ?_ nc hnc
    simpa using (L.chunker_join f.content).symm
  · refine ⟨rfl, ?_⟩
    intro i e cp he hcp
    cases i <;> exact Option.noConfusion he

theorem packEntries_usize_map (P : Prims) (L : Laws P) (now : Int) (T : TreeM)
    (opts : Option PackOptsM) :
    (packEntries P now T opts).map ChunkEntryM.u_size =
      (packDedup P T opts).1.plans.map ChunkPlanM.len := by
  rw [packEntries, patchEntries_map_u_size]
  obtain ⟨hlen, hidx⟩ := packDedup_dstOk P L T opts
  exact map_eq_of_get? _ _ _ _ hlen
    (fun i a b ha hb => (hidx i a b ha hb).2.2.1)

theorem packEntries_csize_map (P : Prims) (L : Laws P) (now : Int) (T : TreeM)
    (opts : Option PackOptsM) :
    (packEntries P now T opts).map ChunkEntryM.c_size =
      (packPieces P T opts).map List.length := by
  rw [packEntries, patchEntries_map_c_size]
  obtain ⟨hlen, hidx⟩ := packDedup_dstOk P L T opts
  refine map_eq_of_get? _ _ _ _ ?_ ?_
  · rw [packPieces_length, packComps, List.length_map]
    exact hlen
  · intro i e piece he hpiece
    rw [packPieces_get?] at hpiece
    cases hc : (packComps P T opts).get? i with
    | none => rw [hc] at hpiece; exact absurd hpiece (by simp)
    | some cp =>
        rw [hc] at hpiece
        have hpe : regionSeal P (packEnc opts) 3 i adChunk cp = piece :=
          Option.some.inj hpiece
        have hc2 := hc
        rw [packComps, List.get?_map] at hc2
        cases hp : (packDedup P T opts).1.plans.get? i with
        | none => rw [hp] at hc2; exact absurd hc2 (by simp)
        | some pl =>
            rw [hp] at hc2
            have hcp : compPure P pl = cp := Option.some.inj hc2
            obtain ⟨-, -, -, hcs⟩ := hidx i e pl he hp
            rw [hcs, hcp, ← hpe, regionSeal_length P L]

/-- The verifier loop on a table whose rows read back their sealed comps:
it accumulates the concatenated plaintexts and the two saturating totals. -/
theorem verifyChunks_ok (P : Prims) (L : Laws P) (f : List Nat)
    (enc : Option (List Nat × List Nat)) :
    ∀ (es : List ChunkEntryM) (cps : List (List Nat)) (id : Nat)
      (acc : List Nat) (tu tc : Nat),
      es.length = cps.length →
      (∀ j e cp, es.get? j = some e → cps.get? j = some cp →
        readExact f e.data_off e.c_size =
          .ok (regionSeal P enc 3 (id + j) adChunk cp)) →
      verifyChunks P f enc id es acc tu tc =
        .ok (acc ++ cps.flatten,
          es.foldl (fun a e => satAdd a e.u_size) tu,
          cps.foldl (fun a c => satAdd a c.length) tc) := by
  intro es
  induction es with
  | nil =>
      intro cps id acc tu tc hlen _
      cases cps with
      | nil => simp [verifyChunks]
      | cons c u => simp at hlen
  | cons e t ih =>
      intro cps id acc tu tc hlen hread
      cases cps with
      | nil => simp at hlen
      | cons cp u =>
          have h0 := hread 0 e cp rfl rfl
          rw [Nat.add_zero] at h0
          have hread' : ∀ j e2 cp2, t.get? j = some e2 → u.get? j = some cp2 →
              readExact f e2.data_off e2.c_size =
                .ok (regionSeal P enc 3 (id + 1 + j) adChunk cp2) := by
            intro j e2 cp2 hj hu
            have hr := hread (j + 1) e2 cp2 hj hu
            rwa [show id + (j + 1) = id + 1 + j by omega] at hr
          rw [verifyChunks, Out.bind_eq, h0, Out.bind_ok, Out.bind_eq,
            decryptRegion_regionSeal P L enc 3 id adChunk cp, Out.bind_ok,
            ih u (id + 1) (acc ++ cp) (satAdd tu e.u_size)
              (satAdd tc cp.length) (by simpa using hlen) hread']
          simp [List.append_assoc]

/-- Reading the `j`-th chunk of a packed archive returns its sealed comp. -/
theorem packRead_chunk (P : Prims) (L : Laws P) (now : Int) (T : TreeM)
    (opts : Option PackOptsM) :
    ∀ j e cp, (packEntries P now T opts).get? j = some e →
      (packComps P T opts).get? j = some cp →
      readExact (packFile P now T opts) e.data_off e.c_size =
        .ok (regionSeal P (packEnc opts) 3 j adChunk cp) := by
  intro j e cp hej hcj
  have hpiecej : (packPieces P T opts).get? j =
      some (regionSeal P (packEnc opts) 3 j adChunk cp) := by
    rw [packPieces_get?, hcj]
    rfl
  rw [packEntries, patchEntries_get?] at hej
  cases he0 : (packDedup P T opts).1.entries.get? j with
  | none => rw [he0] at hej; exact absurd hej (by simp)
  | some e0 =>
      rw [he0] at hej
      have hej2 : { e0 with data_off := packDoff P now T opts +
          (((packDedup P T opts).1.entries.take j).map
            ChunkEntryM.c_size).sum } = e := Option.some.inj hej
      subst hej2
      have hcj2 := hcj
      rw [packComps, List.get?_map] at hcj2
      cases hp0 : (packDedup P T opts).1.plans.get? j with
      | none => rw [hp0] at hcj2; exact absurd hcj2 (by simp)
      | some pl =>
          rw [hp0] at hcj2
          have hcp : compPure P pl = cp := Option.some.inj hcj2
          obtain ⟨-, -, -, hcs⟩ :=
            (packDedup_dstOk P L T opts).2 j _ pl he0 hp0
          have hmapc : (packDedup P T opts).1.entries.map ChunkEntryM.c_size =
              (packPieces P T opts).map List.length := by
            have h1 := packEntries_csize_map P L now T opts
            rw [packEntries, patchEntries_map_c_size] at h1
            exact h1
          have hsum : (((packDedup P T opts).1.entries.take j).map
              ChunkEntryM.c_size).sum =
              (((packPieces P T opts).take j).map List.length).sum := by
            rw [List.map_take, List.map_take, hmapc]
          have hflat := flatten_eq_take_append (packPieces P T opts) j _ hpiecej
          have hF4 : packFile P now T opts =
              (sbBytes (packSb P now T opts) ++ packManB P now T opts ++
                packTabB P now T opts ++
                  ((packPieces P T opts).take j).flatten) ++
              (regionSeal P (packEnc opts) 3 j adChunk cp ++
                (((packPieces P T opts).drop (j + 1)).flatten ++
                  tailBytes (packTail P now T opts))) := by
            rw [packFile_eq P now T opts, hflat]
            simp [List.append_assoc]
          rw [hF4]
          refine readExact_seg _ _ _ ?_ ?_
          · show packDoff P now T opts + _ = _
            simp only [List.length_append, sbBytes_length, flatten_length]
            rw [hsum]
            have h1 : packDoff P now T opts =
                packCto P now T opts + packTableLen P T opts := rfl
            have h2 : packCto P now T opts =
                48 + (packManB P now T opts).length := rfl
            have h3 : (packTabB P now T opts).length = packTableLen P T opts :=
              packTabB_length P L now T opts
            omega
          · show ChunkEntryM.c_size e0 = _
            rw [hcs, hcp, regionSeal_length P L]

/-- Resolving the matching options yields exactly the writer's key pair. -/
theorem resolveEnc_pack (P : Prims) (now : Int) (T : TreeM)
    (opts : Option PackOptsM) :
    resolveEnc ((packSb P now T opts).flags % 2 = 1) (extOptsFor opts) =
      .ok (packEnc opts) := by
  rcases h : packEnc opts with _ | ⟨k, s⟩
  · have hf : (packSb P now T opts).flags = 0 := by simp [packSb, h]
    rw [hf]
    simp [resolveEnc, extOptsFor, h]
  · have hf : (packSb P now T opts).flags = 1 := by simp [packSb, h]
    rw [hf]
    simp [resolveEnc, extOptsFor, h]

/-- C2: verify succeeds on every packed archive — the three recomputed
BLAKE3 digests (manifest plaintext, chunk-table plaintext, concatenated
post-compress chunk plaintexts in id order) and the two saturating byte
totals all equal the values the writer stored in the tail summary. -/
theorem C2_verify (P : Prims) (now : Int) (T : TreeM) (opts : Option PackOptsM)
    (L : Laws P) (hfit : packFits P now T opts) :
    verifyModel P (packFile P now T opts) (extOptsFor opts) = .ok () := by
  have hdoffEq : packDoff P now T opts =
      packCto P now T opts + packTableLen P T opts := rfl
  have hctoEq : packCto P now T opts =
      48 + (packManB P now T opts).length := rfl
  have hdoff : packDoff P now T opts < 2 ^ 64 := hfit.1
  have htabLen : (packTabB P now T opts).length = packTableLen P T opts :=
    packTabB_length P L now T opts
  have hcnt32 : (packDedup P T opts).1.entries.length * 32 ≤
      packTableLen P T opts := by
    by_cases h : (packEnc opts).isSome
    · rw [packTableLen, if_pos h]
      omega
    · rw [packTableLen, if_neg h]
  have hcount : (packDedup P T opts).1.entries.length < 2 ^ 64 := by omega
  have hsbShape : packFile P now T opts = sbBytes (packSb P now T opts) ++
      (packManB P now T opts ++ (packTabB P now T opts ++
        ((packPieces P T opts).flatten ++
          tailBytes (packTail P now T opts)))) := by
    rw [packFile_eq]
    simp [List.append_assoc]
  have hsb : parseSb (packFile P now T opts) = .ok (packSb P now T opts) := by
    rw [hsbShape]
    refine parseSb_round _ _ ?_ ?_ ?_ ?_ ?_ ?_
    · show (3 : Nat) < 2 ^ 16
      norm_num
    · show (packManB P now T opts).length < 2 ^ 64
      omega
    · show packCto P now T opts < 2 ^ 64
      omega
    · show (packDedup P T opts).1.entries.length < 2 ^ 64
      exact hcount
    · show packDoff P now T opts < 2 ^ 64
      exact hdoff
    · show (if (packEnc opts).isSome then 1 else 0) < 2 ^ 64
      split <;> norm_num
  have htailB : (tailBytes (packTail P now T opts)).length = 120 :=
    tailBytes_length _ (L.b3_len _) (L.b3_len _) (L.b3_len _)
  have htail : readTailAtEof (packFile P now T opts) =
      .ok (packTail P now T opts) := by
    rw [packFile_eq P now T opts, readTailAtEof,
      if_neg (by simp only [List.length_append, htailB]; omega)]
    have hsub : (sbBytes (packSb P now T opts) ++ packManB P now T opts ++
        packTabB P now T opts ++ (packPieces P T opts).flatten ++
        tailBytes (packTail P now T opts)).length - 120 =
        (sbBytes (packSb P now T opts) ++ packManB P now T opts ++
        packTabB P now T opts ++ (packPieces P T opts).flatten).length := by
      simp only [List.length_append, htailB]
      omega
    rw [hsub, List.drop_left]
    exact parseTail_round _ (L.b3_len _) (L.b3_len _) (L.b3_len _)
      (foldl_satAdd_lt ChunkPlanM.len _ 0 (by norm_num))
      (foldl_satAdd_lt List.length _ 0 (by norm_num))
  have hmanRead : readExact (packFile P now T opts) 48
      (packSb P now T opts).manifest_len = .ok (packManB P now T opts) := by
    rw [hsbShape]
    exact readExact_seg _ _ _ (by simp) rfl
  have hmanDec : decryptRegion P (packEnc opts) 1 0 adManifest
      (packManB P now T opts) = .ok (packManifestPlain P now T opts) := by
    rw [packManB_eq]
    exact decryptRegion_regionSeal P L _ _ _ _ _
  have hlt : ¬ ((packSb P now T opts).data_off <
      (packSb P now T opts).chunk_table_off) := by
    show ¬ (packDoff P now T opts < packCto P now T opts)
    omega
  have hsubT : (packSb P now T opts).data_off -
      (packSb P now T opts).chunk_table_off = packTableLen P T opts := by
    show packDoff P now T opts - packCto P now T opts = packTableLen P T opts
    omega
  have htabShape : packFile P now T opts =
      (sbBytes (packSb P now T opts) ++ packManB P now T opts) ++
        (packTabB P now T opts ++ ((packPieces P T opts).flatten ++
          tailBytes (packTail P now T opts))) := by
    rw [packFile_eq]
    simp [List.append_assoc]
  have htabRead : readExact (packFile P now T opts)
      (packSb P now T opts).chunk_table_off (packTableLen P T opts) =
      .ok (packTabB P now T opts) := by
    rw [htabShape]
    refine readExact_seg _ _ _ ?_ htabLen.symm
    show packCto P now T opts = _
    rw [hctoEq]
    simp
  have htabDec : decryptRegion P (packEnc opts) 2 0 adChunktab
      (packTabB P now T opts) = .ok (packTablePlain P now T opts) := by
    rw [packTabB_eq]
    exact decryptRegion_regionSeal P L _ _ _ _ _
  have htpLen : (packTablePlain P now T opts).length =
      (packDedup P T opts).1.entries.length * 32 := by
    rw [packTablePlain, writeTable_length, packEntries, patchEntries_length]
  have hccEq : (packSb P now T opts).chunk_count =
      (packEntries P now T opts).length := by
    rw [packEntries, patchEntries_length]
    rfl
  have htabParse : readTableLoose (packTablePlain P now T opts)
      (packSb P now T opts).chunk_count = .ok (packEntries P now T opts) := by
    have hne : ¬ (2 ^ 64 ≤ (packSb P now T opts).chunk_count * 32) := by
      show ¬ (2 ^ 64 ≤ (packDedup P T opts).1.entries.length * 32)
      omega
    have hnl : ¬ ((packTablePlain P now T opts).length <
        (packSb P now T opts).chunk_count * 32) := by
      rw [htpLen]
      show ¬ ((packDedup P T opts).1.entries.length * 32 <
        (packDedup P T opts).1.entries.length * 32)
      omega
    have hpe := parseEntries_writeTable (packEntries P now T opts) [] hfit.2
    rw [List.append_nil] at hpe
    rw [readTableLoose, if_neg hne, if_neg hnl, hccEq, packTablePlain, hpe]
  have hlenEC : (packEntries P now T opts).length =
      (packComps P T opts).length := by
    rw [packEntries, patchEntries_length, packComps, List.length_map]
    exact (packDedup_dstOk P L T opts).1
  have hvc : verifyChunks P (packFile P now T opts) (packEnc opts) 0
      (packEntries P now T opts) [] 0 0 =
      .ok ([] ++ (packComps P T opts).flatten,
        (packEntries P now T opts).foldl (fun a e => satAdd a e.u_size) 0,
        (packComps P T opts).foldl (fun a c => satAdd a c.length) 0) := by
    refine verifyChunks_ok P L _ _ _ _ 0 [] 0 0 hlenEC ?_
    intro j e cp hej hcj
    rw [Nat.zero_add]
    exact packRead_chunk P L now T opts j e cp hej hcj
  have hcond : (packTail P now T opts).manifest_blake3 =
        P.b3 (packManifestPlain P now T opts) ∧
      (packTail P now T opts).chunktab_blake3 =
        P.b3 (packTablePlain P now T opts) ∧
      (packTail P now T opts).data_blake3 =
        P.b3 ([] ++ (packComps P T opts).flatten) ∧
      (packTail P now T opts).total_u =
        (packEntries P now T opts).foldl (fun a e => satAdd a e.u_size) 0 ∧
      (packTail P now T opts).total_c =
        (packComps P T opts).foldl (fun a c => satAdd a c.length) 0 := by
    refine ⟨rfl, rfl, by rw [List.nil_append]; rfl, ?_, rfl⟩
    exact (foldl_satAdd_map ChunkEntryM.u_size ChunkPlanM.len _ _
      (packEntries_usize_map P L now T opts) 0).symm
  simp only [verifyModel, Out.bind_eq]
  rw [hsb]
  simp only [Out.bind_ok]
  rw [htail]
  simp only [Out.bind_ok]
  rw [resolveEnc_pack P now T opts]
  simp only [Out.bind_ok]
  rw [hmanRead]
  simp only [Out.bind_ok]
  rw [hmanDec]
  simp only [Out.bind_ok]
  rw [if_neg hlt]
  rw [hsubT, htabRead]
  simp only [Out.bind_ok]
  rw [htabDec]
  simp only [Out.bind_ok]
  rw [htabParse]
  simp only [Out.bind_ok]
  rw [hvc]
  simp only [Out.bind_ok]
  split
  · rfl
  · rename_i hneg
    exact absurd hcond hneg

/-- Witness for C2 at the one-file tree packed sealed and deterministic. -/
theorem C2_witness :
    Laws PW ∧ packFits PW 7 treeA (some optsSealed) ∧
    verifyModel PW (packFile PW 7 treeA (some optsSealed))
      (extOptsFor (some optsSealed)) = .ok () :=
  ⟨lawsPW, by decide,
    C2_verify PW 7 treeA (some optsSealed) lawsPW (by decide)⟩

theorem idxOf_lt_length (h : List Nat) :
    ∀ (l : List (List Nat)), h ∈ l → idxOf h l < l.length := by
  intro l
  induction l with
  | nil => intro hm; cases hm
  | cons x t ih =>
      intro hm
      by_cases hx : x = h
      · simp [idxOf, hx]
      · rcases List.mem_cons.mp hm with rfl | hm2
        · exact absurd rfl hx
        · simp only [idxOf, if_neg hx, List.length_cons]
          exact Nat.succ_lt_succ (ih hm2)

theorem get?_idxOf (h : List Nat) :
    ∀ (l : List (List Nat)), h ∈ l → l.get? (idxOf h l) = some h := by
  intro l
  induction l with
  | nil => intro hm; cases hm
  | cons x t ih =>
      intro hm
      by_cases hx : x = h
      · simp [idxOf, hx]
      · rcases List.mem_cons.mp hm with rfl | hm2
        · exact absurd rfl hx
        · simp only [idxOf, if_neg hx, List.get?_cons_succ]
          exact ih hm2

theorem mem_insertLt {α : Type} (key : α → List Nat) (x y : α) :
    ∀ (l : List α), y ∈ insertLt key x l → y = x ∨ y ∈ l := by
  intro l
  induction l with
  | nil =>
      intro h
      rw [insertLt] at h
      rcases List.mem_cons.mp h with rfl | h2
      · exact Or.inl rfl
      · cases h2
  | cons z t ih =>
      intro h
      rw [insertLt] at h
      by_cases hc : lexLt (key x) (key z) = true
      · rw [if_pos hc] at h
        rcases List.mem_cons.mp h with rfl | h2
        · exact Or.inl rfl
        · exact Or.inr h2
      · rw [if_neg hc] at h
        rcases List.mem_cons.mp h with rfl | h2
        · exact Or.inr (by simp)
        · rcases ih h2 with h3 | h3
          · exact Or.inl h3
          · exact Or.inr (by simp [h3])

theorem mem_sortByPath {α : Type} (key : α → List Nat) :
    ∀ (l : List α) (x : α), x ∈ sortByPath key l → x ∈ l := by
  intro l
  induction l with
  | nil => intro x h; cases h
  | cons y t ih =>
      intro x h
      rw [sortByPath] at h
      rcases mem_insertLt key y x _ h with rfl | h2
      · simp
      · exact List.mem_cons_of_mem y (ih x h2)

theorem planChunks_length (P : Prims) (g : ℚ) :
    ∀ (cs : List (List Nat)) (off : Nat),
      (planChunks P g cs off).length = cs.length := by
  intro cs
  induction cs with
  | nil => intro off; rfl
  | cons c rest ih => intro off; simp [planChunks, ih]

/-- Indexed planning facts: the `j`-th planned chunk slices back to the
`j`-th chunker output and records its hash. -/
theorem planChunks_get? (P : Prims) (g : ℚ) :
    ∀ (cs : List (List Nat)) (off : Nat) (content : List Nat),
      content.drop off = cs.flatten →
      ∀ j nc, (planChunks P g cs off).get? j = some nc →
        ∃ c, cs.get? j = some c ∧
          (content.drop nc.file_off).take nc.u_size = c ∧
          nc.hash = P.b3 c := by
  intro cs
  induction cs with
  | nil =>
      intro off content _ j nc h
      cases j <;> exact Option.noConfusion h
  | cons c rest ih =>
      intro off content hoff j nc h
      have hplain : (content.drop off).take c.length = c := by
        rw [hoff, List.flatten_cons, List.take_left]
      cases j with
      | zero =>
          rw [planChunks, List.get?_cons_zero] at h
          have h2 := Option.some.inj h
          subst h2
          exact ⟨c, rfl, hplain, rfl⟩
      | succ j2 =>
          rw [planChunks, List.get?_cons_succ] at h
          have hoff2 : content.drop (off + c.length) = rest.flatten := by
            rw [← List.drop_drop, hoff, List.flatten_cons, List.drop_left]
          exact ih (off + c.length) content hoff2 j2 nc h

/-- The plan-side invariant is preserved by one dedup step. -/
theorem addChunk_plans2 (P : Prims) (T : TreeM) (encOn : Bool)
    (fp : FilePlanM) (st : DState) (nc : NewChunkM) (acc : List (List Nat))
    (hm : mapInv st.map acc)
    (hmem : ((fp.content.drop nc.file_off).take nc.u_size) ∈ allChunks P T)
    (hh : P.b3 ((fp.content.drop nc.file_off).take nc.u_size) = nc.hash)
    (hp : plansOk2 P T st acc) :
    plansOk2 P T (addChunk encOn fp st nc).1
      (if nc.hash ∈ acc then acc else acc ++ [nc.hash]) := by
  obtain ⟨hlen, hidx⟩ := hp
  by_cases hmm : nc.hash ∈ acc
  · have hl := hm nc.hash
    rw [if_pos hmm] at hl
    simp only [addChunk, hl, if_pos hmm]
    exact ⟨hlen, hidx⟩
  · have hl := hm nc.hash
    rw [if_neg hmm] at hl
    simp only [addChunk, hl, if_neg hmm]
    refine ⟨by simp [hlen], ?_⟩
    intro i cp h hcp hacc
    by_cases hi : i < st.plans.length
    · rw [List.get?_append hi] at hcp
      rw [List.get?_append (by omega)] at hacc
      exact hidx i cp h hcp hacc
    · by_cases hieq : i = st.plans.length
      · subst hieq
        rw [List.get?_concat_length] at hcp
        rw [hlen, List.get?_concat_length] at hacc
        have h1 := Option.some.inj hcp
        have h2 := Option.some.inj hacc
        subst h1
        subst h2
        exact ⟨hmem, hh⟩
      · rw [List.get?_eq_none.mpr (by simp; omega)] at hcp
        exact absurd hcp (by simp)

/-- The plan-side invariant across one file's chunks. -/
theorem addChunks_plans2 (P : Prims) (T : TreeM) (encOn : Bool)
    (fp : FilePlanM) :
    ∀ (ncs : List NewChunkM) (st : DState) (acc : List (List Nat)),
      mapInv st.map acc → st.entries.length = acc.length →
      plansOk2 P T st acc →
      (∀ nc ∈ ncs,
        ((fp.content.drop nc.file_off).take nc.u_size) ∈ allChunks P T ∧
        P.b3 ((fp.content.drop nc.file_off).take nc.u_size) = nc.hash) →
      plansOk2 P T (addChunks encOn fp st ncs).1
        (firstOccAux acc (ncs.map NewChunkM.hash)) := by
  intro ncs
  induction ncs with
  | nil => intro st acc _ _ hp _; exact hp
  | cons nc rest ih =>
      intro st acc hm he hp hok
      obtain ⟨hm1, he1, -, -, -⟩ := addChunk_spec encOn fp st acc nc hm he
      have hacc : firstOccAux acc ((nc :: rest).map NewChunkM.hash) =
          firstOccAux (if nc.hash ∈ acc then acc else acc ++ [nc.hash])
            (rest.map NewChunkM.hash) := by
        rw [List.map_cons, firstOccAux]
        by_cases hmm : nc.hash ∈ acc
        · rw [if_pos hmm, if_pos hmm]
        · rw [if_neg hmm, if_neg hmm]
      have h1 : (addChunks encOn fp st (nc :: rest)).1 =
          (addChunks encOn fp (addChunk encOn fp st nc).1 rest).1 := by
        rw [addChunks]
      rw [h1, hacc]
      exact ih (addChunk encOn fp st nc).1 _ hm1 he1
        (addChunk_plans2 P T encOn fp st nc acc hm (hok nc (by simp)).1
          (hok nc (by simp)).2 hp)
        (fun x hx => hok x (by simp [hx]))

/-- The plan-side invariant across the whole file list. -/
theorem dedupAll_plans2 (P : Prims) (T : TreeM) (encOn det : Bool) :
    ∀ (fps : List FilePlanM) (st : DState) (acc : List (List Nat)),
      mapInv st.map acc → st.entries.length = acc.length →
      plansOk2 P T st acc →
      (∀ fp ∈ fps, ∀ nc ∈ fp.chunks,
        ((fp.content.drop nc.file_off).take nc.u_size) ∈ allChunks P T ∧
        P.b3 ((fp.content.drop nc.file_off).take nc.u_size) = nc.hash) →
      plansOk2 P T (dedupAll encOn det st fps).1
        (firstOccAux acc ((fps.map fun q =>
          q.chunks.map NewChunkM.hash).flatten)) := by
  intro fps
  induction fps with
  | nil => intro st acc _ _ hp _; exact hp
  | cons fp rest ih =>
      intro st acc hm he hp hok
      obtain ⟨hm1, he1, -, -⟩ := addChunks_spec encOn fp fp.chunks st acc hm he
      have haf : addFile encOn det st fp =
          ((addChunks encOn fp st fp.chunks).1,
           { path := fp.path, mode := fp.mode,
             mtime := if det then 0 else fp.mtime,
             u_size := fp.u_size,
             chunk_refs := (addChunks encOn fp st fp.chunks).2 }) := by
        rw [addFile]
      have h1 : (dedupAll encOn det st (fp :: rest)).1 =
          (dedupAll encOn det (addChunks encOn fp st fp.chunks).1 rest).1 := by
        rw [dedupAll, haf]
      have haccEq : firstOccAux acc (((fp :: rest).map fun q =>
          q.chunks.map NewChunkM.hash).flatten) =
          firstOccAux (firstOccAux acc (fp.chunks.map NewChunkM.hash))
            ((rest.map fun q => q.chunks.map NewChunkM.hash).flatten) := by
        rw [List.map_cons, List.flatten_cons, firstOccAux_append]
      rw [h1, haccEq]
      exact ih (addChunks encOn fp st fp.chunks).1 _ hm1 he1
        (addChunks_plans2 P T encOn fp fp.chunks st acc hm he hp
          (fun nc hnc => hok fp (by simp) nc hnc))
        (fun q hq nc hnc => hok q (by simp [hq]) nc hnc)

/-- The final dedup state of `pack` satisfies the plan-side invariant. -/
theorem packPlans2 (P : Prims) (L : Laws P) (T : TreeM)
    (opts : Option PackOptsM) :
    plansOk2 P T (packDedup P T opts).1
      (firstOcc (((packFps P T opts).map fun q =>
        q.chunks.map NewChunkM.hash).flatten)) := by
  refine dedupAll_plans2 P T _ _ (packFps P T opts) ⟨[], [], []⟩ [] ?_ rfl
    ?_ ?_
  · intro h
    simp [alookup]
  · refine ⟨rfl, ?_⟩
    intro i cp h hcp _
    cases i <;> exact Option.noConfusion hcp
  · intro fp hfp nc hnc
    rw [packFps, List.mem_map] at hfp
    obtain ⟨f, hfT, rfl⟩ := hfp
    obtain ⟨j, hj⟩ := List.get?_of_mem hnc
    obtain ⟨c, hcj, hslice, hhash⟩ := planChunks_get? P _
      (P.chunker f.content) 0 f.content
      (by simpa using (L.chunker_join f.content).symm) j nc hj
    have hcmem : c ∈ P.chunker f.content := List.get?_mem hcj
    constructor
    · show ((f.content.drop nc.file_off).take nc.u_size) ∈ allChunks P T
      rw [hslice]
      exact List.mem_flatten.mpr
        ⟨P.chunker f.content, List.mem_map_of_mem _ hfT, hcmem⟩
    · show P.b3 ((f.content.drop nc.file_off).take nc.u_size) = nc.hash
      rw [hslice, hhash]

/-- Manifest entries copy their plan's metadata (mtime zeroed when
deterministic). -/
theorem dedupAll_fields (encOn det : Bool) :
    ∀ (fps : List FilePlanM) (st : DState) (i : Nat) (fp : FilePlanM)
      (fe : FileEntryM),
      fps.get? i = some fp →
      (dedupAll encOn det st fps).2.get? i = some fe →
      fe.path = fp.path ∧ fe.mode = fp.mode ∧
      fe.mtime = (if det then (0 : Int) else fp.mtime) ∧
      fe.u_size = fp.u_size := by
  intro fps
  induction fps with
  | nil => intro st i fp fe hi _; cases i <;> exact Option.noConfusion hi
  | cons q rest ih =>
      intro st i fp fe hi hf
      have haf : addFile encOn det st q =
          ((addChunks encOn q st q.chunks).1,
           { path := q.path, mode := q.mode,
             mtime := if det then 0 else q.mtime,
             u_size := q.u_size,
             chunk_refs := (addChunks encOn q st q.chunks).2 }) := by
        rw [addFile]
      have hres : dedupAll encOn det st (q :: rest) =
          ((dedupAll encOn det (addChunks encOn q st q.chunks).1 rest).1,
            ({ path := q.path, mode := q.mode,
               mtime := if det then 0 else q.mtime,
               u_size := q.u_size,
               chunk_refs :=
                 (addChunks encOn q st q.chunks).2 } : FileEntryM) ::
              (dedupAll encOn det (addChunks encOn q st q.chunks).1
                rest).2) := by
        rw [dedupAll, haf]
      rw [hres] at hf
      cases i with
      | zero =>
          simp only [List.get?_cons_zero, Option.some.injEq] at hi hf
          subst hi
          subst hf
          exact ⟨rfl, rfl, rfl, rfl⟩
      | succ i2 =>
          simp only [List.get?_cons_succ] at hi hf
          exact ih _ i2 fp fe hi hf

/-- The dir-creation loop on safe paths yields the paths in order. -/
theorem extractDirs_ok :
    ∀ (ds : List DirEntryM), (∀ d ∈ ds, badPath d.path = false) →
      extractDirs ds = .ok (ds.map DirEntryM.path) := by
  intro ds
  induction ds with
  | nil => intro _; rfl
  | cons d t ih =>
      intro hs
      have hd : badPath d.path = false := hs d (by simp)
      simp only [extractDirs, safeJoin, hd, Bool.false_eq_true, if_false,
        Out.bind_eq, Out.bind_ok, ih (fun x hx => hs x (by simp [hx])),
        List.map_cons]

/-- The chunk loop of `extract` on refs whose rows read back, decrypt and
decode to the given blocks returns their concatenation. -/
theorem extractChunks_ok (P : Prims) (L : Laws P) (f : List Nat)
    (enc : Option (List Nat × List Nat)) (table : List ChunkEntryM) :
    ∀ (refs : List ChunkRefM) (cs : List (List Nat)),
      refs.length = cs.length →
      (∀ j r c, refs.get? j = some r → cs.get? j = some c →
        ∃ e cp, table.get? r.id = some e ∧
          readExact f e.data_off e.c_size =
            .ok (regionSeal P enc 3 r.id adChunk cp) ∧
          ((e.codec = 0 ∧ cp = c) ∨ (e.codec = 1 ∧ P.zstdD cp = some c))) →
      extractChunks P f enc table refs = .ok cs.flatten := by
  intro refs
  induction refs with
  | nil =>
      intro cs hlen _
      cases cs with
      | nil => rfl
      | cons c u => simp at hlen
  | cons r t ih =>
      intro cs hlen hidx
      cases cs with
      | nil => simp at hlen
      | cons c u =>
          obtain ⟨e, cp, hte, hre, hcodec⟩ := hidx 0 r c rfl rfl
          have hrest : extractChunks P f enc table t = .ok u.flatten :=
            ih u (by simpa using hlen)
              (fun j r2 c2 hj hc => hidx (j + 1) r2 c2 hj hc)
          simp only [extractChunks, hte, Out.bind_eq]
          rw [hre]
          simp only [Out.bind_ok]
          rw [decryptRegion_regionSeal P L enc 3 r.id adChunk cp]
          simp only [Out.bind_ok]
          rcases hcodec with ⟨h0, rfl⟩ | ⟨h1, hz⟩
          · rw [if_pos h0]
            rw [hrest]
            simp [List.flatten_cons]
          · rw [if_neg (by simp [h1]), if_pos h1, hz]
            rw [hrest]
            simp [List.flatten_cons]

/-- The file loop of `extract` on entries whose paths are safe and whose
refs extract to blocks of the recorded total size. -/
theorem extractFiles_ok (P : Prims) (f : List Nat)
    (enc : Option (List Nat × List Nat)) (table : List ChunkEntryM) :
    ∀ (fes : List FileEntryM) (outs : List (List Nat × List Nat)),
      fes.length = outs.length →
      (∀ i fe o, fes.get? i = some fe → outs.get? i = some o →
        badPath fe.path = false ∧ o.1 = fe.path ∧
        extractChunks P f enc table fe.chunk_refs = .ok o.2 ∧
        o.2.length = fe.u_size) →
      extractFiles P f enc table fes = .ok outs := by
  intro fes
  induction fes with
  | nil =>
      intro outs hlen _
      cases outs with
      | nil => rfl
      | cons o u => simp at hlen
  | cons fe t ih =>
      intro outs hlen hidx
      cases outs with
      | nil => simp at hlen
      | cons o u =>
          obtain ⟨hbp, hp1, hch, hsz⟩ := hidx 0 fe o rfl rfl
          have hrest : extractFiles P f enc table t = .ok u :=
            ih u (by simpa using hlen)
              (fun i fe2 o2 hi ho => hidx (i + 1) fe2 o2 hi ho)
          simp only [extractFiles, safeJoin, hbp, Bool.false_eq_true,
            if_false, Out.bind_eq, Out.bind_ok]
          rw [hch]
          simp only [Out.bind_ok]
          rw [if_neg (by omega)]
          rw [hrest]
          simp only [Out.bind_ok, Out.ok.injEq]
          rw [← hp1]

/-- C1: extracting a packed archive reproduces every input file —
extraction succeeds and yields exactly the sorted dirs' paths and the
sorted files' (path, content) pairs byte-for-byte, while the manifest
records each file's and dir's mode and mtime (mtime zeroed when
deterministic).  Hypotheses: the library contracts, the u64 field bounds,
hash-injectivity on the tree's chunk set, and input paths that pass the
extractor's safety check. -/
theorem C1_round_trip (P : Prims) (now : Int) (T : TreeM)
    (opts : Option PackOptsM) (L : Laws P) (hfit : packFits P now T opts)
    (hinj : ∀ c1 ∈ allChunks P T, ∀ c2 ∈ allChunks P T,
      P.b3 c1 = P.b3 c2 → c1 = c2)
    (hsafeF : ∀ q ∈ T.files, badPath q.path = false)
    (hsafeD : ∀ d ∈ T.dirs, badPath d.path = false) :
    extractModel P (packFile P now T opts) (extOptsFor opts) =
      .ok { dirs := (packDirsSorted T).map InDir.path,
            files := (packFilesSorted T).map fun q => (q.path, q.content) } ∧
    (∀ i q fe, (packFilesSorted T).get? i = some q →
      (packManifest P now T opts).files.get? i = some fe →
      fe.path = q.path ∧ fe.mode = q.mode ∧
      fe.mtime = (if packDet opts then 0 else q.mtime)) ∧
    (∀ i d de, (packDirsSorted T).get? i = some d →
      (packManifest P now T opts).dirs.get? i = some de →
      de.path = d.path ∧ de.mode = d.mode ∧
      de.mtime = (if packDet opts then 0 else d.mtime)) := by
  have hdoffEq : packDoff P now T opts =
      packCto P now T opts + packTableLen P T opts := rfl
  have hctoEq : packCto P now T opts =
      48 + (packManB P now T opts).length := rfl
  have hdoff : packDoff P now T opts < 2 ^ 64 := hfit.1
  have htabLen : (packTabB P now T opts).length = packTableLen P T opts :=
    packTabB_length P L now T opts
  have hcnt32 : (packDedup P T opts).1.entries.length * 32 ≤
      packTableLen P T opts := by
    by_cases h : (packEnc opts).isSome
    · rw [packTableLen, if_pos h]
      omega
    · rw [packTableLen, if_neg h]
  have hcount : (packDedup P T opts).1.entries.length < 2 ^ 64 := by omega
  have hsbShape : packFile P now T opts = sbBytes (packSb P now T opts) ++
      (packManB P now T opts ++ (packTabB P now T opts ++
        ((packPieces P T opts).flatten ++
          tailBytes (packTail P now T opts)))) := by
    rw [packFile_eq]
    simp [List.append_assoc]
  have hsb : parseSb (packFile P now T opts) = .ok (packSb P now T opts) := by
    rw [hsbShape]
    refine parseSb_round _ _ ?_ ?_ ?_ ?_ ?_ ?_
    · show (3 : Nat) < 2 ^ 16
      norm_num
    · show (packManB P now T opts).length < 2 ^ 64
      omega
    · show packCto P now T opts < 2 ^ 64
      omega
    · show (packDedup P T opts).1.entries.length < 2 ^ 64
      exact hcount
    · show packDoff P now T opts < 2 ^ 64
      exact hdoff
    · show (if (packEnc opts).isSome then 1 else 0) < 2 ^ 64
      split <;> norm_num
  have hmanRead : readExact (packFile P now T opts) 48
      (packSb P now T opts).manifest_len = .ok (packManB P now T opts) := by
    rw [hsbShape]
    exact readExact_seg _ _ _ (by simp) rfl
  have hmanDec : decryptRegion P (packEnc opts) 1 0 adManifest
      (packManB P now T opts) = .ok (packManifestPlain P now T opts) := by
    rw [packManB_eq]
    exact decryptRegion_regionSeal P L _ _ _ _ _
  have hdecm : P.decM (packManifestPlain P now T opts) =
      some (packManifest P now T opts) := L.man_rt _
  have hlt : ¬ ((packSb P now T opts).data_off <
      (packSb P now T opts).chunk_table_off) := by
    show ¬ (packDoff P now T opts < packCto P now T opts)
    omega
  have hsubT : (packSb P now T opts).data_off -
      (packSb P now T opts).chunk_table_off = packTableLen P T opts := by
    show packDoff P now T opts - packCto P now T opts = packTableLen P T opts
    omega
  have htabShape : packFile P now T opts =
      (sbBytes (packSb P now T opts) ++ packManB P now T opts) ++
        (packTabB P now T opts ++ ((packPieces P T opts).flatten ++
          tailBytes (packTail P now T opts))) := by
    rw [packFile_eq]
    simp [List.append_assoc]
  have htabRead : readExact (packFile P now T opts)
      (packSb P now T opts).chunk_table_off (packTableLen P T opts) =
      .ok (packTabB P now T opts) := by
    rw [htabShape]
    refine readExact_seg _ _ _ ?_ htabLen.symm
    show packCto P now T opts = _
    rw [hctoEq]
    simp
  have htabDec : decryptRegion P (packEnc opts) 2 0 adChunktab
      (packTabB P now T opts) = .ok (packTablePlain P now T opts) := by
    rw [packTabB_eq]
    exact decryptRegion_regionSeal P L _ _ _ _ _
  have htpLen : (packTablePlain P now T opts).length =
      (packDedup P T opts).1.entries.length * 32 := by
    rw [packTablePlain, writeTable_length, packEntries, patchEntries_length]
  have hccEq : (packSb P now T opts).chunk_count =
      (packEntries P now T opts).length := by
    rw [packEntries, patchEntries_length]
    rfl
  have htabParse : readTableLoose (packTablePlain P now T opts)
      (packSb P now T opts).chunk_count = .ok (packEntries P now T opts) := by
    have hne : ¬ (2 ^ 64 ≤ (packSb P now T opts).chunk_count * 32) := by
      show ¬ (2 ^ 64 ≤ (packDedup P T opts).1.entries.length * 32)
      omega
    have hnl : ¬ ((packTablePlain P now T opts).length <
        (packSb P now T opts).chunk_count * 32) := by
      rw [htpLen]
      show ¬ ((packDedup P T opts).1.entries.length * 32 <
        (packDedup P T opts).1.entries.length * 32)
      omega
    have hpe := parseEntries_writeTable (packEntries P now T opts) [] hfit.2
    rw [List.append_nil] at hpe
    rw [readTableLoose, if_neg hne, if_neg hnl, hccEq, packTablePlain, hpe]
  have hbase : mapInv (⟨[], [], []⟩ : DState).map [] := by
    intro h
    simp [alookup]
  obtain ⟨hmF, heF, hlenF, hrefF⟩ :=
    dedupAll_spec (packEnc opts).isSome (packDet opts) (packFps P T opts)
      ⟨[], [], []⟩ [] hbase rfl
  obtain ⟨hdlen, hdidx⟩ := packDedup_dstOk P L T opts
  obtain ⟨hplen, hpidx⟩ := packPlans2 P L T opts
  have hdirs : extractDirs (packManifest P now T opts).dirs =
      .ok ((packDirsSorted T).map InDir.path) := by
    have h1 : (packManifest P now T opts).dirs =
        (packDirsSorted T).map (fun d =>
          ({ path := d.path, mode := d.mode,
             mtime := if packDet opts then 0 else d.mtime } : DirEntryM)) :=
      rfl
    rw [h1]
    have h2 := extractDirs_ok ((packDirsSorted T).map fun d =>
      ({ path := d.path, mode := d.mode,
         mtime := if packDet opts then 0 else d.mtime } : DirEntryM))
      (by
        intro de hde
        rw [List.mem_map] at hde
        obtain ⟨d, hdT, rfl⟩ := hde
        show badPath d.path = false
        exact hsafeD d (mem_sortByPath InDir.path T.dirs d hdT))
    rw [h2, List.map_map]
    rfl
  have hfiles : extractFiles P (packFile P now T opts) (packEnc opts)
      (packEntries P now T opts) (packManifest P now T opts).files =
      .ok ((packFilesSorted T).map fun q => (q.path, q.content)) := by
    refine extractFiles_ok P _ _ _ _ _ ?_ ?_
    · rw [List.length_map]
      exact hlenF.trans (by rw [packFps, List.length_map])
    · intro i fe o hfe ho
      rw [List.get?_map] at ho
      cases hq : (packFilesSorted T).get? i with
      | none => rw [hq] at ho; exact absurd ho (by simp)
      | some q =>
          rw [hq] at ho
          have ho2 : (q.path, q.content) = o := Option.some.inj ho
          have hfp : (packFps P T opts).get? i =
              some (planFile P (effectiveMinGain opts) q) := by
            rw [packFps, List.get?_map, hq]
            rfl
          obtain ⟨hpath, hmode, hmtime, husize⟩ :=
            dedupAll_fields (packEnc opts).isSome (packDet opts)
              (packFps P T opts) ⟨[], [], []⟩ i _ fe hfp hfe
          obtain ⟨-, hreflen, hrefs⟩ := hrefF i _ fe hfp hfe
          have hq_mem : q ∈ T.files :=
            mem_sortByPath InFile.path T.files q (List.get?_mem hq)
          refine ⟨?_, ?_, ?_, ?_⟩
          · show badPath fe.path = false
            rw [hpath]
            exact hsafeF q hq_mem
          · rw [← ho2]
            exact hpath.symm
          · rw [← ho2]
            show extractChunks P _ _ _ fe.chunk_refs = .ok q.content
            rw [show q.content = (P.chunker q.content).flatten from
              (L.chunker_join q.content).symm]
            refine extractChunks_ok P L _ _ _ fe.chunk_refs
              (P.chunker q.content) ?_ ?_
            · rw [hreflen]
              show (planChunks P (effectiveMinGain opts)
                (P.chunker q.content) 0).length = _
              rw [planChunks_length]
            · intro j r c hj hc
              cases hnc : (planFile P (effectiveMinGain opts) q).chunks.get? j
                with
              | none =>
                  exfalso
                  have hjlt : j < fe.chunk_refs.length := by
                    by_contra hcon
                    rw [List.get?_eq_none.mpr (by omega)] at hj
                    exact absurd hj (by simp)
                  rw [hreflen] at hjlt
                  rw [List.get?_eq_none] at hnc
                  omega
              | some nc =>
                  obtain ⟨hu_eq, hmemfo, hid⟩ := hrefs j nc r hnc hj
                  obtain ⟨c2, hc2, hslice, hhash⟩ := planChunks_get? P _
                    (P.chunker q.content) 0 q.content
                    (by simpa using (L.chunker_join q.content).symm) j nc hnc
                  have hceq : c2 = c := by
                    rw [hc2] at hc
                    exact Option.some.inj hc
                  subst hceq
                  have hidlt : r.id <
                      (packDedup P T opts).1.entries.length := by
                    have h1 := idxOf_lt_length nc.hash _ hmemfo
                    have h2 : (packDedup P T opts).1.entries.length =
                        (firstOccAux [] (((packFps P T opts).map fun q2 =>
                          q2.chunks.map NewChunkM.hash).flatten)).length := heF
                    rw [hid]
                    omega
                  cases he0 : (packDedup P T opts).1.entries.get? r.id with
                  | none =>
                      rw [List.get?_eq_none] at he0
                      omega
                  | some e0 =>
                      cases hp0 : (packDedup P T opts).1.plans.get? r.id with
                      | none =>
                          rw [List.get?_eq_none] at hp0
                          omega
                      | some pl =>
                          have hte : (packEntries P now T opts).get? r.id =
                              some { e0 with
                                      data_off := packDoff P now T opts +
                                        (((packDedup P T opts).1.entries.take
                                          r.id).map
                                            ChunkEntryM.c_size).sum } := by
                            rw [packEntries, patchEntries_get?, he0]
                            rfl
                          have hcp : (packComps P T opts).get? r.id =
                              some (compPure P pl) := by
                            rw [packComps, List.get?_map, hp0]
                            rfl
                          have hread :=
                            packRead_chunk P L now T opts r.id _ _ hte hcp
                          obtain ⟨hc01, hcodec_eq, hul, hcsz⟩ :=
                            hdidx r.id e0 pl he0 hp0
                          have hfo_get : (firstOccAux []
                              (((packFps P T opts).map fun q2 =>
                                q2.chunks.map NewChunkM.hash).flatten)).get?
                                r.id = some nc.hash := by
                            rw [hid]
                            exact get?_idxOf nc.hash _ hmemfo
                          obtain ⟨hmem_pl, hhash_pl⟩ :=
                            hpidx r.id pl nc.hash hp0 hfo_get
                          have hc_mem : c2 ∈ allChunks P T :=
                            List.mem_flatten.mpr ⟨P.chunker q.content,
                              List.mem_map_of_mem _ (List.get?_mem hq),
                              List.get?_mem hc2⟩
                          have hpl_eq :
                              ((pl.srcContent.drop pl.off).take pl.len) =
                                c2 := by
                            refine hinj _ hmem_pl _ hc_mem ?_
                            rw [hhash_pl, hhash]
                          refine ⟨_, compPure P pl, hte, hread, ?_⟩
                          rcases hc01 with hpl0 | hpl1
                          · left
                            constructor
                            · show e0.codec = 0
                              rw [hcodec_eq, hpl0]
                            · show compPure P pl = c2
                              simp [compPure, hpl0, hpl_eq]
                          · right
                            constructor
                            · show e0.codec = 1
                              rw [hcodec_eq, hpl1]
                            · show P.zstdD (compPure P pl) = some c2
                              rw [show compPure P pl = P.zstdC
                                  ((pl.srcContent.drop pl.off).take pl.len)
                                from by simp [compPure, hpl1]]
                              rw [L.zstd_rt, hpl_eq]
          · rw [← ho2, husize]
            show q.content.length =
              ((P.chunker q.content).map List.length).sum
            rw [← flatten_length, L.chunker_join]
  refine ⟨?_, ?_, ?_⟩
  · simp only [extractModel, Out.bind_eq]
    rw [hsb]
    simp only [Out.bind_ok]
    rw [resolveEnc_pack P now T opts]
    simp only [Out.bind_ok]
    rw [hmanRead]
    simp only [Out.bind_ok]
    rw [hmanDec]
    simp only [Out.bind_ok]
    rw [hdecm]
    simp only [Out.bind_ok]
    rw [if_neg hlt]
    rw [hsubT, htabRead]
    simp only [Out.bind_ok]
    rw [htabDec]
    simp only [Out.bind_ok]
    rw [htabParse]
    simp only [Out.bind_ok]
    rw [hdirs]
    simp only [Out.bind_ok]
    rw [hfiles]
    simp only [Out.bind_ok]
  · intro i q fe hq hfe
    have hfp : (packFps P T opts).get? i =
        some (planFile P (effectiveMinGain opts) q) := by
      rw [packFps, List.get?_map, hq]
      rfl
    obtain ⟨hpath, hmode, hmtime, -⟩ :=
      dedupAll_fields (packEnc opts).isSome (packDet opts)
        (packFps P T opts) ⟨[], [], []⟩ i _ fe hfp hfe
    exact ⟨hpath, hmode, hmtime⟩
  · intro i d de hd hde
    have h1 : (packManifest P now T opts).dirs.get? i =
        ((packDirsSorted T).get? i).map fun d2 =>
          ({ path := d2.path, mode := d2.mode,
              mtime := if packDet opts then 0 else d2.mtime } : DirEntryM) :=
      List.get?_map _ _ _
    rw [h1, hd] at hde
    have h2 := Option.some.inj hde
    subst h2
    exact ⟨rfl, rfl, rfl⟩

/-- Witness for C1: the sealed deterministic one-file archive extracts back
to exactly its input file and dir. -/
theorem C1_witness :
    Laws PW ∧ packFits PW 7 treeA (some optsSealed) ∧
    (∀ c1 ∈ allChunks PW treeA, ∀ c2 ∈ allChunks PW treeA,
      PW.b3 c1 = PW.b3 c2 → c1 = c2) ∧
    (packFilesSorted treeA).map (fun q => (q.path, q.content)) =
      [([97], [104, 101, 108, 108, 111])] ∧
    extractModel PW (packFile PW 7 treeA (some optsSealed))
      (extOptsFor (some optsSealed)) =
      .ok { dirs := (packDirsSorted treeA).map InDir.path,
            files := (packFilesSorted treeA).map fun q =>
              (q.path, q.content) } :=
  ⟨lawsPW, by decide, by decide, by decide,
    (C1_round_trip PW 7 treeA (some optsSealed) lawsPW (by decide)
      (by decide) (by decide) (by decide)).1⟩

/-- Witness for C5 at the concrete kit, tree and sealed options. -/
theorem C5_witness :
    Laws PW ∧
    ((packSb PW 7 treeA (some optsSealed)).chunk_table_off =
      48 + (packManifestPlain PW 7 treeA (some optsSealed)).length +
        (if (packEnc (some optsSealed)).isSome then 16 else 0) ∧
    (packSb PW 7 treeA (some optsSealed)).data_off =
      (packSb PW 7 treeA (some optsSealed)).chunk_table_off +
        ((packSb PW 7 treeA (some optsSealed)).chunk_count * 32 +
          (if (packEnc (some optsSealed)).isSome then 16 else 0)) ∧
    (∀ i e, (packEntries PW 7 treeA (some optsSealed)).get? i = some e →
      e.data_off = (packSb PW 7 treeA (some optsSealed)).data_off +
        (((packEntries PW 7 treeA (some optsSealed)).take i).map
          ChunkEntryM.c_size).sum)) :=
  ⟨lawsPW, C5_layout PW 7 treeA (some optsSealed) lawsPW⟩

end Arx
